import Mathlib

/-!
Verification of the task-planning core of the repository
(src/autodev/planning/task.py, graph.py, scheduler.py).

The Python classes are shallowly embedded:
  * Python dicts become insertion-ordered association lists (`Dict`),
    since dict iteration order is observable in the source;
  * Python sets of task ids become `Finset String`; where the source
    iterates over a set, the embedding iterates over the sorted element
    list (the properties proved below are order-independent);
  * Python floats become `ℚ` (all arithmetic in the planning module is
    +, -, *, max, min and comparisons, which are exact);
  * datetimes in the scheduler become rational hour offsets from
    `start_date` (datetime + timedelta(hours=h) is exact arithmetic and
    order-isomorphic to the offsets);
  * raising an exception becomes returning an `Except`/error value,
    paired with the object state at the moment of the raise;
  * `Task.created_at` / `Task.updated_at` and the free-form `tags` /
    `metadata` attributes are not modelled, except that
    `metadata["deadline"]` is modelled by the field `deadline_days`
    (the day count `(fromisoformat(metadata["deadline"]) - now).days`
    that the scheduler derives from it; `none` = key absent or invalid).
-/

set_option allowUnsafeReducibility true

attribute [local semireducible] Rat.add Rat.mul Rat.sub Rat.div Rat.inv Rat.neg

namespace Autodev

/-! ## Python dicts as insertion-ordered association lists -/

/-- A Python dict with string keys: an insertion-ordered association list. -/
abbrev Dict (α : Type) := List (String × α)

/-- Dict lookup (`d.get(k)` / `d[k]`). -/
def dGet {α : Type} : Dict α → String → Option α
  | [], _ => none
  | (k, v) :: rest, key => if k = key then some v else dGet rest key

/-- The key list of a dict, in insertion order. -/
def dKeys {α : Type} (d : Dict α) : List String := d.map Prod.fst

/-- Python dict assignment `d[k] = v`: replaces the value in place when the
key exists, appends a new entry otherwise. -/
def dPut {α : Type} : Dict α → String → α → Dict α
  | [], key, v => [(key, v)]
  | (k, w) :: rest, key, v =>
    if k = key then (k, v) :: rest else (k, w) :: dPut rest key v

/-- In-place update of an existing key; no effect when the key is absent.
Used for the source's `d[k].add(x)` / `d[k] -= 1` style updates, which in
Python presuppose the key (a `KeyError` otherwise); every theorem below
supplies a well-formedness hypothesis under which the key is present. -/
def dAdjust {α : Type} : Dict α → String → (α → α) → Dict α
  | [], _, _ => []
  | (k, v) :: rest, key, f =>
    if k = key then (k, f v) :: dAdjust rest key f
    else (k, v) :: dAdjust rest key f

/-! ## TaskStatus, Priority and Task (task.py) -/

/-- Task lifecycle states (class TaskStatus). -/
inductive TaskStatus
  | notStarted
  | inProgress
  | blocked
  | completed
  | cancelled
deriving DecidableEq, Repr

/-- Base priority levels (class Priority). -/
inductive Priority
  | low
  | medium
  | high
  | critical
deriving DecidableEq, Repr

/-- The numeric `.value` of a Priority member. -/
def Priority.val : Priority → ℚ
  | .low => 1
  | .medium => 2
  | .high => 3
  | .critical => 4

/-- A task (class Task); see the embedding notes at the top of the file for
the fields that are not modelled. -/
structure Task where
  id : String
  title : String
  description : String
  status : TaskStatus
  priority : Priority
  estimated_effort : ℚ
  dependencies : Finset String
  dependents : Finset String
  deadline_days : Option Int
  effective_priority_cache : Option ℚ
deriving DecidableEq

/-- Task.update_status (the updated_at timestamp is not modelled). -/
def Task.update_status (t : Task) (s : TaskStatus) : Task := { t with status := s }

/-- Task.add_dependency: inserts unless it would be a self-dependency. -/
def Task.addDep (t : Task) (tid : String) : Task :=
  if tid ≠ t.id then { t with dependencies := insert tid t.dependencies } else t

/-- Task.remove_dependency: removes when present. -/
def Task.removeDep (t : Task) (tid : String) : Task :=
  if tid ∈ t.dependencies then { t with dependencies := t.dependencies.erase tid } else t

/-- Task.add_dependent: inserts unless it would be a self-dependency. -/
def Task.addDept (t : Task) (tid : String) : Task :=
  if tid ≠ t.id then { t with dependents := insert tid t.dependents } else t

/-- The Task.effective_priority property: the cached value when set, the
base priority's numeric value otherwise. -/
def Task.effective_priority (t : Task) : ℚ :=
  match t.effective_priority_cache with
  | some v => v
  | none => t.priority.val

/-- Task.set_effective_priority. -/
def Task.set_effective_priority (t : Task) (v : ℚ) : Task :=
  { t with effective_priority_cache := some v }

/-! ## TaskGraph state (graph.py) -/

/-- The TaskGraph state: the `tasks` dict, the `_adjacency_list` dict
(task id -> set of dependent ids) and the `_reverse_adjacency` dict
(task id -> set of dependency ids). -/
structure TaskGraph where
  tasks : Dict Task
  adjacency_list : Dict (Finset String)
  reverse_adjacency : Dict (Finset String)
deriving DecidableEq

/-- The empty graph (TaskGraph.__init__). -/
def TaskGraph.empty : TaskGraph := ⟨[], [], []⟩

/-- `self._adjacency_list.get(tid, set())`. -/
def adjOf (g : TaskGraph) (tid : String) : Finset String :=
  (dGet g.adjacency_list tid).getD ∅

/-- `self._reverse_adjacency.get(tid, set())`. -/
def revOf (g : TaskGraph) (tid : String) : Finset String :=
  (dGet g.reverse_adjacency tid).getD ∅

/-- The task-id key list, in insertion order. -/
def keyList (g : TaskGraph) : List String := dKeys g.tasks

/-- The task-id key set. -/
def keySet (g : TaskGraph) : Finset String := (keyList g).toFinset

/-! ## Breadth-first closure (get_all_dependencies / get_all_dependents)

Both methods are the same breadth-first traversal, one over
`_reverse_adjacency` and one over `_adjacency_list`; `bfsClosure` embeds
that loop generically over a neighbour map `adj`.  The finite universe
`U` (every id occurring in the graph) only serves the termination
argument. -/

/-- Every id occurring in a set-valued dict (keys and set elements). -/
def dictIds (d : Dict (Finset String)) : Finset String :=
  d.foldr (fun p acc => insert p.1 (p.2 ∪ acc)) ∅

/-- Every id occurring anywhere in the graph. -/
def allIds (g : TaskGraph) : Finset String :=
  keySet g ∪ dictIds g.adjacency_list ∪ dictIds g.reverse_adjacency

/-- Byte-wise comparison of char lists; a computable total order used to
enumerate id sets deterministically. -/
def charListLe : List Char → List Char → Bool
  | [], _ => true
  | _ :: _, [] => false
  | c :: cs, d :: ds =>
    if c.toNat < d.toNat then true
    else if d.toNat < c.toNat then false
    else charListLe cs ds

/-- The induced order on strings. -/
def strLe (a b : String) : Prop := charListLe a.data b.data = true

instance decStrLe : DecidableRel strLe := fun a b => by
  unfold strLe
  exact inferInstance

instance strLe_isTotal : IsTotal String strLe := by
  have key : ∀ l1 l2 : List Char, charListLe l1 l2 = true ∨ charListLe l2 l1 = true := by
    intro l1
    induction l1 with
    | nil => exact fun l2 => Or.inl rfl
    | cons c cs ih =>
      intro l2
      cases l2 with
      | nil => exact Or.inr rfl
      | cons d ds =>
        rcases Nat.lt_trichotomy c.toNat d.toNat with h | h | h
        · exact Or.inl (by simp [charListLe, h])
        · have hnd : ¬ d.toNat < c.toNat := by omega
          have hnc : ¬ c.toNat < d.toNat := by omega
          rcases ih ds with h' | h'
          · exact Or.inl (by simp [charListLe, hnc, hnd, h'])
          · exact Or.inr (by simp [charListLe, hnc, hnd, h'])
        · exact Or.inr (by simp [charListLe, h])
  exact ⟨fun a b => key a.data b.data⟩

instance strLe_isTrans : IsTrans String strLe := by
  have key : ∀ l1 l2 l3 : List Char, charListLe l1 l2 = true →
      charListLe l2 l3 = true → charListLe l1 l3 = true := by
    intro l1
    induction l1 with
    | nil => exact fun _ _ _ _ => rfl
    | cons c cs ih =>
      intro l2 l3 h1 h2
      cases l2 with
      | nil => simp [charListLe] at h1
      | cons d ds =>
        cases l3 with
        | nil => simp [charListLe] at h2
        | cons e es =>
          rcases Nat.lt_trichotomy c.toNat d.toNat with hcd | hcd | hcd
          · rcases Nat.lt_trichotomy d.toNat e.toNat with hde | hde | hde
            · have : c.toNat < e.toNat := by omega
              simp [charListLe, this]
            · have : c.toNat < e.toNat := by omega
              simp [charListLe, this]
            · have hd : ¬ d.toNat < e.toNat := by omega
              simp [charListLe, hd, hde] at h2
          · rcases Nat.lt_trichotomy d.toNat e.toNat with hde | hde | hde
            · have : c.toNat < e.toNat := by omega
              simp [charListLe, this]
            · have hne1 : ¬ c.toNat < e.toNat := by omega
              have hne2 : ¬ e.toNat < c.toNat := by omega
              have hnd1 : ¬ c.toNat < d.toNat := by omega
              have hnd2 : ¬ d.toNat < c.toNat := by omega
              have hnd3 : ¬ d.toNat < e.toNat := by omega
              have hnd4 : ¬ e.toNat < d.toNat := by omega
              simp [charListLe, hnd1, hnd2] at h1
              simp [charListLe, hnd3, hnd4] at h2
              simp [charListLe, hne1, hne2]
              exact ih ds es h1 h2
            · have hd : ¬ d.toNat < e.toNat := by omega
              simp [charListLe, hd, hde] at h2
          · have hd : ¬ c.toNat < d.toNat := by omega
            simp [charListLe, hd, hcd] at h1
  exact ⟨fun a b c h1 h2 => key a.data b.data c.data h1 h2⟩

instance strLe_isAntisymm : IsAntisymm String strLe := by
  have key : ∀ l1 l2 : List Char, charListLe l1 l2 = true →
      charListLe l2 l1 = true → l1 = l2 := by
    intro l1
    induction l1 with
    | nil =>
      intro l2 h1 h2
      cases l2 with
      | nil => rfl
      | cons d ds => simp [charListLe] at h2
    | cons c cs ih =>
      intro l2 h1 h2
      cases l2 with
      | nil => simp [charListLe] at h1
      | cons d ds =>
        rcases Nat.lt_trichotomy c.toNat d.toNat with h | h | h
        · have : ¬ d.toNat < c.toNat := by omega
          simp [charListLe, h, this] at h2
        · have hnd : ¬ d.toNat < c.toNat := by omega
          have hnc : ¬ c.toNat < d.toNat := by omega
          simp [charListLe, hnc, hnd] at h1 h2
          have hc : c = d := Char.eq_of_val_eq (UInt32.ext h)
          rw [hc, ih ds h1 h2]
        · have : ¬ c.toNat < d.toNat := by omega
          simp [charListLe, h, this] at h1
  constructor
  intro a b h1 h2
  cases a
  cases b
  exact congrArg String.mk (key _ _ h1 h2)

/-- Sorting a multiset of strings into a list, computably. -/
def msortStr (m : Multiset String) : List String :=
  Quot.liftOn m (fun l => List.insertionSort strLe l)
    (fun l1 l2 h =>
      List.eq_of_perm_of_sorted
        ((List.perm_insertionSort strLe l1).trans (h.trans (List.perm_insertionSort strLe l2).symm))
        (List.sorted_insertionSort strLe l1) (List.sorted_insertionSort strLe l2))

/-- A Finset of ids as a sorted list; used wherever the source iterates
over a Python set (the iteration order of a Python set is unspecified;
every property proved below is independent of it). -/
def setToList (s : Finset String) : List String := msortStr s.val

/-- The while-loop of get_all_dependencies / get_all_dependents: pop the
queue head; if unvisited, mark it visited, accumulate its neighbours and
enqueue the unvisited ones.  The fuel argument only bounds the number of
iterations so that the recursion is structural (and hence computable by
the kernel); `bfsClosure_spec` shows that the fuel supplied by the
callers below is never exhausted. -/
def bfsClosure (adj : String → Finset String) : Nat → List String → Finset String →
    Finset String → Finset String
  | 0, _, _, acc => acc
  | _ + 1, [], _, acc => acc
  | fuel + 1, current :: rest, visited, acc =>
    if current ∈ visited then bfsClosure adj fuel rest visited acc
    else
      bfsClosure adj fuel
        (rest ++ (setToList (adj current)).filter fun d => decide (d ∉ insert current visited))
        (insert current visited) (acc ∪ adj current)

/-- Reachability in one or more steps along a neighbour map. -/
inductive StepReach (adj : String → Finset String) : String → String → Prop
  | single {a b : String} : b ∈ adj a → StepReach adj a b
  | tail {a b c : String} : StepReach adj a b → c ∈ adj b → StepReach adj a c

/-- Fuel that `bfsClosure_spec` shows is sufficient for a single-start
traversal over any neighbour map bounded by `U = insert tid (allIds g)`. -/
def bfsFuel (g : TaskGraph) (tid : String) : Nat :=
  let U : Finset String := insert tid (allIds g)
  2 + U.card * (U.card + 1)

/-- get_all_dependencies: breadth-first transitive closure over
`_reverse_adjacency`, empty for an unknown id. -/
def get_all_dependencies (g : TaskGraph) (tid : String) : Finset String :=
  if tid ∈ keyList g then bfsClosure (revOf g) (bfsFuel g tid) [tid] ∅ ∅ else ∅

/-- get_all_dependents: breadth-first transitive closure over
`_adjacency_list`, empty for an unknown id. -/
def get_all_dependents (g : TaskGraph) (tid : String) : Finset String :=
  if tid ∈ keyList g then bfsClosure (adjOf g) (bfsFuel g tid) [tid] ∅ ∅ else ∅

/-! ## Well-formedness

The invariant that the public TaskGraph API maintains: the three dicts
share their key list (with no duplicates), adjacency values are task
ids, `_adjacency_list` and `_reverse_adjacency` mirror each other, and
each Task object's id and dependency/dependent sets agree with the
graph's dicts. -/

def WellFormed (g : TaskGraph) : Prop :=
  (dKeys g.tasks).Nodup ∧
  dKeys g.adjacency_list = dKeys g.tasks ∧
  dKeys g.reverse_adjacency = dKeys g.tasks ∧
  (∀ p ∈ g.adjacency_list, p.2 ⊆ keySet g) ∧
  (∀ p ∈ g.reverse_adjacency, p.2 ⊆ keySet g) ∧
  (∀ a ∈ keyList g, ∀ b ∈ keyList g, (b ∈ adjOf g a ↔ a ∈ revOf g b)) ∧
  (∀ p ∈ g.tasks, p.2.id = p.1 ∧ p.2.dependencies = revOf g p.1 ∧ p.2.dependents = adjOf g p.1)

/-- Acyclicity of the dependency relation: no task reaches itself through
dependency edges. -/
def Acyclic (g : TaskGraph) : Prop := ∀ x, ¬ StepReach (revOf g) x x

/-! ## Graph mutation (graph.py) -/

/-- The exceptions graph.py raises: ValueError and CyclicDependencyError. -/
inductive GraphErr
  | valueError
  | cyclicDependencyError
deriving DecidableEq, Repr

/-- `task.status in (TaskStatus.COMPLETED, TaskStatus.CANCELLED)`. -/
def isTerminal : TaskStatus → Bool
  | .completed => true
  | .cancelled => true
  | _ => false

/-- Mutation of the Task object stored under a key of the tasks dict. -/
def modifyTask (g : TaskGraph) (tid : String) (f : Task → Task) : TaskGraph :=
  { g with tasks := dAdjust g.tasks tid f }

/-- The loop condition of _update_task_blocked_status for one dependency:
`dep_id in self.tasks and self.tasks[dep_id].status != TaskStatus.COMPLETED`. -/
def depBlocks (g : TaskGraph) (dep : String) : Bool :=
  match dGet g.tasks dep with
  | none => false
  | some d => decide (d.status ≠ TaskStatus.completed)

/-- _update_task_blocked_status: a task that is neither Completed nor
Cancelled is forced to Blocked when any of its (in-graph) direct
dependencies is not Completed; otherwise a Blocked task reverts to
NotStarted. -/
def update_task_blocked_status (g : TaskGraph) (tid : String) : TaskGraph :=
  match dGet g.tasks tid with
  | none => g
  | some task =>
    if isTerminal task.status then g
    else if ∃ dep ∈ task.dependencies, depBlocks g dep = true then
      modifyTask g tid (fun t => t.update_status .blocked)
    else if task.status = TaskStatus.blocked then
      modifyTask g tid (fun t => t.update_status .notStarted)
    else g

/-- _would_create_cycle, translated check for check. -/
def would_create_cycle (g : TaskGraph) (tid dep : String) : Bool :=
  if tid = dep then true
  else
    let allDepsOfTask := get_all_dependencies g tid
    if dep ∈ allDepsOfTask then false
    else if tid ∈ get_all_dependencies g dep then true
    else if ∃ x ∈ get_all_dependents g dep, x ∈ allDepsOfTask then true
    else false

/-- add_dependency.  The returned graph is the object state when the call
returns or raises; the `Except` carries the Python return value or the
exception. -/
def add_dependency (g : TaskGraph) (tid dep : String) : TaskGraph × Except GraphErr Bool :=
  if tid = dep then (g, .ok false)
  else if tid ∉ keyList g then (g, .error .valueError)
  else if dep ∉ keyList g then (g, .error .valueError)
  else if would_create_cycle g tid dep then (g, .error .cyclicDependencyError)
  else
    let g1 : TaskGraph :=
      { g with
        adjacency_list := dAdjust g.adjacency_list dep (insert tid),
        reverse_adjacency := dAdjust g.reverse_adjacency tid (insert dep) }
    let g2 := modifyTask g1 tid (fun t => t.addDep dep)
    let g3 := modifyTask g2 dep (fun t => t.addDept tid)
    (update_task_blocked_status g3 tid, .ok true)

/-- remove_dependency. -/
def remove_dependency (g : TaskGraph) (tid dep : String) : TaskGraph × Bool :=
  if tid ∉ keyList g ∨ dep ∉ keyList g then (g, false)
  else if dep ∉ revOf g tid then (g, false)
  else
    let g1 : TaskGraph :=
      { g with
        adjacency_list := dAdjust g.adjacency_list dep (fun s => s.erase tid),
        reverse_adjacency := dAdjust g.reverse_adjacency tid (fun s => s.erase dep) }
    let g2 := modifyTask g1 tid (fun t => t.removeDep dep)
    let g3 := modifyTask g2 dep (fun t => { t with dependents := t.dependents.erase tid })
    (update_task_blocked_status g3 tid, true)

/-- get_dependencies (returns a copy, so the value itself). -/
def get_dependencies (g : TaskGraph) (tid : String) : Finset String :=
  if tid ∉ keyList g then ∅ else revOf g tid

/-- get_dependents. -/
def get_dependents (g : TaskGraph) (tid : String) : Finset String :=
  if tid ∉ keyList g then ∅ else adjOf g tid

/-- The dependency-replay loop at the end of add_task: the first failing
add_dependency raises out of add_task, leaving the partial state. -/
def replayDeps (tid : String) : TaskGraph → List String → TaskGraph × Except GraphErr Unit
  | g, [] => (g, .ok ())
  | g, dep :: rest =>
    match add_dependency g tid dep with
    | (g1, .ok _) => replayDeps tid g1 rest
    | (g1, .error e) => (g1, .error e)

/-- add_task: rejects duplicate ids, registers the task with empty
adjacency rows, then replays the dependencies already present on the
Task object through add_dependency. -/
def add_task (g : TaskGraph) (task : Task) : TaskGraph × Except GraphErr Unit :=
  if task.id ∈ keyList g then (g, .error .valueError)
  else
    let g1 : TaskGraph :=
      { tasks := dPut g.tasks task.id task,
        adjacency_list := dPut g.adjacency_list task.id ∅,
        reverse_adjacency := dPut g.reverse_adjacency task.id ∅ }
    replayDeps task.id g1 (setToList task.dependencies)

/-- get_root_tasks: tasks with no dependencies, in dict order. -/
def get_root_tasks (g : TaskGraph) : List Task :=
  (g.tasks.filter fun p => decide (revOf g p.1 = ∅)).map Prod.snd

/-- get_leaf_tasks: tasks with no dependents, in dict order. -/
def get_leaf_tasks (g : TaskGraph) : List Task :=
  (g.tasks.filter fun p => decide (adjOf g p.1 = ∅)).map Prod.snd

instance decWellFormed (g : TaskGraph) : Decidable (WellFormed g) := by
  unfold WellFormed
  exact inferInstance

/-- A concrete task record (only the fields the claims exercise vary). -/
def mkTask (id : String) (status : TaskStatus) (effort : ℚ)
    (deps depts : Finset String) : Task :=
  { id := id, title := id, description := "", status := status, priority := .medium,
    estimated_effort := effort, dependencies := deps, dependents := depts,
    deadline_days := none, effective_priority_cache := none }

/-- Witness graph for C1: two tasks, `b` depends on `a`. -/
def gC1 : TaskGraph :=
  { tasks := [("a", mkTask "a" .notStarted 1 ∅ {"b"}), ("b", mkTask "b" .blocked 1 {"a"} ∅)],
    adjacency_list := [("a", {"b"}), ("b", ∅)],
    reverse_adjacency := [("a", ∅), ("b", {"a"})] }

/-- Scenario C, step 1: task A with no dependencies, then task B that
depends on A, both through the public API. -/
def gScenC : TaskGraph :=
  (add_task ((add_task TaskGraph.empty (mkTask "A" .notStarted 1 ∅ ∅)).1)
    (mkTask "B" .notStarted 1 {"A"} ∅)).1

/-- Scenario C, step 2: A marked Completed (Task.update_status), then B
re-evaluated through _update_task_blocked_status. -/
def gScenC2 : TaskGraph :=
  update_task_blocked_status
    (modifyTask gScenC "A" (fun t => t.update_status .completed)) "B"

/-! ## Claim C1 witness -/

instance decEqExcept {ε α : Type} [DecidableEq ε] [DecidableEq α] :
    DecidableEq (Except ε α) := fun x y =>
  match x, y with
  | .error e1, .error e2 =>
    if h : e1 = e2 then isTrue (by rw [h]) else isFalse (fun hh => h (by injection hh))
  | .error _, .ok _ => isFalse (fun hh => Except.noConfusion hh)
  | .ok _, .error _ => isFalse (fun hh => Except.noConfusion hh)
  | .ok a1, .ok a2 =>
    if h : a1 = a2 then isTrue (by rw [h]) else isFalse (fun hh => h (by injection hh))

/-- Two unrelated tasks; C6 witness input. -/
def gTwo : TaskGraph :=
  { tasks := [("a", mkTask "a" .notStarted 1 ∅ ∅), ("b", mkTask "b" .notStarted 1 ∅ ∅)],
    adjacency_list := [("a", ∅), ("b", ∅)],
    reverse_adjacency := [("a", ∅), ("b", ∅)] }

/-! ## topological_sort (Kahn's algorithm, claim C4) -/

/-- The in-degree dict: zero for every task, plus one per incoming edge
(`for node in tasks: for dependent in adjacency.get(node, set()): +1`). -/
def initIndeg (g : TaskGraph) : Dict Int :=
  (keyList g).foldl
    (fun d node =>
      (setToList (adjOf g node)).foldl (fun d2 dep => dAdjust d2 dep (fun n => n + 1)) d)
    (g.tasks.map (fun p => (p.1, (0 : Int))))

/-- The inner loop of Kahn's algorithm over one node's dependents:
decrement each dependent's in-degree and collect those that reach zero,
in iteration order. -/
def kahnStep : List String → Dict Int → Dict Int × List String
  | [], indeg => (indeg, [])
  | dep :: rest, indeg =>
    let indeg1 := dAdjust indeg dep (fun n => n - 1)
    let pushed : List String := if dGet indeg1 dep = some 0 then [dep] else []
    let out := kahnStep rest indeg1
    (out.1, pushed ++ out.2)

/-- The while-loop of Kahn's algorithm (fuel-structural; the fuel chosen
in `kahnOrder` is shown sufficient in the proofs below). -/
def kahnLoop (g : TaskGraph) : Nat → List String → Dict Int → List String → List String
  | 0, _, _, acc => acc
  | _ + 1, [], _, acc => acc
  | fuel + 1, node :: rest, indeg, acc =>
    let out := kahnStep (setToList (adjOf g node)) indeg
    kahnLoop g fuel (rest ++ out.2) out.1 (acc ++ [node])

/-- Total positive in-degree, the loop's termination measure. -/
def degSum (indeg : Dict Int) : Nat := (indeg.map (fun p => p.2.toNat)).sum

/-- The emission order of Kahn's algorithm: seed the queue with the
zero-in-degree nodes in dict order, then loop. -/
def kahnOrder (g : TaskGraph) : List String :=
  let indeg := initIndeg g
  let queue := ((initIndeg g).filter (fun p => decide (p.2 = 0))).map Prod.fst
  kahnLoop g (queue.length + degSum indeg + 1) queue indeg []

/-- topological_sort, as the list of emitted task ids (the Python method
returns the corresponding Task objects, `self.tasks[node]` per emitted
node): raises CyclicDependencyError exactly when fewer nodes were emitted
than exist. -/
def topological_sort (g : TaskGraph) : Except GraphErr (List String) :=
  if (kahnOrder g).length ≠ g.tasks.length then Except.error GraphErr.cyclicDependencyError
  else Except.ok (kahnOrder g)

/-- Number of in-graph predecessors (tasks this node depends on counts
from the adjacency rows): the initial in-degree of `v`. -/
def predCount (g : TaskGraph) (v : String) : Nat :=
  ((keyList g).filter (fun u => decide (v ∈ adjOf g u))).length

/-- Number of already-emitted predecessors of `v`. -/
def accPred (g : TaskGraph) (acc : List String) (v : String) : Nat :=
  (acc.filter (fun u => decide (v ∈ adjOf g u))).length

/-! ## Forward and backward scheduling passes (graph.py / scheduler.py)

`_calculate_earliest_start_times` and `_calculate_latest_start_times`
walk the topological order accumulating float dicts; floats are modelled
as `ℚ`.  Python indexes `self.tasks[dep_id]` and the start-time dicts
directly; every id looked up below is a key of the respective dict in
every reachable call (under `WellFormed` the adjacency rows only hold
task ids and both passes initialise an entry per task), so the `getD`
defaults are never exercised and only keep the functions total.  Set
iteration order is unspecified in Python and never affects these folds
(they combine commutatively via `max`/`min`); the embedding fixes the
sorted order `setToList` as elsewhere in this file. -/

/-- `self.tasks[tid].estimated_effort`. -/
def effortOf (g : TaskGraph) (tid : String) : ℚ :=
  ((dGet g.tasks tid).map Task.estimated_effort).getD 0

/-- _calculate_earliest_start_times: `{}` for an empty or cyclic graph,
otherwise a forward pass over the topological order starting from all
zeros, raising each task to every dependency's earliest finish time. -/
def earliest_start_times (g : TaskGraph) : Dict ℚ :=
  if g.tasks.isEmpty then []
  else
    match topological_sort g with
    | .error _ => []
    | .ok order =>
      order.foldl
        (fun es tid =>
          (setToList (revOf g tid)).foldl
            (fun es2 dep =>
              dAdjust es2 tid (fun cur => max cur ((dGet es2 dep).getD 0 + effortOf g dep)))
            es)
        (g.tasks.map (fun p => (p.1, (0 : ℚ))))

/-- The max-completion-time fold of calculate_critical_path (also the
`max_completion_time is None` branch of _calculate_latest_start_times):
from 0.0, the maximum over all tasks of earliest start plus effort. -/
def maxCompletionTime (g : TaskGraph) (es : Dict ℚ) : ℚ :=
  g.tasks.foldl (fun m p => max m ((dGet es p.1).getD 0 + p.2.estimated_effort)) 0

/-- _calculate_latest_start_times on a float argument (the call in
calculate_critical_path): `{}` for an empty or cyclic graph, otherwise a
backward pass over the reversed topological order starting from the
completion time everywhere; a task with no dependents is reset to
completion time minus its effort, and every dependent lowers the task to
the dependent's latest start minus the task's effort. -/
def latest_start_times (g : TaskGraph) (mct : ℚ) : Dict ℚ :=
  if g.tasks.isEmpty then []
  else
    match topological_sort g with
    | .error _ => []
    | .ok order =>
      order.reverse.foldl
        (fun ls tid =>
          let ls1 := if adjOf g tid = ∅
            then dAdjust ls tid (fun _ => mct - effortOf g tid) else ls
          (setToList (adjOf g tid)).foldl
            (fun ls2 dependent =>
              dAdjust ls2 tid
                (fun cur => min cur ((dGet ls2 dependent).getD 0 - effortOf g tid)))
            ls1)
        (g.tasks.map (fun p => (p.1, mct)))

/-! ## The dynamically typed backward pass (claim C2)

calculate_slack_time calls
`self.task_graph._calculate_latest_start_times(earliest_start)`: the
earliest-start DICT lands positionally in the `max_completion_time`
parameter.  Python only discovers the type error at run time, when the
dict-valued `max_completion_time` meets `-` or `min`.  `PyVal` models the
dynamic type of that parameter and of the `latest_start` dict values,
and `Except Unit` models the raised `TypeError`. -/

/-- A float or a float dict: the runtime type of `max_completion_time`
inside _calculate_latest_start_times. -/
inductive PyVal
  | float (q : ℚ)
  | pydict (d : Dict ℚ)
deriving DecidableEq

/-- Python `a - b` with a float right operand: a dict left operand
raises TypeError. -/
def pySub (a : PyVal) (b : ℚ) : Except Unit ℚ :=
  match a with
  | .float q => .ok (q - b)
  | .pydict _ => .error ()

/-- Python `min(a, b)`: ordered comparison involving a dict raises
TypeError. -/
def pyMin (a b : PyVal) : Except Unit PyVal :=
  match a, b with
  | .float x, .float y => .ok (.float (min x y))
  | _, _ => .error ()

/-- _calculate_latest_start_times with the dynamically typed
`max_completion_time` argument (`none` = Python `None`): the same
backward pass as `latest_start_times`, each subtraction and `min`
evaluated under Python's runtime typing; `.error ()` is the function
raising TypeError. -/
def latest_start_times_py (g : TaskGraph) (mctArg : Option PyVal) :
    Except Unit (Dict PyVal) :=
  if g.tasks.isEmpty then .ok []
  else
    match topological_sort g with
    | .error _ => .ok []
    | .ok order =>
      let mct : PyVal := match mctArg with
        | none => .float (maxCompletionTime g (earliest_start_times g))
        | some v => v
      order.reverse.foldlM
        (fun ls tid => do
          let ls1 ← if adjOf g tid = ∅ then do
              let v ← pySub mct (effortOf g tid)
              pure (dAdjust ls tid (fun _ => PyVal.float v))
            else pure ls
          (setToList (adjOf g tid)).foldlM
            (fun ls2 dependent => do
              let dv ← pySub ((dGet ls2 dependent).getD (PyVal.float 0)) (effortOf g tid)
              let mv ← pyMin ((dGet ls2 tid).getD (PyVal.float 0)) (PyVal.float dv)
              pure (dAdjust ls2 tid (fun _ => mv)))
            ls1)
        (g.tasks.map (fun p => (p.1, mct)))

/-- TaskScheduler.calculate_slack_time: None for an unknown id; then the
forward pass, the backward pass called WITH THE EARLIEST-START DICT in
the positional `max_completion_time` slot, and the final subtraction,
with every raised exception caught and turned into None. -/
def calculate_slack_time (g : TaskGraph) (tid : String) : Option ℚ :=
  if tid ∉ keyList g then none
  else
    let es := earliest_start_times g
    match latest_start_times_py g (some (PyVal.pydict es)) with
    | .error _ => none
    | .ok ls =>
      if tid ∈ dKeys es ∧ tid ∈ dKeys ls then
        match pySub ((dGet ls tid).getD (PyVal.float 0)) ((dGet es tid).getD 0) with
        | .ok q => some q
        | .error _ => none
      else none

/-- calculate_critical_path, as the list of critical task ids in
topological order (the Python method returns the Task objects,
`self.tasks[id]` per id): empty for an empty or cyclic graph, otherwise
the tasks whose slack `latest_start - earliest_start` is within 1e-6 of
zero. -/
def calculate_critical_path (g : TaskGraph) : List String :=
  if g.tasks.isEmpty then []
  else
    match topological_sort g with
    | .error _ => []
    | .ok order =>
      let es := earliest_start_times g
      let ls := latest_start_times g (maxCompletionTime g es)
      order.filter
        (fun tid => decide (|(dGet ls tid).getD 0 - (dGet es tid).getD 0| < 1 / 1000000))

/-! ## Path depths and effective priorities (scheduler.py) -/

/-- _dfs_path_depth: raise the stored depth of `tid` to `depth`, then
recurse into every dependent one level deeper.  Fuel-structural: the
fuel bounds the recursion depth, which on an acyclic graph never exceeds
the number of tasks (a longer call chain would repeat a task id and give
a cycle); on a cyclic graph Python would recurse without bound. -/
def dfsPathDepth (g : TaskGraph) : Nat → String → Nat → Dict Nat → Dict Nat
  | 0, _, _, pd => pd
  | fuel + 1, tid, depth, pd =>
    let pd1 := dPut pd tid (max ((dGet pd tid).getD 0) depth)
    (setToList (get_dependents g tid)).foldl
      (fun acc dep => dfsPathDepth g fuel dep (depth + 1) acc) pd1

/-- _calculate_path_depths: one DFS from every root task, depth 0 at the
roots, into a shared dict. -/
def calculate_path_depths (g : TaskGraph) : Dict Nat :=
  (get_root_tasks g).foldl
    (fun pd root => dfsPathDepth g (g.tasks.length + 1) root.id 0 pd) []

/-- The priority_weights dict of TaskScheduler (field order and defaults
from __init__). -/
structure PriorityWeights where
  base_priority : ℚ
  dependency_count : ℚ
  dependent_count : ℚ
  path_depth : ℚ
  effort : ℚ
  urgency : ℚ
deriving DecidableEq

/-- The default weights 1.0, 0.5, 1.5, 2.0, 0.8, 1.2. -/
def defaultWeights : PriorityWeights :=
  { base_priority := 1, dependency_count := 1 / 2, dependent_count := 3 / 2,
    path_depth := 2, effort := 4 / 5, urgency := 6 / 5 }

/-- The urgency ladder of calculate_effective_priorities on
days-until-deadline (`Task.deadline_days` carries the parsed
`(deadline - now).days`; `none` covers both a missing and an unparsable
deadline, where the code adds no urgency term). -/
def urgencyFactor (days : Int) : ℚ :=
  if days ≤ 0 then 5
  else if days ≤ 1 then 3
  else if days ≤ 3 then 2
  else if days ≤ 7 then 3 / 2
  else 1

/-- The loop body of calculate_effective_priorities for one non-terminal
task, in source statement order: base priority times weight; add the
dependency-count term if there are dependencies; add the
dependent-count term if there are transitive dependents; add the
path-depth term if the id has a recorded depth; MULTIPLY by 1.5 if the
id is on the critical path; then add the effort term and, with a
deadline, the urgency term. -/
def effectivePriorityOf (g : TaskGraph) (w : PriorityWeights) (cp : List String)
    (pd : Dict Nat) (tid : String) (task : Task) : ℚ :=
  let p0 := task.priority.val * w.base_priority
  let p1 := if get_dependencies g tid ≠ ∅
    then p0 + ((get_dependencies g tid).card : ℚ) * w.dependency_count else p0
  let p2 := if get_all_dependents g tid ≠ ∅
    then p1 + ((get_all_dependents g tid).card : ℚ) * w.dependent_count else p1
  let p3 := match dGet pd tid with
    | some d => p2 + (d : ℚ) * w.path_depth
    | none => p2
  let p4 := if tid ∈ cp then p3 * (3 / 2) else p3
  let p5 := p4 + task.estimated_effort * w.effort
  match task.deadline_days with
  | some dd => p5 + urgencyFactor dd * w.urgency
  | none => p5

/-- One iteration of the calculate_effective_priorities loop over
`tasks.items()`: a Completed/Cancelled task is assigned 0.0 and
`continue` skips its write-back; any other task is assigned its computed
priority, which is also written back onto the stored Task object. -/
def effPrStep (g : TaskGraph) (w : PriorityWeights) (cp : List String) (pd : Dict Nat)
    (st : Dict ℚ × TaskGraph) (p : String × Task) : Dict ℚ × TaskGraph :=
  if isTerminal p.2.status then (dPut st.1 p.1 0, st.2)
  else
    let v := effectivePriorityOf g w cp pd p.1 p.2
    (dPut st.1 p.1 v, modifyTask st.2 p.1 (fun t => t.set_effective_priority v))

/-- calculate_effective_priorities, with the weights argument already
merged into `w` (the no-argument call uses `defaultWeights`): computes
the critical path (an exception there would fall back to no critical
tasks; our embedded calculate_critical_path is total) and the path
depths, then folds the per-task step over the tasks dict.  Returns the
priorities dict together with the graph carrying the write-back side
effects. -/
def calculate_effective_priorities (g : TaskGraph) (w : PriorityWeights) :
    Dict ℚ × TaskGraph :=
  g.tasks.foldl (effPrStep g w (calculate_critical_path g) (calculate_path_depths g)) ([], g)

/-- The effective priority as claim C3 words it: the 1.5 critical-path
multiplier applied to the full six-term sum, including the effort and
urgency terms (spec-side formula, for comparison with the code). -/
def claimedPriorityC3 (g : TaskGraph) (tid : String) (task : Task) : ℚ :=
  (task.priority.val * 1
   + ((get_dependencies g tid).card : ℚ) * (1 / 2)
   + ((get_all_dependents g tid).card : ℚ) * (3 / 2)
   + (((dGet (calculate_path_depths g) tid).getD 0 : ℕ) : ℚ) * 2
   + task.estimated_effort * (4 / 5)
   + (match task.deadline_days with
      | some dd => urgencyFactor dd * (6 / 5)
      | none => 0)) * (3 / 2)

/-- A one-task graph: `a`, effort 2, no edges, not started. -/
def gOne : TaskGraph :=
  { tasks := [("a", mkTask "a" .notStarted 2 ∅ ∅)],
    adjacency_list := [("a", ∅)],
    reverse_adjacency := [("a", ∅)] }

/-- A one-task graph with the task Completed. -/
def gDone : TaskGraph :=
  { tasks := [("a", mkTask "a" .completed 1 ∅ ∅)],
    adjacency_list := [("a", ∅)],
    reverse_adjacency := [("a", ∅)] }

/-! ## Serialization (claim C5)

`Task.to_dict` always emits every key, so the `.get` defaults in
`Task.from_dict` are never exercised on a round trip and `TaskData`
models the full serialized record; timestamps and tags are not modelled
(they never feed back into the graph structure).  `list(...)` of a set
is serialized in the embedding's fixed sorted order. -/

/-- The dictionary Task.to_dict produces.  `effective_priority` holds
the PROPERTY value (the cache, or the base priority when the cache is
unset); `deadline_days` stands for the serialized `metadata` deadline. -/
structure TaskData where
  id : String
  title : String
  description : String
  status : TaskStatus
  priority : Priority
  effective_priority : ℚ
  estimated_effort : ℚ
  dependencies : List String
  dependents : List String
  deadline_days : Option Int
deriving DecidableEq

/-- Task.to_dict. -/
def Task.to_dict (t : Task) : TaskData :=
  { id := t.id, title := t.title, description := t.description, status := t.status,
    priority := t.priority, effective_priority := t.effective_priority,
    estimated_effort := t.estimated_effort,
    dependencies := setToList t.dependencies, dependents := setToList t.dependents,
    deadline_days := t.deadline_days }

/-- Task.from_dict: rebuilds the Task; the serialized
`effective_priority` is always numeric, so it is installed as the
cache. -/
def Task.from_dict (d : TaskData) : Task :=
  { id := d.id, title := d.title, description := d.description, status := d.status,
    priority := d.priority, estimated_effort := d.estimated_effort,
    dependencies := d.dependencies.toFinset, dependents := d.dependents.toFinset,
    deadline_days := d.deadline_days,
    effective_priority_cache := some d.effective_priority }

/-- The dictionary TaskGraph.to_dict produces: every task's record, and
the non-empty `_reverse_adjacency` rows. -/
structure GraphData where
  tasks : Dict TaskData
  dependencies : Dict (List String)
deriving DecidableEq

/-- TaskGraph.to_dict. -/
def TaskGraph.to_dict (g : TaskGraph) : GraphData :=
  { tasks := g.tasks.map (fun p => (p.1, p.2.to_dict)),
    dependencies := (g.reverse_adjacency.filter (fun p => decide (p.2 ≠ ∅))).map
      (fun p => (p.1, setToList p.2)) }

/-- TaskGraph.from_dict: phase 1 adds every task through add_task, whose
internal dependency replay can raise ValueError (unknown id) or
CyclicDependencyError — NOT caught here, so the first failure aborts the
whole load; phase 2 then replays the serialized dependency rows, and
only THERE failures are caught and dropped with a warning. -/
def TaskGraph.from_dict (d : GraphData) : TaskGraph × Except GraphErr Unit :=
  let phase1 := d.tasks.foldl
    (fun st p =>
      match st.2 with
      | .error _ => st
      | .ok _ => add_task st.1 (Task.from_dict p.2))
    (TaskGraph.empty, Except.ok ())
  match phase1.2 with
  | .error e => (phase1.1, .error e)
  | .ok _ =>
    (d.dependencies.foldl
      (fun gacc p => p.2.foldl (fun g2 dep => (add_dependency g2 p.1 dep).1) gacc)
      phase1.1, .ok ())

/-- Position of a task id in the tasks-dict insertion order. -/
def keyIdx (g : TaskGraph) (a : String) : Nat := (keyList g).indexOf a

/-- Every dependency precedes its dependent in the tasks-dict insertion
order.  It is exactly when this fails that from_dict's phase 1 replays
an edge towards a not-yet-added task and raises. -/
def DepsFirst (g : TaskGraph) : Prop :=
  ∀ a ∈ keyList g, ∀ b ∈ revOf g a, keyIdx g b < keyIdx g a

/-- Every non-terminal task's status already satisfies the
blocked-status rule (the invariant the add/remove API maintains), so the
replay's _update_task_blocked_status calls change nothing. -/
def StatusConsistent (g : TaskGraph) : Prop :=
  ∀ p ∈ g.tasks, isTerminal p.2.status = false →
    ((∃ dep ∈ p.2.dependencies, depBlocks g dep = true) ↔ p.2.status = TaskStatus.blocked)

/-- What a round trip does to a Task that survives it: every field kept,
the effective-priority property value baked into the cache. -/
def cacheBake (t : Task) : Task :=
  { t with effective_priority_cache := some t.effective_priority }

/-- The first `n` task ids in insertion order. -/
def takeKeys (g : TaskGraph) (n : Nat) : List String := dKeys (g.tasks.take n)

/-- The graph state from_dict's phase 1 reaches after adding the first
`n` serialized tasks of a deps-first, status-consistent graph `g`: the
first `n` task records (caches baked), the first `n` adjacency rows
restricted to the ids added so far, and the first `n` (complete) reverse
rows. -/
def phase1Graph (g : TaskGraph) (n : Nat) : TaskGraph :=
  { tasks := (g.tasks.take n).map (fun p => (p.1, cacheBake p.2)),
    adjacency_list := (g.adjacency_list.take n).map
      (fun p => (p.1, p.2.filter (fun b => b ∈ takeKeys g n))),
    reverse_adjacency := g.reverse_adjacency.take n }

/-- The intermediate state inside add_task's dependency replay for the
task at position `n` (id `k`, record `task`), after the sub-collection
`S` of its dependencies has been replayed. -/
def innerGraph (g : TaskGraph) (n : Nat) (k : String) (task : Task)
    (S : Finset String) : TaskGraph :=
  { tasks := (g.tasks.take n).map (fun p => (p.1, cacheBake p.2)) ++ [(k, cacheBake task)],
    adjacency_list := (g.adjacency_list.take n).map
      (fun p => (p.1, p.2.filter (fun b => b ∈ takeKeys g n) ∪
        (if p.1 ∈ S then {k} else ∅))) ++ [(k, ∅)],
    reverse_adjacency := g.reverse_adjacency.take n ++ [(k, S)] }

instance decDepsFirst (g : TaskGraph) : Decidable (DepsFirst g) := by
  unfold DepsFirst
  exact inferInstance

instance decStatusConsistent (g : TaskGraph) : Decidable (StatusConsistent g) := by
  unfold StatusConsistent
  exact inferInstance

/-! ## generate_schedule (claims C8 and C10)

Datetimes are modelled as rational hour offsets from `start_date`
(which itself becomes 0); `timedelta(hours=effort)` is the rational
`effort`.  The heap of ready tasks is modelled as a plain list from
which each pop extracts the lexicographically smallest
`(-effective_priority, task_id)` entry, exactly the element heapq
returns; pushes append.  The returned project_start/end/duration
metrics and the redundant "task" field of each schedule entry are not
modelled (no claim mentions them); the claims concern the schedule
dict and the unscheduled_tasks count.  `resources = 0` would make the
Python code raise ValueError on `min([])`; the claims' theorems assume
at least one resource (the default is 1). -/

/-- A task with its cache forgotten: calculate_effective_priorities
changes stored tasks only up to this projection. -/
def stripCache (t : Task) : Task := { t with effective_priority_cache := none }

/-- One schedule entry: start_time, end_time (hour offsets) and the
chosen resource index. -/
structure SchedEntry where
  start_time : ℚ
  end_time : ℚ
  resource : Nat
deriving DecidableEq

/-- `self.task_graph.tasks[tid].dependencies` (∅ for an unknown id,
where Python would raise KeyError; all lookups below are on present
ids). -/
def depsOf (g : TaskGraph) (tid : String) : Finset String :=
  ((dGet g.tasks tid).map Task.dependencies).getD ∅

/-- `self.task_graph.tasks[tid].effective_priority`. -/
def effPrioOf (g : TaskGraph) (tid : String) : ℚ :=
  ((dGet g.tasks tid).map Task.effective_priority).getD 0

/-- Strict `<` on Python strings (lexicographic by code point). -/
def strLtB (a b : String) : Bool := charListLe a.data b.data && decide (a ≠ b)

/-- Python's `<` on the heap tuples `(-priority, id)`. -/
def entryLt (a b : ℚ × String) : Bool :=
  decide (a.1 < b.1) || (decide (a.1 = b.1) && strLtB a.2 b.2)

/-- Keep the smaller entry (leftmost on ties). -/
def minEntry (p q : ℚ × String) : ℚ × String := if entryLt q p then q else p

/-- heapq.heappop on the modelled heap: extract the smallest entry. -/
def popMin : List (ℚ × String) → Option ((ℚ × String) × List (ℚ × String))
  | [] => none
  | x :: xs =>
    let m := xs.foldl minEntry x
    some (m, (x :: xs).erase m)

/-- `resource_available.index(min(resource_available))`. -/
def idxOfMin (l : List ℚ) : Nat :=
  match l with
  | [] => 0
  | x :: xs => (x :: xs).indexOf (xs.foldl min x)

/-- The initial ready heap: root tasks that are not Completed, with
negated effective priority. -/
def initReady (g : TaskGraph) : List (ℚ × String) :=
  ((get_root_tasks g).filter (fun t => decide (t.status ≠ TaskStatus.completed))).map
    (fun t => (-t.effective_priority, t.id))

/-- One step of the start-time adjustment loop: raise the tentative
start to a scheduled dependency's end time when that is later. -/
def startStep (sched : Dict SchedEntry) (st : ℚ) (dep : String) : ℚ :=
  match dGet sched dep with
  | some e => if e.end_time > st then e.end_time else st
  | none => st

/-- The start time chosen for `tid`: the earliest available resource's
time, raised to the end time of every already-scheduled dependency. -/
def schedStart (g : TaskGraph) (sched : Dict SchedEntry) (ra : List ℚ)
    (tid : String) : ℚ :=
  (setToList (depsOf g tid)).foldl (startStep sched) (ra.getD (idxOfMin ra) 0)

/-- The dependents of `tid` that become ready once `tid` is scheduled:
still unscheduled, with no unscheduled dependency left. -/
def schedPushes (g : TaskGraph) (uns2 : Finset String) (tid : String) : List String :=
  (setToList (get_dependents g tid)).filter (fun dep2 =>
    decide (dep2 ∈ uns2) && decide (∀ dp ∈ depsOf g dep2, dp ∉ uns2))

/-- The scheduling while-loop (fuel-structural; the fuel chosen in
`schedState` is shown sufficient in the proofs below).  State: the
unscheduled id set, the per-resource availability times, the schedule
dict, the ready heap. -/
def schedLoop (g : TaskGraph) : Nat → Finset String → List ℚ → Dict SchedEntry →
    List (ℚ × String) → Finset String × List ℚ × Dict SchedEntry
  | 0, uns, ra, sched, _ => (uns, ra, sched)
  | fuel + 1, uns, ra, sched, ready =>
    if uns = ∅ then (uns, ra, sched)
    else match popMin ready with
    | none => (uns, ra, sched)
    | some ((_, tid), rest) =>
      if tid ∉ uns then schedLoop g fuel uns ra sched rest
      else
        schedLoop g fuel (uns.erase tid)
          (ra.set (idxOfMin ra) (schedStart g sched ra tid + effortOf g tid))
          (dPut sched tid
            ⟨schedStart g sched ra tid,
             schedStart g sched ra tid + effortOf g tid, idxOfMin ra⟩)
          (rest ++ (schedPushes g (uns.erase tid) tid).map
            (fun dep2 => (-effPrioOf g dep2, dep2)))

/-- Fuel sufficient for the loop (each iteration drops the measure
ready.length + |unscheduled| * (|tasks| + 1)). -/
def schedFuel (g : TaskGraph) : Nat :=
  (initReady g).length + (keyList g).toFinset.card * (g.tasks.length + 1) + 1

/-- The final loop state of generate_schedule: run the priority pass,
seed the heap with the non-Completed roots, loop. -/
def schedState (g : TaskGraph) (resources : Nat) :
    Finset String × List ℚ × Dict SchedEntry :=
  let g2 := (calculate_effective_priorities g defaultWeights).2
  schedLoop g2 (schedFuel g2) (keyList g2).toFinset
    (List.replicate resources (0 : ℚ)) [] (initReady g2)

/-- generate_schedule, reduced to the claim-relevant parts of its
return dict: the schedule and the unscheduled_tasks count. -/
def generate_schedule (g : TaskGraph) (resources : Nat) : Dict SchedEntry × Nat :=
  ((schedState g resources).2.2, (schedState g resources).1.card)

/-- A two-task graph: the Completed root `r` with dependent `c`. -/
def gRC : TaskGraph :=
  { tasks := [("r", mkTask "r" .completed 1 ∅ {"c"}),
              ("c", mkTask "c" .notStarted 1 {"r"} ∅)],
    adjacency_list := [("r", {"c"}), ("c", ∅)],
    reverse_adjacency := [("r", ∅), ("c", {"r"})] }

/-! ### Theorems -/

theorem dGet_eq_none {α : Type} (d : Dict α) (k : String) :
    dGet d k = none ↔ k ∉ dKeys d := by
  induction d with
  | nil => simp [dGet, dKeys]
  | cons p rest ih =>
    obtain ⟨a, v⟩ := p
    by_cases h : a = k
    · subst h
      simp [dGet, dKeys]
    · have h' : ¬ k = a := fun hk => h hk.symm
      simp [dGet, dKeys, h, h', ih]

theorem dGet_isSome {α : Type} (d : Dict α) (k : String) :
    (dGet d k).isSome = true ↔ k ∈ dKeys d := by
  rcases h : dGet d k with _ | v
  · simpa using (dGet_eq_none d k).mp h
  · simp only [Option.isSome_some, true_iff]
    by_contra hk
    rw [(dGet_eq_none d k).mpr hk] at h
    exact Option.noConfusion h

theorem dGet_dPut_self {α : Type} (d : Dict α) (k : String) (v : α) :
    dGet (dPut d k v) k = some v := by
  induction d with
  | nil => simp [dPut, dGet]
  | cons p rest ih =>
    obtain ⟨a, w⟩ := p
    by_cases h : a = k
    · subst h
      simp [dPut, dGet]
    · simp [dPut, dGet, h, ih]

theorem dGet_dPut_ne {α : Type} (d : Dict α) (k k' : String) (v : α) (h : k ≠ k') :
    dGet (dPut d k v) k' = dGet d k' := by
  induction d with
  | nil => simp [dPut, dGet, h]
  | cons p rest ih =>
    obtain ⟨a, w⟩ := p
    by_cases ha : a = k
    · subst ha
      simp [dPut, dGet, h]
    · by_cases ha' : a = k'
      · subst ha'
        simp [dPut, dGet, ha]
      · simp [dPut, dGet, ha, ha', ih]

theorem dGet_dAdjust {α : Type} (d : Dict α) (k k' : String) (f : α → α) :
    dGet (dAdjust d k f) k' =
      if k = k' then (dGet d k').map f else dGet d k' := by
  induction d with
  | nil => simp [dAdjust, dGet]
  | cons p rest ih =>
    obtain ⟨a, w⟩ := p
    by_cases ha : a = k
    · subst ha
      by_cases hk : a = k'
      · subst hk
        simp [dAdjust, dGet]
      · simp [dAdjust, dGet, hk, ih]
    · by_cases ha' : a = k'
      · subst ha'
        have hk : ¬ k = a := fun hh => ha hh.symm
        simp [dAdjust, dGet, ha, hk]
      · simp [dAdjust, dGet, ha, ha', ih]

theorem dKeys_dAdjust {α : Type} (d : Dict α) (k : String) (f : α → α) :
    dKeys (dAdjust d k f) = dKeys d := by
  induction d with
  | nil => rfl
  | cons p rest ih =>
    obtain ⟨a, w⟩ := p
    by_cases h : a = k <;> simp [dAdjust, dKeys, h] <;>
      simpa [dKeys] using ih

theorem dKeys_dPut_of_mem {α : Type} (d : Dict α) (k : String) (v : α)
    (h : k ∈ dKeys d) : dKeys (dPut d k v) = dKeys d := by
  induction d with
  | nil => simp [dKeys] at h
  | cons p rest ih =>
    obtain ⟨a, w⟩ := p
    by_cases ha : a = k
    · subst ha
      simp [dPut, dKeys]
    · have h' : k ∈ dKeys rest := by
        simp [dKeys] at h ⊢
        rcases h with h | h
        · exact absurd h.symm ha
        · exact h
      have hrec := ih h'
      simp [dPut, dKeys, ha] at hrec ⊢
      exact hrec

theorem value_subset_dictIds (d : Dict (Finset String)) (k : String) (s : Finset String)
    (h : dGet d k = some s) : s ⊆ dictIds d := by
  induction d with
  | nil => simp [dGet] at h
  | cons p rest ih =>
    obtain ⟨a, w⟩ := p
    by_cases ha : a = k
    · simp [dGet, ha] at h
      subst h
      intro x hx
      simp [dictIds, hx]
    · simp [dGet, ha] at h
      intro x hx
      have := ih h hx
      simp [dictIds] at this ⊢
      tauto

theorem adjOf_subset_allIds (g : TaskGraph) (x : String) : adjOf g x ⊆ allIds g := by
  unfold adjOf
  rcases h : dGet g.adjacency_list x with _ | s
  · simp
  · intro y hy
    have : y ∈ dictIds g.adjacency_list := value_subset_dictIds _ _ _ h (by simpa using hy)
    simp [allIds]
    tauto

theorem revOf_subset_allIds (g : TaskGraph) (x : String) : revOf g x ⊆ allIds g := by
  unfold revOf
  rcases h : dGet g.reverse_adjacency x with _ | s
  · simp
  · intro y hy
    have : y ∈ dictIds g.reverse_adjacency := value_subset_dictIds _ _ _ h (by simpa using hy)
    simp [allIds]
    tauto

theorem mem_msortStr {m : Multiset String} {x : String} : x ∈ msortStr m ↔ x ∈ m := by
  induction m using Quot.ind with
  | _ l =>
    rw [show msortStr (Quot.mk _ l) = List.insertionSort strLe l from rfl]
    rw [(List.perm_insertionSort strLe l).mem_iff]
    exact Iff.symm (Multiset.mem_coe)

theorem nodup_msortStr (m : Multiset String) : m.Nodup → (msortStr m).Nodup := by
  induction m using Quot.ind with
  | _ l =>
    intro h
    exact (List.perm_insertionSort strLe l).nodup_iff.mpr (Multiset.coe_nodup.mp h)

theorem mem_setToList {s : Finset String} {x : String} : x ∈ setToList s ↔ x ∈ s :=
  mem_msortStr

theorem setToList_nodup (s : Finset String) : (setToList s).Nodup :=
  nodup_msortStr s.val s.nodup

theorem StepReach.trans {adj : String → Finset String} {a b c : String}
    (h1 : StepReach adj a b) (h2 : StepReach adj b c) : StepReach adj a c := by
  induction h2 with
  | single h => exact StepReach.tail h1 h
  | tail _ h ih => exact StepReach.tail ih h

theorem StepReach.first_step {adj : String → Finset String} {a b : String}
    (h : StepReach adj a b) : ∃ c, c ∈ adj a := by
  induction h with
  | single h => exact ⟨_, h⟩
  | tail _ _ ih => exact ih

/-- The loop invariant proof for `bfsClosure`: from a state whose
accumulator is exactly the neighbours of the visited set, whose visited
set is closed up to the queue, and whose queue and visited set hold only
the start node and nodes reachable from it, and given enough fuel, the
traversal returns the neighbour union of a reachability-closed superset
`V`. -/
theorem bfsClosure_spec (adj : String → Finset String) (U : Finset String)
    (hU : ∀ x, adj x ⊆ U) (start : String) :
    ∀ (fuel : Nat) (queue : List String) (visited acc : Finset String),
    (∀ x ∈ queue, x ∈ U) →
    queue.length + (U \ visited).card * (U.card + 1) < fuel →
    acc = visited.biUnion adj →
    (∀ v ∈ visited, ∀ d ∈ adj v, d ∈ visited ∨ d ∈ queue) →
    (∀ x ∈ queue, x = start ∨ StepReach adj start x) →
    (∀ v ∈ visited, v = start ∨ StepReach adj start v) →
    ∃ V : Finset String,
      visited ⊆ V ∧ (∀ x ∈ queue, x ∈ V) ∧
      (∀ v ∈ V, adj v ⊆ V) ∧
      (∀ v ∈ V, v = start ∨ StepReach adj start v) ∧
      bfsClosure adj fuel queue visited acc = V.biUnion adj := by
  intro fuel
  induction fuel with
  | zero => intro queue visited acc _ hM; omega
  | succ fuel ih =>
    intro queue visited acc hq hM h1 h2 h3 h4
    match queue with
    | [] =>
      refine ⟨visited, Finset.Subset.refl _, by simp, ?_, h4, by rw [bfsClosure, h1]⟩
      intro v hv d hd
      rcases h2 v hv d hd with h | h
      · exact h
      · simp at h
    | current :: rest =>
      by_cases hcv : current ∈ visited
      · obtain ⟨V, hVsub, hVq, hVcl, hVsound, hVeq⟩ :=
          ih rest visited acc (fun x hx => hq x (List.mem_cons_of_mem _ hx))
            (by simp at hM ⊢; omega) h1
            (fun v hv d hd => by
              rcases h2 v hv d hd with h | h
              · exact Or.inl h
              · rcases List.mem_cons.mp h with h | h
                · exact Or.inl (h ▸ hcv)
                · exact Or.inr h)
            (fun x hx => h3 x (List.mem_cons_of_mem _ hx)) h4
        refine ⟨V, hVsub, ?_, hVcl, hVsound, by rw [bfsClosure, if_pos hcv]; exact hVeq⟩
        intro x hx
        rcases List.mem_cons.mp hx with h | h
        · exact h ▸ hVsub hcv
        · exact hVq x h
      · have hcur : current = start ∨ StepReach adj start current :=
          h3 current (List.mem_cons_self _ _)
        have hcU : current ∈ U := hq current (List.mem_cons_self _ _)
        set pushes :=
          (setToList (adj current)).filter fun d => decide (d ∉ insert current visited) with hp
        have hpushes_nodup : pushes.Nodup := (setToList_nodup _).filter _
        have hpushes_sub : ∀ x ∈ pushes, x ∈ U \ insert current visited := by
          intro x hx
          rw [hp, List.mem_filter] at hx
          refine Finset.mem_sdiff.mpr ⟨hU current (mem_setToList.mp hx.1), ?_⟩
          simpa using hx.2
        have hplen : pushes.length ≤ (U \ insert current visited).card := by
          calc pushes.length = pushes.toFinset.card := (List.toFinset_card_of_nodup hpushes_nodup).symm
          _ ≤ (U \ insert current visited).card := by
            apply Finset.card_le_card
            intro x hx
            exact hpushes_sub x (List.mem_toFinset.mp hx)
        have hcard : (U \ insert current visited).card + 1 = (U \ visited).card := by
          have hins : U \ insert current visited = (U \ visited).erase current := by
            ext x
            simp [Finset.mem_sdiff, Finset.mem_erase]
            tauto
          rw [hins, Finset.card_erase_of_mem (Finset.mem_sdiff.mpr ⟨hcU, hcv⟩)]
          have hpos : 0 < (U \ visited).card :=
            Finset.card_pos.mpr ⟨current, Finset.mem_sdiff.mpr ⟨hcU, hcv⟩⟩
          omega
        have hcardU : (U \ insert current visited).card ≤ U.card :=
          Finset.card_le_card (Finset.sdiff_subset)
        have hM' : (rest ++ pushes).length +
            (U \ insert current visited).card * (U.card + 1) < fuel := by
          rw [List.length_append]
          have hexp : ((U \ insert current visited).card + 1) * (U.card + 1) =
              (U \ insert current visited).card * (U.card + 1) + (U.card + 1) := by ring
          rw [← hcard] at hM
          simp only [List.length_cons] at hM
          rw [hexp] at hM
          omega
        obtain ⟨V, hVsub, hVq, hVcl, hVsound, hVeq⟩ :=
          ih (rest ++ pushes) (insert current visited) (acc ∪ adj current)
            (fun x hx => by
              rcases List.mem_append.mp hx with h | h
              · exact hq x (List.mem_cons_of_mem _ h)
              · exact (Finset.mem_sdiff.mp (hpushes_sub x h)).1)
            hM'
            (by rw [h1, Finset.biUnion_insert, Finset.union_comm])
            (fun v hv d hd => by
              rcases Finset.mem_insert.mp hv with h | h
              · subst h
                by_cases hdv : d ∈ insert v visited
                · exact Or.inl hdv
                · refine Or.inr (List.mem_append.mpr (Or.inr ?_))
                  rw [hp]
                  refine List.mem_filter.mpr ⟨mem_setToList.mpr hd, by simpa using hdv⟩
              · rcases h2 v h d hd with h' | h'
                · exact Or.inl (Finset.mem_insert_of_mem h')
                · rcases List.mem_cons.mp h' with h'' | h''
                  · exact Or.inl (h'' ▸ Finset.mem_insert_self _ _)
                  · exact Or.inr (List.mem_append.mpr (Or.inl h'')))
            (fun x hx => by
              rcases List.mem_append.mp hx with h | h
              · exact h3 x (List.mem_cons_of_mem _ h)
              · have hxadj : x ∈ adj current := by
                  rw [hp, List.mem_filter] at h
                  exact mem_setToList.mp h.1
                rcases hcur with h' | h'
                · exact Or.inr (StepReach.single (h' ▸ hxadj))
                · exact Or.inr (StepReach.tail h' hxadj))
            (fun v hv => by
              rcases Finset.mem_insert.mp hv with h | h
              · exact h ▸ hcur
              · exact h4 v h)
        refine ⟨V, fun x hx => hVsub (Finset.mem_insert_of_mem hx), ?_, hVcl, hVsound, ?_⟩
        · intro x hx
          rcases List.mem_cons.mp hx with h | h
          · exact h ▸ hVsub (Finset.mem_insert_self _ _)
          · exact hVq x (List.mem_append.mpr (Or.inl h))
        · rw [bfsClosure, if_neg hcv]
          exact hVeq

theorem mem_bfsClosure_start (adj : String → Finset String) (U : Finset String)
    (hU : ∀ x, adj x ⊆ U) (start : String) (hs : start ∈ U) (fuel : Nat)
    (hfuel : 1 + (U \ ∅).card * (U.card + 1) < fuel) (x : String) :
    x ∈ bfsClosure adj fuel [start] ∅ ∅ ↔ StepReach adj start x := by
  obtain ⟨V, _, hVq, hVcl, hVsound, hVeq⟩ :=
    bfsClosure_spec adj U hU start fuel [start] ∅ ∅
      (by intro y hy; simp at hy; simpa [hy] using hs)
      (by simpa using hfuel) (by simp) (by simp)
      (by intro y hy; simp at hy; exact Or.inl hy) (by simp)
  have hstart : start ∈ V := hVq start (List.mem_cons_self _ _)
  rw [hVeq]
  constructor
  · intro hx
    obtain ⟨v, hv, hxv⟩ := Finset.mem_biUnion.mp hx
    rcases hVsound v hv with h | h
    · exact StepReach.single (h ▸ hxv)
    · exact StepReach.tail h hxv
  · intro hx
    induction hx with
    | single h => exact Finset.mem_biUnion.mpr ⟨start, hstart, h⟩
    | tail hab hbc ih =>
      obtain ⟨v, hv, hbv⟩ := Finset.mem_biUnion.mp ih
      exact Finset.mem_biUnion.mpr ⟨_, hVcl v hv hbv, hbc⟩

theorem mem_get_all_dependencies (g : TaskGraph) (tid : String)
    (ht : tid ∈ keyList g) (x : String) :
    x ∈ get_all_dependencies g tid ↔ StepReach (revOf g) tid x := by
  rw [get_all_dependencies, if_pos ht]
  exact mem_bfsClosure_start _ (insert tid (allIds g))
    (fun y => (revOf_subset_allIds g y).trans (Finset.subset_insert _ _)) _
    (Finset.mem_insert_self _ _) _ (by simp [bfsFuel]) _

theorem mem_get_all_dependents (g : TaskGraph) (tid : String)
    (ht : tid ∈ keyList g) (x : String) :
    x ∈ get_all_dependents g tid ↔ StepReach (adjOf g) tid x := by
  rw [get_all_dependents, if_pos ht]
  exact mem_bfsClosure_start _ (insert tid (allIds g))
    (fun y => (adjOf_subset_allIds g y).trans (Finset.subset_insert _ _)) _
    (Finset.mem_insert_self _ _) _ (by simp [bfsFuel]) _

theorem mem_of_dGet {α : Type} {d : Dict α} {k : String} {v : α}
    (h : dGet d k = some v) : (k, v) ∈ d := by
  induction d with
  | nil => simp [dGet] at h
  | cons p rest ih =>
    obtain ⟨a, w⟩ := p
    by_cases ha : a = k
    · subst ha
      simp [dGet] at h
      simp [h]
    · simp [dGet, ha] at h
      exact List.mem_cons_of_mem _ (ih h)

theorem adjOf_subset_keySet {g : TaskGraph} (hg : WellFormed g) (a : String) :
    adjOf g a ⊆ keySet g := by
  unfold adjOf
  rcases h : dGet g.adjacency_list a with _ | s
  · simp
  · simpa using hg.2.2.2.1 _ (mem_of_dGet h)

theorem revOf_subset_keySet {g : TaskGraph} (hg : WellFormed g) (a : String) :
    revOf g a ⊆ keySet g := by
  unfold revOf
  rcases h : dGet g.reverse_adjacency a with _ | s
  · simp
  · simpa using hg.2.2.2.2.1 _ (mem_of_dGet h)

theorem adjOf_empty_of_not_key {g : TaskGraph} (hg : WellFormed g) {a : String}
    (ha : a ∉ keyList g) : adjOf g a = ∅ := by
  unfold adjOf
  have : dGet g.adjacency_list a = none := by
    rw [dGet_eq_none, hg.2.1]
    exact ha
  simp [this]

theorem revOf_empty_of_not_key {g : TaskGraph} (hg : WellFormed g) {a : String}
    (ha : a ∉ keyList g) : revOf g a = ∅ := by
  unfold revOf
  have : dGet g.reverse_adjacency a = none := by
    rw [dGet_eq_none, hg.2.2.1]
    exact ha
  simp [this]

theorem key_of_adjOf_ne {g : TaskGraph} (hg : WellFormed g) {a b : String}
    (h : b ∈ adjOf g a) : a ∈ keyList g ∧ b ∈ keyList g := by
  constructor
  · by_contra ha
    rw [adjOf_empty_of_not_key hg ha] at h
    simp at h
  · have := adjOf_subset_keySet hg a h
    simpa [keySet, keyList] using this

theorem key_of_revOf_ne {g : TaskGraph} (hg : WellFormed g) {a b : String}
    (h : b ∈ revOf g a) : a ∈ keyList g ∧ b ∈ keyList g := by
  constructor
  · by_contra ha
    rw [revOf_empty_of_not_key hg ha] at h
    simp at h
  · have := revOf_subset_keySet hg a h
    simpa [keySet, keyList] using this

/-- Mirror property of the two adjacency dicts, in unconditional form. -/
theorem mem_adjOf_iff_mem_revOf {g : TaskGraph} (hg : WellFormed g) (a b : String) :
    b ∈ adjOf g a ↔ a ∈ revOf g b := by
  constructor
  · intro h
    obtain ⟨ha, hb⟩ := key_of_adjOf_ne hg h
    exact (hg.2.2.2.2.2.1 a ha b hb).mp h
  · intro h
    obtain ⟨hb, ha⟩ := key_of_revOf_ne hg h
    exact (hg.2.2.2.2.2.1 a ha b hb).mpr h

/-- Reachability along dependents is the reverse of reachability along
dependencies. -/
theorem stepReach_adj_iff_rev {g : TaskGraph} (hg : WellFormed g) (a b : String) :
    StepReach (adjOf g) a b ↔ StepReach (revOf g) b a := by
  constructor
  · intro h
    induction h with
    | single h => exact StepReach.single ((mem_adjOf_iff_mem_revOf hg _ _).mp h)
    | tail _ h ih =>
      exact StepReach.trans (StepReach.single ((mem_adjOf_iff_mem_revOf hg _ _).mp h)) ih
  · intro h
    induction h with
    | single h => exact StepReach.single ((mem_adjOf_iff_mem_revOf hg _ _).mpr h)
    | tail _ h ih =>
      exact StepReach.trans (StepReach.single ((mem_adjOf_iff_mem_revOf hg _ _).mpr h)) ih

/-- Decidable acyclicity check through the code's own closure function. -/
theorem acyclic_of_check {g : TaskGraph} (hg : WellFormed g)
    (h : ∀ x ∈ keyList g, x ∉ get_all_dependencies g x) : Acyclic g := by
  intro x hx
  obtain ⟨c, hc⟩ := hx.first_step
  have hxkey : x ∈ keyList g := (key_of_revOf_ne hg hc).1
  exact h x hxkey ((mem_get_all_dependencies g x hxkey x).mpr hx)

/-- Acyclicity from a ranking of the keys that strictly drops along
dependency edges (a convenient decidable certificate for concrete
graphs). -/
theorem acyclic_of_rank {g : TaskGraph} (hg : WellFormed g) (rank : String → Nat)
    (h : ∀ a ∈ keyList g, ∀ b ∈ revOf g a, rank b < rank a) : Acyclic g := by
  have hstep : ∀ a b, StepReach (revOf g) a b → rank b < rank a := by
    intro a b hab
    induction hab with
    | single hs => exact h _ (key_of_revOf_ne hg hs).1 _ hs
    | tail _ hs ih => exact lt_trans (h _ (key_of_revOf_ne hg hs).1 _ hs) ih
  intro x hx
  exact lt_irrefl _ (hstep x x hx)

/-! ## The cycle guard (claim C1) -/

/-- On a well-formed acyclic graph with `t ≠ d` both present, the three
sequential checks of _would_create_cycle amount to a single reachability
test: the edge closes a cycle exactly when `t` is in the transitive
dependency closure of `d`.  (The first check cannot mask a cycle because
`d ∈ closure(t)` and `t ∈ closure(d)` together contradict acyclicity,
and the third check is subsumed: a dependent of `d` inside `closure(t)`
would place `d` itself inside `closure(t)`.) -/
theorem would_create_cycle_iff {g : TaskGraph} (hg : WellFormed g) (hac : Acyclic g)
    {t d : String} (hne : t ≠ d) (ht : t ∈ keyList g) (hd : d ∈ keyList g) :
    would_create_cycle g t d = true ↔ t ∈ get_all_dependencies g d := by
  have hmemt := mem_get_all_dependencies g t ht
  have hmemd := mem_get_all_dependencies g d hd
  by_cases h1 : d ∈ get_all_dependencies g t
  · have hnot : t ∉ get_all_dependencies g d := by
      intro h2
      exact hac t (StepReach.trans ((hmemt d).mp h1) ((hmemd t).mp h2))
    simp [would_create_cycle, hne, h1, hnot]
  · by_cases h2 : t ∈ get_all_dependencies g d
    · simp [would_create_cycle, hne, h1, h2]
    · have h3 : ¬ ∃ x ∈ get_all_dependents g d, x ∈ get_all_dependencies g t := by
        rintro ⟨x, hx1, hx2⟩
        have hxd : StepReach (adjOf g) d x := (mem_get_all_dependents g d hd x).mp hx1
        have hdx : StepReach (revOf g) x d := (stepReach_adj_iff_rev hg d x).mp hxd
        have htx : StepReach (revOf g) t x := (hmemt x).mp hx2
        exact h1 ((hmemt d).mpr (htx.trans hdx))
      simp [would_create_cycle, hne, h1, h2, h3]

/-- Claim C1: on a well-formed acyclic graph, for distinct present ids,
add_dependency raises CyclicDependencyError exactly when the dependent is
already reachable from the dependency along dependency edges, and a raise
leaves the whole graph state (tasks dict, both adjacency dicts, hence all
Task dependency/dependent sets and statuses) unchanged. -/
theorem add_dependency_cycle_iff_atomic (g : TaskGraph) (t d : String)
    (hg : WellFormed g) (hac : Acyclic g) (hne : t ≠ d)
    (ht : t ∈ keyList g) (hd : d ∈ keyList g) :
    ((add_dependency g t d).2 = Except.error GraphErr.cyclicDependencyError ↔
      StepReach (revOf g) d t) ∧
    ((add_dependency g t d).2 ≠ Except.ok true → (add_dependency g t d).1 = g) := by
  have hiff := would_create_cycle_iff hg hac hne ht hd
  rw [mem_get_all_dependencies g d hd t] at hiff
  unfold add_dependency
  rw [if_neg hne, if_neg (by simpa using ht), if_neg (by simpa using hd)]
  by_cases hcyc : would_create_cycle g t d
  · rw [if_pos hcyc]
    exact ⟨by simpa using hiff.mp hcyc, fun _ => rfl⟩
  · rw [if_neg hcyc]
    refine ⟨⟨fun h => absurd h (by simp), fun hreach => (hcyc (hiff.mpr hreach)).elim⟩,
      fun hne2 => absurd rfl hne2⟩

/-! ## Support lemmas on _update_task_blocked_status -/

theorem dGet_some_of_mem {α : Type} {d : Dict α} {k : String} (h : k ∈ dKeys d) :
    ∃ v, dGet d k = some v := by
  rcases hv : dGet d k with _ | v
  · exact absurd ((dGet_eq_none d k).mp hv) (by simp [h])
  · exact ⟨v, rfl⟩

theorem update_tbs_adjacency (g : TaskGraph) (tid : String) :
    (update_task_blocked_status g tid).adjacency_list = g.adjacency_list := by
  unfold update_task_blocked_status
  cases h : dGet g.tasks tid
  · rfl
  · dsimp only
    split_ifs <;> rfl

theorem update_tbs_reverse (g : TaskGraph) (tid : String) :
    (update_task_blocked_status g tid).reverse_adjacency = g.reverse_adjacency := by
  unfold update_task_blocked_status
  cases h : dGet g.tasks tid
  · rfl
  · dsimp only
    split_ifs <;> rfl

theorem update_tbs_keyList (g : TaskGraph) (tid : String) :
    keyList (update_task_blocked_status g tid) = keyList g := by
  unfold update_task_blocked_status keyList
  cases h : dGet g.tasks tid
  · rfl
  · dsimp only
    split_ifs <;> simp [modifyTask, dKeys_dAdjust]

theorem update_tbs_get_other (g : TaskGraph) (tid k : String) (hk : k ≠ tid) :
    dGet (update_task_blocked_status g tid).tasks k = dGet g.tasks k := by
  have hne : ¬ tid = k := fun hh => hk hh.symm
  unfold update_task_blocked_status
  cases h : dGet g.tasks tid
  · rfl
  · dsimp only
    split_ifs <;> simp [modifyTask, dGet_dAdjust, hne]

theorem update_tbs_get_self (g : TaskGraph) (tid : String) (task : Task)
    (hfind : dGet g.tasks tid = some task) (hterm : isTerminal task.status = false) :
    dGet (update_task_blocked_status g tid).tasks tid =
      some (if ∃ dep ∈ task.dependencies, depBlocks g dep = true
        then task.update_status TaskStatus.blocked
        else if task.status = TaskStatus.blocked then task.update_status TaskStatus.notStarted
        else task) := by
  unfold update_task_blocked_status
  rw [hfind]
  dsimp only
  rw [if_neg (by simp [hterm])]
  split_ifs with h1 h2 <;> simp [modifyTask, dGet_dAdjust, hfind]

theorem update_tbs_deps_map (g : TaskGraph) (tid k : String) :
    (dGet (update_task_blocked_status g tid).tasks k).map Task.dependencies =
      (dGet g.tasks k).map Task.dependencies := by
  by_cases hk : k = tid
  · subst hk
    rcases hfind : dGet g.tasks k with _ | task
    · simp [update_task_blocked_status, hfind]
    · by_cases hterm : isTerminal task.status
      · simp [update_task_blocked_status, hfind, hterm]
      · rw [update_tbs_get_self g k task hfind (by simpa using hterm)]
        split_ifs <;> simp [Task.update_status]
  · rw [update_tbs_get_other g tid k hk]

theorem update_tbs_depts_map (g : TaskGraph) (tid k : String) :
    (dGet (update_task_blocked_status g tid).tasks k).map Task.dependents =
      (dGet g.tasks k).map Task.dependents := by
  by_cases hk : k = tid
  · subst hk
    rcases hfind : dGet g.tasks k with _ | task
    · simp [update_task_blocked_status, hfind]
    · by_cases hterm : isTerminal task.status
      · simp [update_task_blocked_status, hfind, hterm]
      · rw [update_tbs_get_self g k task hfind (by simpa using hterm)]
        split_ifs <;> simp [Task.update_status]
  · rw [update_tbs_get_other g tid k hk]

theorem depBlocks_eq_of_status_eq {g1 g2 : TaskGraph} (dep : String)
    (h : (dGet g1.tasks dep).map Task.status = (dGet g2.tasks dep).map Task.status) :
    depBlocks g1 dep = depBlocks g2 dep := by
  unfold depBlocks
  rcases h1 : dGet g1.tasks dep with _ | x
  · rcases h2 : dGet g2.tasks dep with _ | y
    · rfl
    · rw [h1, h2] at h
      simp at h
  · rcases h2 : dGet g2.tasks dep with _ | y
    · rw [h1, h2] at h
      simp at h
    · rw [h1, h2] at h
      simp at h
      dsimp only
      rw [h]

theorem Task.addDep_status (t : Task) (x : String) : (t.addDep x).status = t.status := by
  unfold Task.addDep
  split_ifs <;> rfl

theorem Task.addDep_deps_of_ne (t : Task) (x : String) (h : x ≠ t.id) :
    (t.addDep x).dependencies = insert x t.dependencies := by
  unfold Task.addDep
  rw [if_pos h]

theorem Task.removeDep_status (t : Task) (x : String) : (t.removeDep x).status = t.status := by
  unfold Task.removeDep
  split_ifs <;> rfl

theorem Task.removeDep_deps_subset (t : Task) (x : String) :
    (t.removeDep x).dependencies ⊆ t.dependencies := by
  unfold Task.removeDep
  split_ifs
  · exact Finset.erase_subset _ _
  · exact Finset.Subset.refl _

theorem Task.addDep_depts (t : Task) (x : String) : (t.addDep x).dependents = t.dependents := by
  unfold Task.addDep
  split_ifs <;> rfl

theorem Task.addDept_deps (t : Task) (x : String) : (t.addDept x).dependencies = t.dependencies := by
  unfold Task.addDept
  split_ifs <;> rfl

theorem Task.addDept_depts_of_ne (t : Task) (x : String) (h : x ≠ t.id) :
    (t.addDept x).dependents = insert x t.dependents := by
  unfold Task.addDept
  rw [if_pos h]

theorem Task.removeDep_depts (t : Task) (x : String) : (t.removeDep x).dependents = t.dependents := by
  unfold Task.removeDep
  split_ifs <;> rfl

theorem Task.removeDep_deps_of_mem (t : Task) (x : String) (h : x ∈ t.dependencies) :
    (t.removeDep x).dependencies = t.dependencies.erase x := by
  unfold Task.removeDep
  rw [if_pos h]

/-- Decomposition of a successful add_dependency call. -/
theorem add_dependency_ok (g : TaskGraph) (t d : String)
    (h : (add_dependency g t d).2 = Except.ok true) :
    t ≠ d ∧ t ∈ keyList g ∧ d ∈ keyList g ∧ would_create_cycle g t d = false ∧
    (add_dependency g t d).1 =
      update_task_blocked_status
        (modifyTask
          (modifyTask
            { g with
              adjacency_list := dAdjust g.adjacency_list d (insert t),
              reverse_adjacency := dAdjust g.reverse_adjacency t (insert d) }
            t (fun tk => tk.addDep d))
          d (fun tk => tk.addDept t)) t := by
  unfold add_dependency at h ⊢
  split_ifs at h ⊢ with h1 h2 h3 h4 <;>
    first
      | exact ⟨h1, h2, h3, by simpa using h4, rfl⟩
      | simp at h

/-- Decomposition of a successful remove_dependency call. -/
theorem remove_dependency_ok (g : TaskGraph) (t d : String)
    (h : (remove_dependency g t d).2 = true) :
    t ∈ keyList g ∧ d ∈ keyList g ∧ d ∈ revOf g t ∧
    (remove_dependency g t d).1 =
      update_task_blocked_status
        (modifyTask
          (modifyTask
            { g with
              adjacency_list := dAdjust g.adjacency_list d (fun s => s.erase t),
              reverse_adjacency := dAdjust g.reverse_adjacency t (fun s => s.erase d) }
            t (fun tk => tk.removeDep d))
          d (fun tk => { tk with dependents := tk.dependents.erase t })) t := by
  unfold remove_dependency at h ⊢
  split_ifs at h ⊢ with h1 h2
  push_neg at h1
  exact ⟨h1.1, h1.2, h2, rfl⟩

/-- The status of the updated task after _update_task_blocked_status, in
terms of the status snapshot before the call, provided the task does not
depend on itself. -/
theorem update_tbs_status_spec (gE : TaskGraph) (t : String) (tmid : Task)
    (hfind : dGet gE.tasks t = some tmid)
    (hterm : isTerminal tmid.status = false)
    (hne : ∀ dep ∈ tmid.dependencies, dep ≠ t) :
    ∀ t1, dGet (update_task_blocked_status gE t).tasks t = some t1 →
      t1.status = (if ∃ dep ∈ t1.dependencies,
          depBlocks (update_task_blocked_status gE t) dep = true
        then TaskStatus.blocked
        else if tmid.status = TaskStatus.blocked then TaskStatus.notStarted
        else tmid.status) := by
  intro t1 ht1
  rw [update_tbs_get_self gE t tmid hfind hterm] at ht1
  have ht1' := (Option.some.inj ht1).symm
  have hdb : ∀ dep, dep ≠ t →
      depBlocks (update_task_blocked_status gE t) dep = depBlocks gE dep := fun dep hdep =>
    depBlocks_eq_of_status_eq dep (by rw [update_tbs_get_other gE t dep hdep])
  by_cases hP : ∃ dep ∈ tmid.dependencies, depBlocks gE dep = true
  · rw [if_pos hP] at ht1'
    have hdeps : t1.dependencies = tmid.dependencies := by
      rw [ht1']
      rfl
    have hcond : ∃ dep ∈ t1.dependencies,
        depBlocks (update_task_blocked_status gE t) dep = true := by
      obtain ⟨dep, hmem, hval⟩ := hP
      exact ⟨dep, hdeps ▸ hmem, (hdb dep (hne dep hmem)).trans hval⟩
    rw [if_pos hcond, ht1']
    rfl
  · rw [if_neg hP] at ht1'
    have hdeps : t1.dependencies = tmid.dependencies := by
      rw [ht1']
      split_ifs <;> rfl
    have hcond : ¬ ∃ dep ∈ t1.dependencies,
        depBlocks (update_task_blocked_status gE t) dep = true := by
      rintro ⟨dep, hmem, hval⟩
      rw [hdeps] at hmem
      exact hP ⟨dep, hmem, (hdb dep (hne dep hmem)).symm.trans hval⟩
    rw [if_neg hcond]
    by_cases hB : tmid.status = TaskStatus.blocked
    · rw [if_pos hB] at ht1' ⊢
      rw [ht1']
      rfl
    · rw [if_neg hB] at ht1' ⊢
      rw [ht1']

theorem add_dep_midtask (g : TaskGraph) (t d : String) (t0 : Task)
    (hfind0 : dGet g.tasks t = some t0) (hne : ¬ d = t) :
    dGet (modifyTask (modifyTask
      { g with
        adjacency_list := dAdjust g.adjacency_list d (insert t),
        reverse_adjacency := dAdjust g.reverse_adjacency t (insert d) }
      t (fun tk => tk.addDep d)) d (fun tk => tk.addDept t)).tasks t =
      some (Task.addDep t0 d) := by
  unfold modifyTask
  dsimp only
  rw [dGet_dAdjust, if_neg hne, dGet_dAdjust, if_pos rfl, hfind0]
  rfl

theorem remove_dep_midtask (g : TaskGraph) (t d : String) (t0 : Task)
    (hfind0 : dGet g.tasks t = some t0) (hne : ¬ d = t) :
    dGet (modifyTask (modifyTask
      { g with
        adjacency_list := dAdjust g.adjacency_list d (fun s => s.erase t),
        reverse_adjacency := dAdjust g.reverse_adjacency t (fun s => s.erase d) }
      t (fun tk => tk.removeDep d)) d
      (fun tk => { tk with dependents := tk.dependents.erase t })).tasks t =
      some (Task.removeDep t0 d) := by
  unfold modifyTask
  dsimp only
  rw [dGet_dAdjust, if_neg hne, dGet_dAdjust, if_pos rfl, hfind0]
  rfl

/-- Claim C7: after every successful add_dependency or remove_dependency
on a well-formed acyclic graph, a non-terminal task t ends up Blocked
exactly when some in-graph direct dependency of it is not Completed; with
no such dependency a previously Blocked t reverts to NotStarted and any
other status is kept.  Scenario C: with A dependency-free and B depending
on A, B is Blocked; after A is marked Completed and B is re-evaluated,
B is NotStarted. -/
theorem blocked_status_rule (g : TaskGraph) (t d : String)
    (hg : WellFormed g) (hac : Acyclic g) :
    (∀ g1 t0 t1, add_dependency g t d = (g1, Except.ok true) →
        dGet g.tasks t = some t0 → dGet g1.tasks t = some t1 →
        isTerminal t0.status = false →
        t1.status = (if ∃ dep ∈ t1.dependencies, depBlocks g1 dep = true
          then TaskStatus.blocked
          else if t0.status = TaskStatus.blocked then TaskStatus.notStarted
          else t0.status)) ∧
    (∀ g1 t0 t1, remove_dependency g t d = (g1, true) →
        dGet g.tasks t = some t0 → dGet g1.tasks t = some t1 →
        isTerminal t0.status = false →
        t1.status = (if ∃ dep ∈ t1.dependencies, depBlocks g1 dep = true
          then TaskStatus.blocked
          else if t0.status = TaskStatus.blocked then TaskStatus.notStarted
          else t0.status)) ∧
    ((dGet gScenC.tasks "B").map Task.status = some TaskStatus.blocked ∧
      (dGet gScenC2.tasks "B").map Task.status = some TaskStatus.notStarted) := by
  refine ⟨?_, ?_, by decide, by decide⟩
  · intro g1 t0 t1 hpair hfind0 hfind1 hterm0
    have h2 : (add_dependency g t d).2 = Except.ok true := by rw [hpair]
    obtain ⟨hne, ht, hd, hcyc, heq⟩ := add_dependency_ok g t d h2
    have hg1 : g1 =
        update_task_blocked_status
          (modifyTask (modifyTask
            { g with
              adjacency_list := dAdjust g.adjacency_list d (insert t),
              reverse_adjacency := dAdjust g.reverse_adjacency t (insert d) }
            t (fun tk => tk.addDep d)) d (fun tk => tk.addDept t)) t := by
      have h1' : (add_dependency g t d).1 = g1 := by rw [hpair]
      rw [← h1', heq]
    have hmem0 : (t, t0) ∈ g.tasks := mem_of_dGet hfind0
    obtain ⟨hid0, hdeps0, _⟩ := hg.2.2.2.2.2.2 _ hmem0
    have hdne : ¬ d = t := fun hh => hne hh.symm
    have hfindmid := add_dep_midtask g t d t0 hfind0 hdne
    have hne_dep : ∀ dep ∈ (Task.addDep t0 d).dependencies, dep ≠ t := by
      intro dep hdep
      rw [Task.addDep_deps_of_ne t0 d (by rw [hid0]; exact hdne)] at hdep
      rcases Finset.mem_insert.mp hdep with h | h
      · subst h
        exact hdne
      · intro hdt
        rw [hdt] at h
        rw [hdeps0] at h
        exact hac t (StepReach.single h)
    have happ := update_tbs_status_spec _ t (Task.addDep t0 d) hfindmid
      (by rw [Task.addDep_status]; exact hterm0) hne_dep t1
      (by rw [← hg1]; exact hfind1)
    rw [Task.addDep_status] at happ
    rw [hg1]
    exact happ
  · intro g1 t0 t1 hpair hfind0 hfind1 hterm0
    have h2 : (remove_dependency g t d).2 = true := by rw [hpair]
    obtain ⟨ht, hd, hdr, heq⟩ := remove_dependency_ok g t d h2
    have hg1 : g1 =
        update_task_blocked_status
          (modifyTask (modifyTask
            { g with
              adjacency_list := dAdjust g.adjacency_list d (fun s => s.erase t),
              reverse_adjacency := dAdjust g.reverse_adjacency t (fun s => s.erase d) }
            t (fun tk => tk.removeDep d)) d
            (fun tk => { tk with dependents := tk.dependents.erase t })) t := by
      have h1' : (remove_dependency g t d).1 = g1 := by rw [hpair]
      rw [← h1', heq]
    have hmem0 : (t, t0) ∈ g.tasks := mem_of_dGet hfind0
    obtain ⟨hid0, hdeps0, _⟩ := hg.2.2.2.2.2.2 _ hmem0
    have hdne : ¬ d = t := fun hh => hac t (StepReach.single (hh ▸ hdr))
    have hfindmid := remove_dep_midtask g t d t0 hfind0 hdne
    have hne_dep : ∀ dep ∈ (Task.removeDep t0 d).dependencies, dep ≠ t := by
      intro dep hdep
      have h := Task.removeDep_deps_subset t0 d hdep
      intro hdt
      rw [hdt] at h
      rw [hdeps0] at h
      exact hac t (StepReach.single h)
    have happ := update_tbs_status_spec _ t (Task.removeDep t0 d) hfindmid
      (by rw [Task.removeDep_status]; exact hterm0) hne_dep t1
      (by rw [← hg1]; exact hfind1)
    rw [Task.removeDep_status] at happ
    rw [hg1]
    exact happ

/-- Claim C6 (amended): when the dependency edge is not already present
and add_dependency succeeds, an immediate remove_dependency on the same
pair restores both Task objects' dependency/dependent sets and both
adjacency-dict entries for the two ids to their pre-add values. -/
theorem add_then_remove_restores (g : TaskGraph) (t d : String)
    (hg : WellFormed g) (hnew : d ∉ revOf g t)
    (hok : (add_dependency g t d).2 = Except.ok true) :
    (remove_dependency (add_dependency g t d).1 t d).2 = true ∧
    (dGet (remove_dependency (add_dependency g t d).1 t d).1.tasks t).map Task.dependencies =
      (dGet g.tasks t).map Task.dependencies ∧
    (dGet (remove_dependency (add_dependency g t d).1 t d).1.tasks t).map Task.dependents =
      (dGet g.tasks t).map Task.dependents ∧
    (dGet (remove_dependency (add_dependency g t d).1 t d).1.tasks d).map Task.dependencies =
      (dGet g.tasks d).map Task.dependencies ∧
    (dGet (remove_dependency (add_dependency g t d).1 t d).1.tasks d).map Task.dependents =
      (dGet g.tasks d).map Task.dependents ∧
    adjOf (remove_dependency (add_dependency g t d).1 t d).1 t = adjOf g t ∧
    adjOf (remove_dependency (add_dependency g t d).1 t d).1 d = adjOf g d ∧
    revOf (remove_dependency (add_dependency g t d).1 t d).1 t = revOf g t ∧
    revOf (remove_dependency (add_dependency g t d).1 t d).1 d = revOf g d := by
  obtain ⟨hne, ht, hd, hcyc, heq⟩ := add_dependency_ok g t d hok
  have hdnet : ¬ d = t := fun hh => hne hh.symm
  obtain ⟨t0, hfind0⟩ := dGet_some_of_mem (d := g.tasks) ht
  obtain ⟨d0, hfindd0⟩ := dGet_some_of_mem (d := g.tasks) hd
  obtain ⟨hidt0, hdeps0, hdepts0⟩ := hg.2.2.2.2.2.2 _ (mem_of_dGet hfind0)
  obtain ⟨hidd0, hdepsd0, hdeptsd0⟩ := hg.2.2.2.2.2.2 _ (mem_of_dGet hfindd0)
  obtain ⟨s0, hs0⟩ := dGet_some_of_mem (d := g.reverse_adjacency) (by rw [hg.2.2.1]; exact ht)
  obtain ⟨a0, ha0⟩ := dGet_some_of_mem (d := g.adjacency_list) (by rw [hg.2.1]; exact hd)
  have hrevt : revOf g t = s0 := by rw [revOf, hs0]; rfl
  have hadjd : adjOf g d = a0 := by rw [adjOf, ha0]; rfl
  have htna : t ∉ a0 := by
    rw [← hadjd]
    intro hta
    exact hnew ((mem_adjOf_iff_mem_revOf hg d t).mp hta)
  have hdns : d ∉ s0 := by rw [← hrevt]; exact hnew
  set g1 := (add_dependency g t d).1 with hg1def
  -- the components of the post-add graph
  have hadj1 : g1.adjacency_list = dAdjust g.adjacency_list d (insert t) := by
    rw [heq, update_tbs_adjacency]
    rfl
  have hrev1 : g1.reverse_adjacency = dAdjust g.reverse_adjacency t (insert d) := by
    rw [heq, update_tbs_reverse]
    rfl
  have hkeys1 : keyList g1 = keyList g := by
    rw [heq, update_tbs_keyList]
    show dKeys (dAdjust (dAdjust g.tasks t _) d _) = dKeys g.tasks
    rw [dKeys_dAdjust, dKeys_dAdjust]
  have hrevg1t : revOf g1 t = insert d s0 := by
    rw [revOf, hrev1, dGet_dAdjust, if_pos rfl, hs0]
    rfl
  -- the Task stored at t after the add, up to status
  have hmidt := add_dep_midtask g t d t0 hfind0 hdnet
  have hmapt_deps : (dGet g1.tasks t).map Task.dependencies =
      some (Task.addDep t0 d).dependencies := by
    rw [heq, update_tbs_deps_map, hmidt]
    rfl
  have hmapt_depts : (dGet g1.tasks t).map Task.dependents =
      some (Task.addDep t0 d).dependents := by
    rw [heq, update_tbs_depts_map, hmidt]
    rfl
  obtain ⟨τ1, hτ1⟩ : ∃ τ1, dGet g1.tasks t = some τ1 := by
    rcases hx : dGet g1.tasks t with _ | τ1
    · rw [hx] at hmapt_deps
      exact absurd hmapt_deps (by simp)
    · exact ⟨τ1, rfl⟩
  have hτ1deps : τ1.dependencies = (Task.addDep t0 d).dependencies := by
    rw [hτ1] at hmapt_deps
    exact Option.some.inj hmapt_deps
  have hτ1depts : τ1.dependents = (Task.addDep t0 d).dependents := by
    rw [hτ1] at hmapt_depts
    exact Option.some.inj hmapt_depts
  -- the Task stored at d after the add
  have hmidd : dGet g1.tasks d = some (Task.addDept d0 t) := by
    rw [heq, update_tbs_get_other _ _ _ hdnet]
    show dGet (dAdjust (dAdjust g.tasks t _) d _) d = _
    rw [dGet_dAdjust, if_pos rfl, dGet_dAdjust, if_neg (fun hh => hdnet hh.symm), hfindd0]
    rfl
  -- remove_dependency succeeds
  have ht1 : t ∈ keyList g1 := by rw [hkeys1]; exact ht
  have hd1 : d ∈ keyList g1 := by rw [hkeys1]; exact hd
  have hdmem : d ∈ revOf g1 t := by rw [hrevg1t]; exact Finset.mem_insert_self _ _
  have hrem2 : (remove_dependency g1 t d).2 = true := by
    unfold remove_dependency
    rw [if_neg (by push_neg; exact ⟨ht1, hd1⟩), if_neg (by simpa using hdmem)]
  obtain ⟨_, _, _, heqR⟩ := remove_dependency_ok g1 t d hrem2
  refine ⟨hrem2, ?_, ?_, ?_, ?_, ?_, ?_, ?_, ?_⟩
  · -- dependencies of t restored
    rw [heqR, update_tbs_deps_map]
    show (dGet (dAdjust (dAdjust g1.tasks t _) d _) t).map Task.dependencies = _
    rw [dGet_dAdjust, if_neg hdnet, dGet_dAdjust, if_pos rfl, hτ1, hfind0]
    show some (Task.removeDep τ1 d).dependencies = _
    rw [Task.removeDep_deps_of_mem _ _ (by
      rw [hτ1deps, Task.addDep_deps_of_ne t0 d (by rw [hidt0]; exact hdnet)]
      exact Finset.mem_insert_self _ _)]
    rw [hτ1deps, Task.addDep_deps_of_ne t0 d (by rw [hidt0]; exact hdnet)]
    rw [Finset.erase_insert (by rw [hdeps0, hrevt]; exact hdns)]
    rfl
  · -- dependents of t restored
    rw [heqR, update_tbs_depts_map]
    show (dGet (dAdjust (dAdjust g1.tasks t _) d _) t).map Task.dependents = _
    rw [dGet_dAdjust, if_neg hdnet, dGet_dAdjust, if_pos rfl, hτ1, hfind0]
    show some (Task.removeDep τ1 d).dependents = _
    rw [Task.removeDep_depts, hτ1depts, Task.addDep_depts]
    rfl
  · -- dependencies of d restored
    rw [heqR, update_tbs_deps_map]
    show (dGet (dAdjust (dAdjust g1.tasks t _) d _) d).map Task.dependencies = _
    rw [dGet_dAdjust, if_pos rfl, dGet_dAdjust, if_neg (fun hh => hdnet hh.symm), hmidd, hfindd0]
    show some (Task.addDept d0 t).dependencies = _
    rw [Task.addDept_deps]
    rfl
  · -- dependents of d restored
    rw [heqR, update_tbs_depts_map]
    show (dGet (dAdjust (dAdjust g1.tasks t _) d _) d).map Task.dependents = _
    rw [dGet_dAdjust, if_pos rfl, dGet_dAdjust, if_neg (fun hh => hdnet hh.symm), hmidd, hfindd0]
    show some ((Task.addDept d0 t).dependents.erase t) = _
    rw [Task.addDept_depts_of_ne d0 t (by rw [hidd0]; exact hne)]
    rw [Finset.erase_insert (by rw [hdeptsd0, hadjd]; exact htna)]
    rfl
  · -- adjacency entry of t restored
    rw [heqR, adjOf, update_tbs_adjacency]
    show (dGet (dAdjust g1.adjacency_list d _) t).getD ∅ = _
    rw [dGet_dAdjust, if_neg hdnet, hadj1, dGet_dAdjust, if_neg hdnet]
    rfl
  · -- adjacency entry of d restored
    rw [heqR, adjOf, update_tbs_adjacency]
    show (dGet (dAdjust g1.adjacency_list d _) d).getD ∅ = _
    rw [dGet_dAdjust, if_pos rfl, hadj1, dGet_dAdjust, if_pos rfl, ha0]
    show (insert t a0).erase t = _
    rw [Finset.erase_insert htna, hadjd]
  · -- reverse entry of t restored
    rw [heqR, revOf, update_tbs_reverse]
    show (dGet (dAdjust g1.reverse_adjacency t _) t).getD ∅ = _
    rw [dGet_dAdjust, if_pos rfl, hrev1, dGet_dAdjust, if_pos rfl, hs0]
    show (insert d s0).erase d = _
    rw [Finset.erase_insert hdns, hrevt]
  · -- reverse entry of d restored
    rw [heqR, revOf, update_tbs_reverse]
    show (dGet (dAdjust g1.reverse_adjacency t _) d).getD ∅ = _
    rw [dGet_dAdjust, if_neg (fun hh => hdnet hh.symm), hrev1, dGet_dAdjust,
      if_neg (fun hh => hdnet hh.symm)]
    rfl

/-- Counterexample to claim C6 as stated: on `gC1` the edge b→a already
exists, `add_dependency` still succeeds (returns True), and the following
`remove_dependency` removes the pre-existing edge instead of restoring
the pre-add state. -/
theorem add_then_remove_preexisting_counterexample :
    (add_dependency gC1 "b" "a").2 = Except.ok true ∧
    revOf (remove_dependency (add_dependency gC1 "b" "a").1 "b" "a").1 "b" ≠ revOf gC1 "b" := by
  decide

theorem add_then_remove_restores_witness :
    WellFormed gTwo ∧ "a" ∉ revOf gTwo "b" ∧
      (add_dependency gTwo "b" "a").2 = Except.ok true ∧
      ((remove_dependency (add_dependency gTwo "b" "a").1 "b" "a").2 = true ∧
        (dGet (remove_dependency (add_dependency gTwo "b" "a").1 "b" "a").1.tasks "b").map
            Task.dependencies = (dGet gTwo.tasks "b").map Task.dependencies ∧
        (dGet (remove_dependency (add_dependency gTwo "b" "a").1 "b" "a").1.tasks "b").map
            Task.dependents = (dGet gTwo.tasks "b").map Task.dependents ∧
        (dGet (remove_dependency (add_dependency gTwo "b" "a").1 "b" "a").1.tasks "a").map
            Task.dependencies = (dGet gTwo.tasks "a").map Task.dependencies ∧
        (dGet (remove_dependency (add_dependency gTwo "b" "a").1 "b" "a").1.tasks "a").map
            Task.dependents = (dGet gTwo.tasks "a").map Task.dependents ∧
        adjOf (remove_dependency (add_dependency gTwo "b" "a").1 "b" "a").1 "b" = adjOf gTwo "b" ∧
        adjOf (remove_dependency (add_dependency gTwo "b" "a").1 "b" "a").1 "a" = adjOf gTwo "a" ∧
        revOf (remove_dependency (add_dependency gTwo "b" "a").1 "b" "a").1 "b" = revOf gTwo "b" ∧
        revOf (remove_dependency (add_dependency gTwo "b" "a").1 "b" "a").1 "a" = revOf gTwo "a") :=
  ⟨by decide, by decide, by decide,
    add_then_remove_restores gTwo "b" "a" (by decide) (by decide) (by decide)⟩

theorem blocked_status_rule_witness :
    WellFormed gC1 ∧
      ((dGet gScenC.tasks "B").map Task.status = some TaskStatus.blocked ∧
        (dGet gScenC2.tasks "B").map Task.status = some TaskStatus.notStarted) :=
  ⟨by decide,
    (blocked_status_rule gC1 "b" "a" (by decide)
      (acyclic_of_rank (by decide) (fun s => if s = "b" then 1 else 0) (by decide))).2.2⟩

theorem add_dependency_cycle_iff_atomic_witness :
    WellFormed gC1 ∧
    (((add_dependency gC1 "a" "b").2 = Except.error GraphErr.cyclicDependencyError ↔
        StepReach (revOf gC1) "b" "a") ∧
      ((add_dependency gC1 "a" "b").2 ≠ Except.ok true → (add_dependency gC1 "a" "b").1 = gC1)) :=
  ⟨by decide,
    add_dependency_cycle_iff_atomic gC1 "a" "b" (by decide)
      (acyclic_of_rank (by decide) (fun s => if s = "b" then 1 else 0) (by decide))
      (by decide) (by decide) (by decide)⟩

theorem foldl_bump_get (L : List String) (base : Dict Int) (v : String) :
    dGet (L.foldl (fun d dep => dAdjust d dep (fun n => n + 1)) base) v =
      (dGet base v).map (fun n => n + (L.count v : Int)) := by
  induction L generalizing base with
  | nil => simp
  | cons dep rest ih =>
    rw [List.foldl_cons, ih, dGet_dAdjust]
    by_cases h : dep = v
    · subst h
      rw [if_pos rfl]
      cases dGet base dep <;> simp [List.count_cons] <;> ring
    · rw [if_neg h]
      have h' : ¬ (v = dep) := fun hh => h hh.symm
      cases dGet base v <;> simp [List.count_cons, h']

theorem foldl_bump_keys (L : List String) (base : Dict Int) :
    dKeys (L.foldl (fun d dep => dAdjust d dep (fun n => n + 1)) base) = dKeys base := by
  induction L generalizing base with
  | nil => rfl
  | cons dep rest ih => rw [List.foldl_cons, ih, dKeys_dAdjust]

theorem foldl_inner_bind {α : Type} (step : Dict Int → α → Dict Int)
    (f : String → List α) (l : List String) (base : Dict Int) :
    l.foldl (fun d node => (f node).foldl step d) base = (l.flatMap f).foldl step base := by
  induction l generalizing base with
  | nil => rfl
  | cons x xs ih => rw [List.foldl_cons, List.flatMap_cons, List.foldl_append, ih]

theorem dGet_map_zero (tasks : Dict Task) (v : String) :
    dGet (tasks.map (fun p => (p.1, (0 : Int)))) v = (dGet tasks v).map (fun _ => (0 : Int)) := by
  induction tasks with
  | nil => rfl
  | cons p rest ih =>
    obtain ⟨a, w⟩ := p
    by_cases h : a = v
    · subst h
      simp [dGet]
    · simp [dGet, h, ih]

theorem count_bind_pred (g : TaskGraph) (v : String) (l : List String) :
    (l.flatMap (fun node => setToList (adjOf g node))).count v =
      (l.filter (fun u => decide (v ∈ adjOf g u))).length := by
  induction l with
  | nil => rfl
  | cons x xs ih =>
    rw [List.flatMap_cons, List.count_append, ih]
    by_cases h : v ∈ adjOf g x
    · rw [List.count_eq_one_of_mem (setToList_nodup _) (mem_setToList.mpr h)]
      simp [List.filter_cons, h]
      omega
    · rw [List.count_eq_zero_of_not_mem (fun hc => h (mem_setToList.mp hc))]
      simp [List.filter_cons, h]

theorem initIndeg_get (g : TaskGraph) (v : String) :
    dGet (initIndeg g) v =
      if v ∈ keyList g then some ((predCount g v : Int)) else none := by
  unfold initIndeg
  rw [foldl_inner_bind, foldl_bump_get, dGet_map_zero, count_bind_pred]
  by_cases h : v ∈ keyList g
  · obtain ⟨w, hw⟩ := dGet_some_of_mem (d := g.tasks) h
    rw [hw, if_pos h]
    simp [predCount]
  · rw [(dGet_eq_none g.tasks v).mpr h, if_neg h]
    rfl

theorem initIndeg_keys (g : TaskGraph) : dKeys (initIndeg g) = keyList g := by
  unfold initIndeg
  rw [foldl_inner_bind, foldl_bump_keys]
  unfold keyList dKeys
  rw [List.map_map]
  rfl

theorem kahnStep_keys (deps : List String) (indeg : Dict Int) :
    dKeys (kahnStep deps indeg).1 = dKeys indeg := by
  induction deps generalizing indeg with
  | nil => rfl
  | cons dep rest ih =>
    show dKeys (kahnStep rest (dAdjust indeg dep (fun n => n - 1))).1 = _
    rw [ih, dKeys_dAdjust]

theorem kahnStep_get (deps : List String) (indeg : Dict Int) (hn : deps.Nodup) (v : String) :
    dGet (kahnStep deps indeg).1 v =
      if v ∈ deps then (dGet indeg v).map (fun n => n - 1) else dGet indeg v := by
  induction deps generalizing indeg with
  | nil => simp [kahnStep]
  | cons dep rest ih =>
    have hn' : rest.Nodup := hn.of_cons
    show dGet (kahnStep rest (dAdjust indeg dep (fun n => n - 1))).1 v = _
    rw [ih _ hn', dGet_dAdjust]
    by_cases h1 : v ∈ rest
    · have hdv : ¬ dep = v := fun hh => (List.nodup_cons.mp hn).1 (hh ▸ h1)
      rw [if_pos h1, if_neg hdv, if_pos (List.mem_cons_of_mem _ h1)]
    · by_cases h2 : dep = v
      · subst h2
        rw [if_neg h1, if_pos rfl, if_pos (List.mem_cons_self _ _)]
      · have hnm : v ∉ dep :: rest := by
          intro hc
          rcases List.mem_cons.mp hc with hc | hc
          · exact h2 hc.symm
          · exact h1 hc
        rw [if_neg h1, if_neg h2, if_neg hnm]

theorem kahnStep_pushes (deps : List String) (indeg : Dict Int) (hn : deps.Nodup) :
    (kahnStep deps indeg).2 = deps.filter (fun dep => decide (dGet indeg dep = some 1)) := by
  induction deps generalizing indeg with
  | nil => rfl
  | cons dep rest ih =>
    have hn' : rest.Nodup := hn.of_cons
    have hdep : dep ∉ rest := (List.nodup_cons.mp hn).1
    have hget1 : dGet (dAdjust indeg dep (fun n => n - 1)) dep =
        (dGet indeg dep).map (fun n => n - 1) := by
      rw [dGet_dAdjust, if_pos rfl]
    have hrest : (kahnStep rest (dAdjust indeg dep (fun n => n - 1))).2 =
        rest.filter (fun d => decide (dGet indeg d = some 1)) := by
      rw [ih _ hn']
      apply List.filter_congr
      intro d hd
      have hne : ¬ dep = d := fun hh => hdep (hh ▸ hd)
      rw [dGet_dAdjust, if_neg hne]
    show (if dGet (dAdjust indeg dep (fun n => n - 1)) dep = some 0 then [dep] else []) ++
        (kahnStep rest (dAdjust indeg dep (fun n => n - 1))).2 = _
    rw [hrest, hget1, List.filter_cons]
    rcases hv : dGet indeg dep with _ | n
    · simp
    · by_cases h1 : n = 1
      · subst h1
        simp
      · have hz : ¬ (Option.map (fun n => n - 1) (some n) = some 0) := by
          simp
          omega
        have ho : ¬ (some n = some 1) := by
          simp [h1]
        rw [if_neg hz]
        simp [ho]

theorem degSum_dAdjust_le (d : Dict Int) (k : String) :
    degSum (dAdjust d k (fun n => n - 1)) ≤ degSum d := by
  induction d with
  | nil => exact Nat.le_refl _
  | cons p rest ih =>
    obtain ⟨a, w⟩ := p
    by_cases h : a = k <;> simp [dAdjust, degSum, h] at * <;> omega

theorem degSum_dAdjust_lt (d : Dict Int) (k : String) (h : dGet d k = some 1) :
    degSum (dAdjust d k (fun n => n - 1)) < degSum d := by
  induction d with
  | nil => simp [dGet] at h
  | cons p rest ih =>
    obtain ⟨a, w⟩ := p
    by_cases ha : a = k
    · subst ha
      simp [dGet] at h
      subst h
      have := degSum_dAdjust_le rest a
      simp [dAdjust, degSum] at *
      omega
    · simp [dGet, ha] at h
      have := ih h
      simp [dAdjust, degSum, ha] at *
      omega

theorem accPred_le {g : TaskGraph} (hg : WellFormed g) (acc : List String)
    (hsub : ∀ x ∈ acc, x ∈ keyList g) (hnodup : acc.Nodup) (v : String) :
    accPred g acc v ≤ predCount g v := by
  have hsubset : (acc.filter (fun w => decide (v ∈ adjOf g w))).toFinset ⊆
      ((keyList g).filter (fun w => decide (v ∈ adjOf g w))).toFinset := by
    intro x hx
    rw [List.mem_toFinset, List.mem_filter] at hx ⊢
    exact ⟨hsub x hx.1, hx.2⟩
  have hkn : (keyList g).Nodup := hg.1
  have hcard := Finset.card_le_card hsubset
  rw [List.toFinset_card_of_nodup (hnodup.filter _),
    List.toFinset_card_of_nodup (hkn.filter _)] at hcard
  exact hcard

theorem preds_in_acc {g : TaskGraph} (hg : WellFormed g) (acc : List String)
    (hsub : ∀ x ∈ acc, x ∈ keyList g) (hnodup : acc.Nodup) (v : String)
    (h : predCount g v = accPred g acc v) :
    ∀ u, v ∈ adjOf g u → u ∈ acc := by
  intro u hu
  have hukey : u ∈ keyList g := (key_of_adjOf_ne hg hu).1
  by_contra huacc
  have hsubset : (acc.filter (fun w => decide (v ∈ adjOf g w))).toFinset ⊆
      ((keyList g).filter (fun w => decide (v ∈ adjOf g w))).toFinset := by
    intro x hx
    rw [List.mem_toFinset, List.mem_filter] at hx ⊢
    exact ⟨hsub x hx.1, hx.2⟩
  have hcards : ((keyList g).filter (fun w => decide (v ∈ adjOf g w))).toFinset.card ≤
      (acc.filter (fun w => decide (v ∈ adjOf g w))).toFinset.card := by
    have hkn : (keyList g).Nodup := hg.1
    rw [List.toFinset_card_of_nodup (hnodup.filter _),
      List.toFinset_card_of_nodup (hkn.filter _)]
    unfold predCount accPred at h
    omega
  have heq := Finset.eq_of_subset_of_card_le hsubset hcards
  have humem : u ∈ ((keyList g).filter (fun w => decide (v ∈ adjOf g w))).toFinset := by
    rw [List.mem_toFinset, List.mem_filter]
    exact ⟨hukey, by simpa using hu⟩
  rw [← heq] at humem
  rw [List.mem_toFinset, List.mem_filter] at humem
  exact huacc humem.1

theorem exists_unemitted_pred {g : TaskGraph} (hg : WellFormed g) (acc : List String)
    (hnodup : acc.Nodup) (v : String)
    (hlt : accPred g acc v < predCount g v) :
    ∃ u, u ∈ keyList g ∧ u ∉ acc ∧ v ∈ adjOf g u := by
  by_contra hno
  push_neg at hno
  have hsubset : ((keyList g).filter (fun w => decide (v ∈ adjOf g w))).toFinset ⊆
      (acc.filter (fun w => decide (v ∈ adjOf g w))).toFinset := by
    intro x hx
    rw [List.mem_toFinset, List.mem_filter] at hx ⊢
    have hxadj : v ∈ adjOf g x := by simpa using hx.2
    by_cases hxa : x ∈ acc
    · exact ⟨hxa, hx.2⟩
    · exact absurd hxadj (hno x (by simpa using hx.1) hxa)
  have hkn : (keyList g).Nodup := hg.1
  have hcard := Finset.card_le_card hsubset
  rw [List.toFinset_card_of_nodup (hkn.filter _),
    List.toFinset_card_of_nodup (hnodup.filter _)] at hcard
  unfold predCount accPred at hlt
  omega

/-- If every member of a nonempty finite id set has, inside the set, a
predecessor (a task whose dependents include it), the dependency relation
has a cycle. -/
theorem not_acyclic_of_preds {g : TaskGraph} (hg : WellFormed g) (S : Finset String)
    (hne : S.Nonempty) (h : ∀ v ∈ S, ∃ u ∈ S, v ∈ adjOf g u) : ¬ Acyclic g := by
  intro hac
  classical
  have hstep : ∀ v, ∃ u, v ∈ S → (u ∈ S ∧ v ∈ adjOf g u) := by
    intro v
    by_cases hv : v ∈ S
    · obtain ⟨u, hu1, hu2⟩ := h v hv
      exact ⟨u, fun _ => ⟨hu1, hu2⟩⟩
    · exact ⟨v, fun hc => absurd hc hv⟩
  choose f hf using hstep
  obtain ⟨x0, hx0⟩ := hne
  have hiter : ∀ n, f^[n] x0 ∈ S := by
    intro n
    induction n with
    | zero => exact hx0
    | succ n ih =>
      rw [Function.iterate_succ_apply']
      exact (hf _ ih).1
  have hstep1 : ∀ n, StepReach (revOf g) (f^[n] x0) (f^[n + 1] x0) := by
    intro n
    rw [Function.iterate_succ_apply']
    have hmem := hiter n
    have hadj := (hf _ hmem).2
    exact StepReach.single ((mem_adjOf_iff_mem_revOf hg _ _).mp hadj)
  have hchain : ∀ i k, StepReach (revOf g) (f^[i] x0) (f^[i + (k + 1)] x0) := by
    intro i k
    induction k with
    | zero => exact hstep1 i
    | succ k ih =>
      have := hstep1 (i + (k + 1))
      have heq : i + (k + 1) + 1 = i + (k + 1 + 1) := by omega
      rw [heq] at this
      exact StepReach.trans ih this
  obtain ⟨i, hi, j, hj, hij, hfij⟩ :=
    Finset.exists_ne_map_eq_of_card_lt_of_maps_to
      (s := Finset.range (S.card + 1)) (t := S)
      (by rw [Finset.card_range]; omega) (fun n _ => hiter n)
  rcases Nat.lt_or_ge i j with hlt | hge
  · obtain ⟨k, hk⟩ : ∃ k, j = i + (k + 1) := ⟨j - i - 1, by omega⟩
    have := hchain i k
    rw [← hk, hfij] at this
    exact hac _ this
  · have hlt : j < i := by omega
    obtain ⟨k, hk⟩ : ∃ k, i = j + (k + 1) := ⟨i - j - 1, by omega⟩
    have := hchain j k
    rw [← hk, ← hfij] at this
    exact hac _ this

theorem kahnStep_measure (deps : List String) (indeg : Dict Int) :
    (kahnStep deps indeg).2.length + degSum (kahnStep deps indeg).1 ≤ degSum indeg := by
  induction deps generalizing indeg with
  | nil => simp [kahnStep]
  | cons dep rest ih =>
    have hle := degSum_dAdjust_le indeg dep
    show ((if dGet (dAdjust indeg dep (fun n => n - 1)) dep = some 0 then [dep] else []) ++
        (kahnStep rest (dAdjust indeg dep (fun n => n - 1))).2).length +
        degSum (kahnStep rest (dAdjust indeg dep (fun n => n - 1))).1 ≤ degSum indeg
    rw [List.length_append]
    have hrec := ih (dAdjust indeg dep (fun n => n - 1))
    by_cases hz : dGet (dAdjust indeg dep (fun n => n - 1)) dep = some 0
    · have hone : dGet indeg dep = some 1 := by
        rw [dGet_dAdjust, if_pos rfl] at hz
        rcases hv : dGet indeg dep with _ | n
        · rw [hv] at hz
          simp at hz
        · rw [hv] at hz
          simp at hz
          simp [hv]
          omega
      have hlt := degSum_dAdjust_lt indeg dep hone
      rw [if_pos hz]
      simp only [List.length_singleton]
      omega
    · rw [if_neg hz]
      simp only [List.length_nil]
      omega

/-- The loop invariant proof for Kahn's algorithm: with enough fuel and
from a consistent state, the loop emits a duplicate-free list of task
ids, in an order where every predecessor of an emitted node is emitted
before it, and — when the graph is acyclic — emits every task. -/
theorem kahnLoop_spec (g : TaskGraph) (hg : WellFormed g) :
    ∀ (fuel : Nat) (queue : List String) (indeg : Dict Int) (acc : List String),
    queue.length + degSum indeg < fuel →
    dKeys indeg = keyList g →
    (∀ v ∈ keyList g, dGet indeg v = some ((predCount g v : Int) - (accPred g acc v : Int))) →
    (acc ++ queue).Nodup →
    (∀ x ∈ acc, x ∈ keyList g) →
    (∀ x ∈ queue, x ∈ keyList g) →
    (∀ v ∈ keyList g, predCount g v = accPred g acc v → v ∈ acc ∨ v ∈ queue) →
    (∀ v, (v ∈ acc ∨ v ∈ queue) → predCount g v = accPred g acc v) →
    (∀ i (h : i < acc.length), ∀ u, acc.get ⟨i, h⟩ ∈ adjOf g u → u ∈ acc.take i) →
    (kahnLoop g fuel queue indeg acc).Nodup ∧
    (∀ x ∈ kahnLoop g fuel queue indeg acc, x ∈ keyList g) ∧
    (∀ i (h : i < (kahnLoop g fuel queue indeg acc).length), ∀ u,
        (kahnLoop g fuel queue indeg acc).get ⟨i, h⟩ ∈ adjOf g u →
        u ∈ (kahnLoop g fuel queue indeg acc).take i) ∧
    (Acyclic g → ∀ v ∈ keyList g, v ∈ kahnLoop g fuel queue indeg acc) := by
  intro fuel
  induction fuel with
  | zero =>
    intro queue indeg acc hfuel
    omega
  | succ fuel ih =>
    intro queue indeg acc hfuel hK1 hK2 hK3 hsub hqkeys hK4 hK8 hK6
    match queue with
    | [] =>
      rw [show kahnLoop g (fuel + 1) [] indeg acc = acc from rfl]
      have haccnodup : acc.Nodup := by simpa using hK3
      refine ⟨haccnodup, hsub, hK6, ?_⟩
      intro hac v hv
      by_contra hvacc
      have hS : ∀ w ∈ (keyList g).toFinset.filter (fun x => x ∉ acc),
          ∃ u ∈ (keyList g).toFinset.filter (fun x => x ∉ acc), w ∈ adjOf g u := by
        intro w hw
        rw [Finset.mem_filter, List.mem_toFinset] at hw
        have hne : predCount g w ≠ accPred g acc w := by
          intro heq
          rcases hK4 w hw.1 heq with h | h
          · exact hw.2 h
          · simp at h
        have hlt : accPred g acc w < predCount g w :=
          lt_of_le_of_ne (accPred_le hg acc hsub haccnodup w) (fun hh => hne hh.symm)
        obtain ⟨u, hu1, hu2, hu3⟩ := exists_unemitted_pred hg acc haccnodup w hlt
        exact ⟨u, by rw [Finset.mem_filter, List.mem_toFinset]; exact ⟨hu1, hu2⟩, hu3⟩
      have hSne : ((keyList g).toFinset.filter (fun x => x ∉ acc)).Nonempty :=
        ⟨v, by rw [Finset.mem_filter, List.mem_toFinset]; exact ⟨hv, hvacc⟩⟩
      exact not_acyclic_of_preds hg _ hSne hS hac
    | node :: rest =>
      have hLoopEq : kahnLoop g (fuel + 1) (node :: rest) indeg acc =
          kahnLoop g fuel (rest ++ (kahnStep (setToList (adjOf g node)) indeg).2)
            (kahnStep (setToList (adjOf g node)) indeg).1 (acc ++ [node]) := rfl
      rw [hLoopEq]
      have hdeps_nodup := setToList_nodup (adjOf g node)
      have hnodeKey : node ∈ keyList g := hqkeys node (List.mem_cons_self _ _)
      have haccnodup : acc.Nodup := ((List.nodup_append.mp hK3).1)
      have hqnodupfull : (node :: rest).Nodup := (List.nodup_append.mp hK3).2.1
      have hdisj : acc.Disjoint (node :: rest) := (List.nodup_append.mp hK3).2.2
      have hnode_not_acc : node ∉ acc := fun hc => hdisj hc (List.mem_cons_self _ _)
      have hnode0 : predCount g node = accPred g acc node :=
        hK8 node (Or.inr (List.mem_cons_self _ _))
      have hpredsnode : ∀ u, node ∈ adjOf g u → u ∈ acc :=
        preds_in_acc hg acc hsub haccnodup node hnode0
      have hpushes := kahnStep_pushes (setToList (adjOf g node)) indeg hdeps_nodup
      have hpush_mem : ∀ p, p ∈ (kahnStep (setToList (adjOf g node)) indeg).2 ↔
          (p ∈ adjOf g node ∧ dGet indeg p = some 1) := by
        intro p
        rw [hpushes, List.mem_filter]
        constructor
        · intro ⟨h1, h2⟩
          exact ⟨mem_setToList.mp h1, by simpa using h2⟩
        · intro ⟨h1, h2⟩
          exact ⟨mem_setToList.mpr h1, by simpa using h2⟩
      have haccPred' : ∀ v, accPred g (acc ++ [node]) v =
          accPred g acc v + (if v ∈ adjOf g node then 1 else 0) := by
        intro v
        unfold accPred
        rw [List.filter_append, List.length_append]
        congr 1
        by_cases h : v ∈ adjOf g node <;> simp [List.filter_cons, h]
      -- queue members are not in acc (disjointness), and nobody enqueued has
      -- the node as predecessor still pending
      have hnotadj_old : ∀ v, (v ∈ acc ∨ v ∈ node :: rest) → v ∉ adjOf g node := by
        intro v hv hadj
        have hpc := hK8 v hv
        exact hnode_not_acc (preds_in_acc hg acc hsub haccnodup v hpc node hadj)
      have hK8' : ∀ v, (v ∈ acc ++ [node] ∨
          v ∈ rest ++ (kahnStep (setToList (adjOf g node)) indeg).2) →
          predCount g v = accPred g (acc ++ [node]) v := by
        intro v hv
        rcases hv with hv | hv
        · rcases List.mem_append.mp hv with hv | hv
          · rw [haccPred', if_neg (hnotadj_old v (Or.inl hv))]
            simpa using hK8 v (Or.inl hv)
          · simp at hv
            subst hv
            rw [haccPred', if_neg (hnotadj_old v (Or.inr (List.mem_cons_self _ _)))]
            simpa using hnode0
        · rcases List.mem_append.mp hv with hv | hv
          · rw [haccPred',
              if_neg (hnotadj_old v (Or.inr (List.mem_cons_of_mem _ hv)))]
            simpa using hK8 v (Or.inr (List.mem_cons_of_mem _ hv))
          · obtain ⟨hva, hv1⟩ := (hpush_mem v).mp hv
            have hvkey : v ∈ keyList g := by
              have := adjOf_subset_keySet hg node hva
              simpa [keySet] using this
            have := hK2 v hvkey
            rw [hv1] at this
            have heq : (predCount g v : Int) - (accPred g acc v : Int) = 1 :=
              (Option.some.inj this).symm
            rw [haccPred', if_pos hva]
            omega
      -- apply the induction hypothesis
      apply ih
      · have hmeas := kahnStep_measure (setToList (adjOf g node)) indeg
        rw [List.length_append]
        simp only [List.length_cons] at hfuel
        omega
      · rw [kahnStep_keys]
        exact hK1
      · intro v hv
        rw [kahnStep_get _ _ hdeps_nodup]
        by_cases h : v ∈ adjOf g node
        · rw [if_pos (mem_setToList.mpr h), hK2 v hv, haccPred', if_pos h]
          simp only [Option.map]
          congr 1
          push_cast
          ring
        · rw [if_neg (fun hc => h (mem_setToList.mp hc)), hK2 v hv, haccPred', if_neg h]
          simp
      · -- Nodup of (acc ++ [node]) ++ (rest ++ pushes)
        have hrearr : (acc ++ [node]) ++ rest = acc ++ (node :: rest) := by
          simp
        rw [List.nodup_append]
        refine ⟨?_, ?_, ?_⟩
        · rw [List.nodup_append]
          refine ⟨haccnodup, List.nodup_singleton _, ?_⟩
          intro x hx hx2
          simp at hx2
          subst hx2
          exact hnode_not_acc hx
        · rw [List.nodup_append]
          refine ⟨hqnodupfull.of_cons, hpushes ▸ hdeps_nodup.filter _, ?_⟩
          intro x hx hx2
          have := (hpush_mem x).mp hx2
          have hpc := hK8 x (Or.inr (List.mem_cons_of_mem _ hx))
          have hxkey : x ∈ keyList g := hqkeys x (List.mem_cons_of_mem _ hx)
          have h2 := hK2 x hxkey
          rw [this.2] at h2
          have : (1 : Int) = (predCount g x : Int) - (accPred g acc x : Int) :=
            Option.some.inj h2
          omega
        · intro x hx hx2
          rcases List.mem_append.mp hx with hxa | hxn
          · rcases List.mem_append.mp hx2 with hxr | hxp
            · exact hdisj hxa (List.mem_cons_of_mem _ hxr)
            · have hp := (hpush_mem x).mp hxp
              have hpc := hK8 x (Or.inl hxa)
              have h2 := hK2 x (hsub x hxa)
              rw [hp.2] at h2
              have : (1 : Int) = (predCount g x : Int) - (accPred g acc x : Int) :=
                Option.some.inj h2
              omega
          · simp at hxn
            subst hxn
            rcases List.mem_append.mp hx2 with hxr | hxp
            · exact (List.nodup_cons.mp hqnodupfull).1 hxr
            · have hp := (hpush_mem x).mp hxp
              have h2 := hK2 x hnodeKey
              rw [hp.2] at h2
              have : (1 : Int) = (predCount g x : Int) - (accPred g acc x : Int) :=
                Option.some.inj h2
              have := hnode0
              omega
      · intro x hx
        rcases List.mem_append.mp hx with hx | hx
        · exact hsub x hx
        · simp at hx
          subst hx
          exact hnodeKey
      · intro x hx
        rcases List.mem_append.mp hx with hx | hx
        · exact hqkeys x (List.mem_cons_of_mem _ hx)
        · have := ((hpush_mem x).mp hx).1
          have := adjOf_subset_keySet hg node this
          simpa [keySet] using this
      · intro v hv heq
        by_cases hvn : v ∈ adjOf g node
        · rw [haccPred', if_pos hvn] at heq
          have h2 := hK2 v hv
          have hone : dGet indeg v = some 1 := by
            rw [h2]
            congr 1
            omega
          exact Or.inr (List.mem_append.mpr (Or.inr ((hpush_mem v).mpr ⟨hvn, hone⟩)))
        · rw [haccPred', if_neg hvn] at heq
          rcases hK4 v hv (by omega) with h | h
          · exact Or.inl (List.mem_append.mpr (Or.inl h))
          · rcases List.mem_cons.mp h with h | h
            · subst h
              exact Or.inl (List.mem_append.mpr (Or.inr (List.mem_singleton.mpr rfl)))
            · exact Or.inr (List.mem_append.mpr (Or.inl h))
      · exact hK8'
      · intro i hi u htake
        rcases Nat.lt_or_ge i acc.length with hlt | hge
        · have hgeteq : (acc ++ [node]).get ⟨i, hi⟩ = acc.get ⟨i, hlt⟩ := by
            rw [List.get_append _ hlt]
          rw [hgeteq] at htake
          have := hK6 i hlt u htake
          rw [List.take_append_of_le_length (Nat.le_of_lt hlt)]
          exact this
        · have hieq : i = acc.length := by
            rw [List.length_append, List.length_singleton] at hi
            omega
          subst hieq
          have hgeteq : (acc ++ [node]).get ⟨acc.length, hi⟩ = node := by
            simp
          rw [hgeteq] at htake
          rw [List.take_left]
          exact hpredsnode u htake

theorem mem_map_fst_filter {α : Type} {l : Dict α} {q : String × α → Bool} {x : String}
    (h : x ∈ (l.filter q).map Prod.fst) : x ∈ dKeys l := by
  obtain ⟨p, hp, hpx⟩ := List.mem_map.mp h
  exact hpx ▸ List.mem_map.mpr ⟨p, List.mem_of_mem_filter hp, rfl⟩

theorem mem_filter_zero_map {d : Dict Int} (hnd : (dKeys d).Nodup) (v : String) :
    v ∈ (d.filter (fun p => decide (p.2 = 0))).map Prod.fst ↔ dGet d v = some 0 := by
  induction d with
  | nil => simp [dGet]
  | cons p rest ih =>
    obtain ⟨a, n⟩ := p
    have hnd0 : (a :: dKeys rest).Nodup := by simpa [dKeys] using hnd
    have hnd' : (dKeys rest).Nodup := hnd0.of_cons
    by_cases h : a = v
    · subst h
      have hnot : a ∉ dKeys rest := (List.nodup_cons.mp hnd0).1
      by_cases hz : n = 0
      · subst hz
        simp [dGet, List.filter_cons]
      · simp only [dGet, List.filter_cons, if_pos rfl]
        rw [if_neg (by simpa using hz)]
        constructor
        · intro hc
          exact absurd (mem_map_fst_filter hc) hnot
        · intro hc
          simp [hz] at hc
    · simp only [List.filter_cons]
      by_cases hz : n = 0
      · subst hz
        rw [if_pos (by simp)]
        simp only [List.map_cons, List.mem_cons]
        have hdg : dGet ((a, (0 : Int)) :: rest) v = dGet rest v := by
          simp [dGet, h]
        rw [hdg, ← ih hnd']
        constructor
        · intro hc
          rcases hc with hc | hc
          · exact absurd hc.symm h
          · exact hc
        · exact fun hc => Or.inr hc
      · rw [if_neg (by simpa using hz)]
        rw [ih hnd']
        simp [dGet, h]

theorem filter_zero_map_nodup {d : Dict Int} (hnd : (dKeys d).Nodup) :
    ((d.filter (fun p => decide (p.2 = 0))).map Prod.fst).Nodup :=
  hnd.sublist ((List.filter_sublist d).map Prod.fst)

/-- Claim C4: on a well-formed graph, topological_sort emits, when the
graph is acyclic, every task exactly once with every dependency placed
before each task that depends on it, and never raises; and it raises
CyclicDependencyError exactly when the number of emitted nodes falls
short of the number of tasks. -/
theorem topological_sort_spec (g : TaskGraph) (hg : WellFormed g) :
    (Acyclic g →
      ∃ l, topological_sort g = Except.ok l ∧ l.Nodup ∧
        (∀ x, x ∈ l ↔ x ∈ keyList g) ∧
        (∀ i (hi : i < l.length), ∀ u ∈ revOf g (l.get ⟨i, hi⟩), u ∈ l.take i)) ∧
    (topological_sort g = Except.error GraphErr.cyclicDependencyError ↔
      (kahnOrder g).length < g.tasks.length) := by
  have hkn : (keyList g).Nodup := hg.1
  have hq0 : ∀ v, v ∈ ((initIndeg g).filter (fun p => decide (p.2 = 0))).map Prod.fst ↔
      dGet (initIndeg g) v = some 0 := by
    intro v
    exact mem_filter_zero_map (by rw [initIndeg_keys]; exact hkn) v
  have hspec :=
    kahnLoop_spec g hg
      ((((initIndeg g).filter (fun p => decide (p.2 = 0))).map Prod.fst).length +
        degSum (initIndeg g) + 1)
      (((initIndeg g).filter (fun p => decide (p.2 = 0))).map Prod.fst)
      (initIndeg g) []
      (by omega)
      (initIndeg_keys g)
      (by
        intro v hv
        rw [initIndeg_get, if_pos hv]
        have hz : accPred g [] v = 0 := rfl
        rw [hz]
        norm_num)
      (by
        simp only [List.nil_append]
        exact filter_zero_map_nodup (by rw [initIndeg_keys]; exact hkn))
      (by intro x hx; simp at hx)
      (by
        intro x hx
        have := (hq0 x).mp hx
        have hsome : (dGet (initIndeg g) x).isSome = true := by rw [this]; rfl
        have := (dGet_isSome _ _).mp hsome
        rwa [initIndeg_keys] at this)
      (by
        intro v hv heq
        refine Or.inr ((hq0 v).mpr ?_)
        rw [initIndeg_get, if_pos hv]
        have : accPred g [] v = 0 := by simp [accPred]
        rw [this] at heq
        rw [heq]
        rfl)
      (by
        intro v hv
        rcases hv with hv | hv
        · simp at hv
        · have := (hq0 v).mp hv
          have hvkey : v ∈ keyList g := by
            have hsome : (dGet (initIndeg g) v).isSome = true := by rw [this]; rfl
            have := (dGet_isSome _ _).mp hsome
            rwa [initIndeg_keys] at this
          rw [initIndeg_get, if_pos hvkey] at this
          have := Option.some.inj this
          simp [accPred]
          omega)
      (by intro i hi; simp at hi)
  obtain ⟨hresNodup, hresKeys, hresOrder, hresComplete⟩ := hspec
  have hONodup : (kahnOrder g).Nodup := hresNodup
  have hOKeys : ∀ x ∈ kahnOrder g, x ∈ keyList g := hresKeys
  have hOOrder : ∀ i (h : i < (kahnOrder g).length), ∀ u,
      (kahnOrder g).get ⟨i, h⟩ ∈ adjOf g u → u ∈ (kahnOrder g).take i := hresOrder
  have hOComplete : Acyclic g → ∀ v ∈ keyList g, v ∈ kahnOrder g := hresComplete
  clear hresNodup hresKeys hresOrder hresComplete
  have hlen_le : (kahnOrder g).length ≤ g.tasks.length := by
    have h1 : (kahnOrder g).toFinset.card = (kahnOrder g).length :=
      List.toFinset_card_of_nodup hONodup
    have h2 : (kahnOrder g).toFinset ⊆ (keyList g).toFinset := by
      intro x hx
      rw [List.mem_toFinset] at hx ⊢
      exact hOKeys x hx
    have h3 := Finset.card_le_card h2
    rw [h1, List.toFinset_card_of_nodup hkn] at h3
    have h4 : (keyList g).length = g.tasks.length := by
      unfold keyList dKeys
      rw [List.length_map]
    omega
  constructor
  · intro hac
    have hmem : ∀ x, x ∈ kahnOrder g ↔ x ∈ keyList g :=
      fun x => ⟨fun hx => hOKeys x hx, fun hx => hOComplete hac x hx⟩
    have hlen : (kahnOrder g).length = g.tasks.length := by
      have h1 : (kahnOrder g).toFinset = (keyList g).toFinset := by
        ext x
        rw [List.mem_toFinset, List.mem_toFinset]
        exact hmem x
      have h2 := congrArg Finset.card h1
      rw [List.toFinset_card_of_nodup hONodup, List.toFinset_card_of_nodup hkn] at h2
      have h4 : (keyList g).length = g.tasks.length := by
        unfold keyList dKeys
        rw [List.length_map]
      omega
    refine ⟨kahnOrder g, ?_, hONodup, hmem, ?_⟩
    · unfold topological_sort
      rw [if_neg (by omega)]
    · intro i hi u hu
      exact hOOrder i hi u ((mem_adjOf_iff_mem_revOf hg u _).mpr hu)
  · unfold topological_sort
    by_cases hne : (kahnOrder g).length ≠ g.tasks.length
    · rw [if_pos hne]
      simp only [true_iff]
      omega
    · rw [if_neg hne]
      constructor
      · intro hc
        exact Except.noConfusion hc
      · intro hc
        omega

theorem topological_sort_spec_witness :
    WellFormed gC1 ∧
      (topological_sort gC1 = Except.error GraphErr.cyclicDependencyError ↔
        (kahnOrder gC1).length < gC1.tasks.length) :=
  ⟨by decide,
    (topological_sort_spec gC1 (by decide)).2⟩

/-- Claim C2 (code bug): calculate_slack_time can never return the value
the claim describes, because it passes the earliest-start DICT as the
positional `max_completion_time` argument of the backward pass, which
then raises TypeError on the first dict-minus-float (or min-of-dict)
operation; the except clause turns that into None.  At the failing
input — the acyclic one-task graph `gOne` with its task `a` present, for
which the claim (and the repository's own test suite) expects the slack
0.0 = latest_start[a] - earliest_start[a] — the code returns None: the
backward pass raises, and the correctly typed backward pass (the one
calculate_critical_path performs with a float completion time) would
give slack exactly 0. -/
theorem calculate_slack_time_code_bug :
    calculate_slack_time gOne "a" = none ∧
    latest_start_times_py gOne (some (PyVal.pydict (earliest_start_times gOne))) =
      Except.error () ∧
    (dGet (latest_start_times gOne (maxCompletionTime gOne (earliest_start_times gOne)))
        "a").getD 0 - (dGet (earliest_start_times gOne) "a").getD 0 = 0 := by
  decide

/-- Iterations of the calculate_effective_priorities loop over other
task ids leave both the dict entry and the stored Task of `tid`
untouched. -/
theorem effPrStep_fold_other (g : TaskGraph) (w : PriorityWeights) (cp : List String)
    (pd : Dict Nat) :
    ∀ (l : List (String × Task)) (st : Dict ℚ × TaskGraph) (tid : String),
    tid ∉ dKeys l →
    dGet (l.foldl (effPrStep g w cp pd) st).1 tid = dGet st.1 tid ∧
    dGet (l.foldl (effPrStep g w cp pd) st).2.tasks tid = dGet st.2.tasks tid := by
  intro l
  induction l with
  | nil => intro st tid _; exact ⟨rfl, rfl⟩
  | cons p rest ih =>
    intro st tid hmem
    have hk : p.1 ≠ tid := fun h => hmem (by simp [dKeys, h])
    have hrest : tid ∉ dKeys rest := by
      intro h
      exact hmem (by simp [dKeys] at h ⊢; exact Or.inr h)
    rw [List.foldl_cons]
    have hstep := ih (effPrStep g w cp pd st p) tid hrest
    refine ⟨hstep.1.trans ?_, hstep.2.trans ?_⟩
    · unfold effPrStep
      split
      · exact dGet_dPut_ne _ _ _ _ hk
      · exact dGet_dPut_ne _ _ _ _ hk
    · unfold effPrStep
      split
      · rfl
      · show dGet (dAdjust st.2.tasks p.1 _) tid = dGet st.2.tasks tid
        rw [dGet_dAdjust, if_neg hk]

/-- The calculate_effective_priorities loop over a key-distinct task
list containing `(tid, task)`, started in a state storing `task` at
`tid`: a terminal task gets dict value 0 and its stored Task is
untouched; a non-terminal task gets its computed priority both in the
dict and written back onto its stored Task. -/
theorem effPrStep_fold_found (g : TaskGraph) (w : PriorityWeights) (cp : List String)
    (pd : Dict Nat) :
    ∀ (l : List (String × Task)) (st : Dict ℚ × TaskGraph) (tid : String) (task : Task),
    (dKeys l).Nodup → (tid, task) ∈ l → dGet st.2.tasks tid = some task →
    dGet (l.foldl (effPrStep g w cp pd) st).1 tid =
      some (if isTerminal task.status then 0 else effectivePriorityOf g w cp pd tid task) ∧
    dGet (l.foldl (effPrStep g w cp pd) st).2.tasks tid =
      some (if isTerminal task.status then task
            else task.set_effective_priority (effectivePriorityOf g w cp pd tid task)) := by
  intro l
  induction l with
  | nil => intro st tid task _ hmem _; simp at hmem
  | cons p rest ih =>
    intro st tid task hnd hmem hst
    have hnd' : (p.1 :: dKeys rest).Nodup := hnd
    have hndrest : (dKeys rest).Nodup := (List.nodup_cons.mp hnd').2
    have hhead : p.1 ∉ dKeys rest := (List.nodup_cons.mp hnd').1
    rcases List.mem_cons.mp hmem with heq | hrest
    · -- this iteration processes tid itself
      have hp1 : p.1 = tid := by rw [← heq]
      have hp2 : p.2 = task := by rw [← heq]
      have hnotin : tid ∉ dKeys rest := hp1 ▸ hhead
      rw [List.foldl_cons]
      have hafter := effPrStep_fold_other g w cp pd rest (effPrStep g w cp pd st p) tid hnotin
      refine ⟨hafter.1.trans ?_, hafter.2.trans ?_⟩
      · unfold effPrStep
        rw [hp1, hp2]
        by_cases hterm : isTerminal task.status
        · rw [if_pos hterm, if_pos hterm]
          exact dGet_dPut_self _ _ _
        · rw [if_neg hterm, if_neg hterm]
          exact dGet_dPut_self _ _ _
      · unfold effPrStep
        rw [hp1, hp2]
        by_cases hterm : isTerminal task.status
        · rw [if_pos hterm, if_pos hterm]
          exact hst
        · rw [if_neg hterm, if_neg hterm]
          show dGet (dAdjust st.2.tasks tid _) tid = _
          rw [dGet_dAdjust, if_pos rfl, hst]
          rfl
    · -- tid sits further down the list
      have hk : p.1 ≠ tid := by
        intro h
        exact hhead (h ▸ (by simpa [dKeys] using List.mem_map_of_mem Prod.fst hrest))
      have hst' : dGet (effPrStep g w cp pd st p).2.tasks tid = some task := by
        unfold effPrStep
        split
        · exact hst
        · show dGet (dAdjust st.2.tasks p.1 _) tid = _
          rw [dGet_dAdjust, if_neg hk]
          exact hst
      rw [List.foldl_cons]
      exact ih (effPrStep g w cp pd st p) tid task hndrest hrest hst'

/-- Claim C9 counterexample: for the Completed task of `gDone`, the
returned dict says 0.0, but nothing is written back onto the Task:
reading task.effective_priority after the pass still yields the base
priority 2, not 0. -/
theorem terminal_priority_writeback_counterexample :
    dGet (calculate_effective_priorities gDone defaultWeights).1 "a" = some 0 ∧
    (dGet (calculate_effective_priorities gDone defaultWeights).2.tasks "a").map
      Task.effective_priority = some 2 ∧ ((2 : ℚ) ≠ 0) := by
  decide

/-- Claim C9 (amended): calculate_effective_priorities maps every
Completed/Cancelled task to 0.0 in the returned dictionary, but the
`continue` skips the write-back for exactly these tasks: the stored Task
object, including its cached effective_priority, is left exactly as it
was before the pass. -/
theorem terminal_priority_zero_no_writeback (g : TaskGraph) (w : PriorityWeights)
    (tid : String) (task : Task) (hnd : (dKeys g.tasks).Nodup)
    (hget : dGet g.tasks tid = some task) (hterm : isTerminal task.status = true) :
    dGet (calculate_effective_priorities g w).1 tid = some 0 ∧
    dGet (calculate_effective_priorities g w).2.tasks tid = some task := by
  have h := effPrStep_fold_found g w (calculate_critical_path g) (calculate_path_depths g)
    g.tasks ([], g) tid task hnd (mem_of_dGet hget) hget
  rw [hterm] at h
  simpa [calculate_effective_priorities] using h

/-- Claim C9 witness input evaluation. -/
theorem terminal_priority_zero_no_writeback_witness :
    (dKeys gDone.tasks).Nodup ∧
    dGet gDone.tasks "a" = some (mkTask "a" .completed 1 ∅ ∅) ∧
    isTerminal (mkTask "a" .completed 1 ∅ ∅).status = true ∧
    (dGet (calculate_effective_priorities gDone defaultWeights).1 "a" = some 0 ∧
     dGet (calculate_effective_priorities gDone defaultWeights).2.tasks "a" =
       some (mkTask "a" .completed 1 ∅ ∅)) :=
  ⟨by decide, by decide, by decide,
    terminal_priority_zero_no_writeback gDone defaultWeights "a"
      (mkTask "a" .completed 1 ∅ ∅) (by decide) (by decide) (by decide)⟩

/-- Claim C3 counterexample: on the one-task graph `gOne` the task `a`
(medium priority 2, effort 2) is on the critical path; the code computes
2 * 1.5 + 2 * 0.8 = 4.6, whereas the claimed formula — 1.5 applied to
the full sum including the effort term — gives (2 + 2 * 0.8) * 1.5
= 5.4. -/
theorem critical_path_priority_counterexample :
    "a" ∈ calculate_critical_path gOne ∧
    dGet (calculate_effective_priorities gOne defaultWeights).1 "a" = some (23 / 5) ∧
    claimedPriorityC3 gOne "a" (mkTask "a" .notStarted 2 ∅ ∅) = 27 / 5 ∧
    ((23 / 5 : ℚ) ≠ 27 / 5) := by
  decide

/-- Claim C3 (amended): for a non-terminal task on the critical path,
the effective priority under default weights multiplies only the first
four terms (base priority, dependency count, transitive dependent count,
path depth) by 1.5, and adds the effort and urgency terms AFTER the
multiplication. -/
theorem critical_path_priority_formula (g : TaskGraph) (tid : String) (task : Task)
    (hnd : (dKeys g.tasks).Nodup) (hget : dGet g.tasks tid = some task)
    (hterm : isTerminal task.status = false)
    (hcp : tid ∈ calculate_critical_path g) :
    dGet (calculate_effective_priorities g defaultWeights).1 tid =
      some ((task.priority.val * 1
           + (if get_dependencies g tid ≠ ∅
              then ((get_dependencies g tid).card : ℚ) * (1 / 2) else 0)
           + (if get_all_dependents g tid ≠ ∅
              then ((get_all_dependents g tid).card : ℚ) * (3 / 2) else 0)
           + (((dGet (calculate_path_depths g) tid).getD 0 : ℕ) : ℚ) * 2) * (3 / 2)
         + task.estimated_effort * (4 / 5)
         + (match task.deadline_days with
            | some dd => urgencyFactor dd * (6 / 5)
            | none => 0)) := by
  have h := (effPrStep_fold_found g defaultWeights (calculate_critical_path g)
    (calculate_path_depths g) g.tasks ([], g) tid task hnd (mem_of_dGet hget) hget).1
  rw [hterm] at h
  simp only [Bool.false_eq_true, if_false] at h
  have h2 : dGet (calculate_effective_priorities g defaultWeights).1 tid =
      some (effectivePriorityOf g defaultWeights (calculate_critical_path g)
        (calculate_path_depths g) tid task) := h
  rw [h2]
  congr 1
  simp only [effectivePriorityOf, defaultWeights]
  rw [if_pos hcp]
  rcases hpd : dGet (calculate_path_depths g) tid with _ | dep <;>
    rcases hdl : task.deadline_days with _ | dd <;>
      simp only [hpd, hdl, Option.getD] <;>
        split_ifs <;>
          push_cast <;>
            ring

/-- Claim C3 amended-theorem witness input evaluation. -/
theorem critical_path_priority_formula_witness :
    (dKeys gOne.tasks).Nodup ∧
    dGet gOne.tasks "a" = some (mkTask "a" .notStarted 2 ∅ ∅) ∧
    isTerminal (mkTask "a" .notStarted 2 ∅ ∅).status = false ∧
    "a" ∈ calculate_critical_path gOne ∧
    dGet (calculate_effective_priorities gOne defaultWeights).1 "a" =
      some (((mkTask "a" .notStarted 2 ∅ ∅).priority.val * 1
           + (if get_dependencies gOne "a" ≠ ∅
              then ((get_dependencies gOne "a").card : ℚ) * (1 / 2) else 0)
           + (if get_all_dependents gOne "a" ≠ ∅
              then ((get_all_dependents gOne "a").card : ℚ) * (3 / 2) else 0)
           + (((dGet (calculate_path_depths gOne) "a").getD 0 : ℕ) : ℚ) * 2) * (3 / 2)
         + (mkTask "a" .notStarted 2 ∅ ∅).estimated_effort * (4 / 5)
         + (match (mkTask "a" .notStarted 2 ∅ ∅).deadline_days with
            | some dd => urgencyFactor dd * (6 / 5)
            | none => 0)) :=
  ⟨by decide, by decide, by decide, by decide,
    critical_path_priority_formula gOne "a" (mkTask "a" .notStarted 2 ∅ ∅)
      (by decide) (by decide) (by decide) (by decide)⟩

/-- Claim C5 counterexample: build a graph through the public API only —
add_task b, add_task a, add_dependency(b, a) — so that the tasks dict
orders b before a.  from_dict(to_dict(g)) then raises ValueError: phase
1 adds b first, and add_task immediately replays b's serialized
dependency on the not-yet-added a. -/
theorem roundtrip_raises_counterexample :
    (add_dependency (add_task (add_task TaskGraph.empty
        (mkTask "b" .notStarted 1 ∅ ∅)).1 (mkTask "a" .notStarted 1 ∅ ∅)).1
        "b" "a").2 = Except.ok true ∧
    (TaskGraph.from_dict (TaskGraph.to_dict
      (add_dependency (add_task (add_task TaskGraph.empty
        (mkTask "b" .notStarted 1 ∅ ∅)).1 (mkTask "a" .notStarted 1 ∅ ∅)).1
        "b" "a").1)).2 = Except.error GraphErr.valueError := by
  decide

/-! ### Dictionary and Task toolkit for the round-trip proof -/

theorem dKeys_append {α : Type} (l1 l2 : Dict α) :
    dKeys (l1 ++ l2) = dKeys l1 ++ dKeys l2 := List.map_append _ _ _

theorem dGet_append {α : Type} (l1 l2 : Dict α) (k : String) :
    dGet (l1 ++ l2) k = if k ∈ dKeys l1 then dGet l1 k else dGet l2 k := by
  induction l1 with
  | nil => simp [dGet, dKeys]
  | cons p rest ih =>
    obtain ⟨a, v⟩ := p
    by_cases h : a = k
    · subst h
      simp [dGet, dKeys]
    · have hne : ¬ k = a := fun hh => h hh.symm
      show dGet ((a, v) :: (rest ++ l2)) k = _
      rw [dGet, if_neg h, ih]
      have hkc : dKeys ((a, v) :: rest) = a :: dKeys rest := rfl
      rw [hkc]
      by_cases hk : k ∈ dKeys rest
      · rw [if_pos hk, if_pos (List.mem_cons_of_mem a hk), dGet, if_neg h]
      · rw [if_neg hk, if_neg (show k ∉ a :: dKeys rest from by
          intro hh
          rcases List.mem_cons.mp hh with h1 | h2
          · exact hne h1
          · exact hk h2)]

theorem dGet_map_entry {α β : Type} (l : Dict α) (φ : String × α → β) (k : String) :
    dGet (l.map (fun p => (p.1, φ p))) k = (dGet l k).map (fun v => φ (k, v)) := by
  induction l with
  | nil => rfl
  | cons p rest ih =>
    obtain ⟨a, v⟩ := p
    by_cases h : a = k
    · subst h
      simp [dGet]
    · simp [dGet, h, ih]

theorem eq_of_mem_of_dGet {α : Type} {d : Dict α} {k : String} {v w : α}
    (hnd : (dKeys d).Nodup) (hmem : (k, v) ∈ d) (hget : dGet d k = some w) : v = w := by
  induction d with
  | nil => simp at hmem
  | cons p rest ih =>
    obtain ⟨a, u⟩ := p
    have hnd' : (a :: dKeys rest).Nodup := hnd
    rcases List.mem_cons.mp hmem with heq | hrest
    · have hak : a = k := (congrArg Prod.fst heq).symm
      have huv : u = v := (congrArg Prod.snd heq).symm
      rw [dGet, if_pos hak] at hget
      rw [← huv]
      exact Option.some.inj hget
    · have hak : a ≠ k := by
        intro hh
        subst hh
        exact (List.nodup_cons.mp hnd').1
          (by simpa [dKeys] using List.mem_map_of_mem Prod.fst hrest)
      rw [dGet, if_neg hak] at hget
      exact ih (List.nodup_cons.mp hnd').2 hrest hget

theorem dict_ext {α : Type} (d1 : Dict α) : ∀ (d2 : Dict α), (dKeys d1).Nodup →
    dKeys d1 = dKeys d2 → (∀ k, dGet d1 k = dGet d2 k) → d1 = d2 := by
  induction d1 with
  | nil =>
    intro d2 _ hk _
    cases d2 with
    | nil => rfl
    | cons q r => simp [dKeys] at hk
  | cons p r1 ih =>
    intro d2 hnd hk hv
    obtain ⟨a, v⟩ := p
    cases d2 with
    | nil => simp [dKeys] at hk
    | cons q r2 =>
      obtain ⟨b, w⟩ := q
      have hk' : a = b ∧ dKeys r1 = dKeys r2 := by simpa [dKeys] using hk
      obtain ⟨hab, hkeys⟩ := hk'
      subst hab
      have hnd' : (a :: dKeys r1).Nodup := hnd
      have hvw : v = w := by
        have := hv a
        rw [dGet, if_pos rfl, dGet, if_pos rfl] at this
        exact Option.some.inj this
      subst hvw
      have hr : r1 = r2 := by
        apply ih r2 (List.nodup_cons.mp hnd').2 hkeys
        intro k
        by_cases hka : a = k
        · subst hka
          have h1 : dGet r1 a = none := by
            rw [dGet_eq_none]
            exact (List.nodup_cons.mp hnd').1
          have h2 : dGet r2 a = none := by
            rw [dGet_eq_none, ← hkeys]
            exact (List.nodup_cons.mp hnd').1
          rw [h1, h2]
        · have := hv k
          rw [dGet, if_neg hka, dGet, if_neg hka] at this
          exact this
      rw [hr]

theorem dAdjust_append {α : Type} (l1 l2 : Dict α) (k : String) (f : α → α) :
    dAdjust (l1 ++ l2) k f = dAdjust l1 k f ++ dAdjust l2 k f := by
  induction l1 with
  | nil => rfl
  | cons p rest ih =>
    obtain ⟨a, v⟩ := p
    by_cases h : a = k <;> simp [dAdjust, h, ih]

theorem dAdjust_eq_self {α : Type} (l : Dict α) (k : String) (f : α → α)
    (h : ∀ v, (k, v) ∈ l → f v = v) : dAdjust l k f = l := by
  induction l with
  | nil => rfl
  | cons p rest ih =>
    obtain ⟨a, v⟩ := p
    by_cases ha : a = k
    · subst ha
      rw [dAdjust, if_pos rfl, h v (by simp),
        ih (fun w hw => h w (List.mem_cons_of_mem _ hw))]
    · rw [dAdjust, if_neg ha, ih (fun w hw => h w (List.mem_cons_of_mem _ hw))]

theorem dPut_not_mem {α : Type} (l : Dict α) (k : String) (v : α)
    (h : k ∉ dKeys l) : dPut l k v = l ++ [(k, v)] := by
  induction l with
  | nil => rfl
  | cons p rest ih =>
    obtain ⟨a, w⟩ := p
    have ha : a ≠ k := fun hh => h (by subst hh; exact List.mem_cons_self _ _)
    rw [dPut, if_neg ha,
      ih (fun hh => h (show k ∈ a :: dKeys rest from List.mem_cons_of_mem _ hh))]
    rfl

theorem mem_take_of_indexOf_lt {l : List String} {a : String} {n : Nat}
    (hmem : a ∈ l) (h : l.indexOf a < n) : a ∈ l.take n := by
  induction l generalizing n with
  | nil => simp at hmem
  | cons b rest ih =>
    cases n with
    | zero => omega
    | succ m =>
      rw [List.take_succ_cons]
      by_cases hba : b = a
      · exact hba ▸ List.mem_cons_self _ _
      · have hrest : a ∈ rest := by
          rcases List.mem_cons.mp hmem with heq | hr
          · exact absurd heq.symm hba
          · exact hr
        have hidx : rest.indexOf a < m := by
          rw [List.indexOf_cons_ne _ (by simpa using hba)] at h
          omega
        exact List.mem_cons_of_mem _ (ih hrest hidx)

theorem indexOf_lt_of_mem_take {l : List String} (hnd : l.Nodup) {a : String} {n : Nat}
    (h : a ∈ l.take n) : l.indexOf a < n := by
  induction l generalizing n with
  | nil => simp at h
  | cons b rest ih =>
    cases n with
    | zero => simp at h
    | succ m =>
      rw [List.take_succ_cons] at h
      by_cases hba : b = a
      · subst hba
        rw [List.indexOf_cons_self]
        omega
      · rcases List.mem_cons.mp h with heq | hr
        · exact absurd heq.symm hba
        · have := ih (List.nodup_cons.mp hnd).2 hr
          rw [List.indexOf_cons_ne _ (by simpa using hba)]
          omega

theorem nodup_indexOf_getElem {l : List String} (hnd : l.Nodup) (n : Nat)
    (hn : n < l.length) : l.indexOf l[n] = n := by
  induction l generalizing n with
  | nil => simp at hn
  | cons b rest ih =>
    cases n with
    | zero => simp [List.indexOf_cons_self]
    | succ m =>
      have hm : m < rest.length := by simpa using hn
      have hmem : rest[m] ∈ rest := List.getElem_mem hm
      have hne : b ≠ rest[m] := by
        intro hh
        exact (List.nodup_cons.mp hnd).1 (hh ▸ hmem)
      show (b :: rest).indexOf rest[m] = m + 1
      rw [List.indexOf_cons_ne _ (by simpa using hne), ih (List.nodup_cons.mp hnd).2 m hm]

theorem stepReach_mono {adj1 adj2 : String → Finset String}
    (hsub : ∀ x, adj1 x ⊆ adj2 x) {a b : String} (h : StepReach adj1 a b) :
    StepReach adj2 a b := by
  induction h with
  | single h => exact StepReach.single (hsub _ h)
  | tail _ h ih => exact StepReach.tail ih (hsub _ h)

theorem stepReach_swap {adj rev : String → Finset String}
    (hm : ∀ a b, b ∈ adj a ↔ a ∈ rev b) {a b : String} (h : StepReach adj a b) :
    StepReach rev b a := by
  induction h with
  | single h => exact StepReach.single ((hm _ _).mp h)
  | tail _ h ih => exact StepReach.trans (StepReach.single ((hm _ _).mp h)) ih

theorem Task.addDep_eq_self {t : Task} {x : String} (h : x ∈ t.dependencies) :
    t.addDep x = t := by
  by_cases hx : x ≠ t.id
  · rw [Task.addDep, if_pos hx, Finset.insert_eq_self.mpr h]
  · rw [Task.addDep, if_neg hx]

theorem Task.addDept_eq_self {t : Task} {x : String} (h : x ∈ t.dependents) :
    t.addDept x = t := by
  by_cases hx : x ≠ t.id
  · rw [Task.addDept, if_pos hx, Finset.insert_eq_self.mpr h]
  · rw [Task.addDept, if_neg hx]

theorem Task.update_status_eq_self {t : Task} {s : TaskStatus} (h : t.status = s) :
    t.update_status s = t := by
  rw [Task.update_status, ← h]

theorem setToList_toFinset (s : Finset String) : (setToList s).toFinset = s := by
  ext x
  simp [List.mem_toFinset, mem_setToList]

/-- A round trip through Task.to_dict / Task.from_dict bakes the
effective-priority property into the cache and keeps every other
field. -/
theorem from_to_task (t : Task) : Task.from_dict t.to_dict = cacheBake t := by
  unfold Task.from_dict Task.to_dict cacheBake
  simp [setToList_toFinset]

/-- _update_task_blocked_status is the identity on a task whose status
already satisfies the blocked-status rule. -/
theorem update_tbs_noop (g : TaskGraph) (t : String) (task : Task)
    (hnd : (dKeys g.tasks).Nodup) (hget : dGet g.tasks t = some task)
    (hcons : isTerminal task.status = false →
      ((∃ dep ∈ task.dependencies, depBlocks g dep = true) ↔
        task.status = TaskStatus.blocked)) :
    update_task_blocked_status g t = g := by
  unfold update_task_blocked_status
  rw [hget]
  dsimp only
  by_cases hterm : isTerminal task.status
  · rw [if_pos hterm]
  · rw [if_neg hterm]
    have hcons' := hcons (by simpa using hterm)
    by_cases hex : ∃ dep ∈ task.dependencies, depBlocks g dep = true
    · rw [if_pos hex]
      have hb : task.status = .blocked := hcons'.mp hex
      unfold modifyTask
      have hadj : dAdjust g.tasks t (fun x => x.update_status .blocked) = g.tasks := by
        apply dAdjust_eq_self
        intro v hv
        have hv' : v = task := eq_of_mem_of_dGet hnd hv hget
        subst hv'
        exact Task.update_status_eq_self hb
      rw [hadj]
    · rw [if_neg hex]
      have hnb : ¬ task.status = TaskStatus.blocked := fun hh => hex (hcons'.mpr hh)
      rw [if_neg hnb]

theorem dKeys_map_entry {α β : Type} (l : Dict α) (φ : String × α → β) :
    dKeys (l.map (fun p => (p.1, φ p))) = dKeys l := by
  simp [dKeys, List.map_map, Function.comp]

theorem dKeys_take {α : Type} (l : Dict α) (n : Nat) :
    dKeys (l.take n) = (dKeys l).take n := List.map_take _ _ _

theorem dGet_take_of_mem {α : Type} {l : Dict α} {k : String} {n : Nat}
    (h : k ∈ dKeys (l.take n)) : dGet (l.take n) k = dGet l k := by
  induction l generalizing n with
  | nil => rw [List.take_nil]
  | cons p rest ih =>
    obtain ⟨a, v⟩ := p
    cases n with
    | zero => simp [dKeys] at h
    | succ m =>
      rw [List.take_succ_cons] at h ⊢
      by_cases ha : a = k
      · rw [dGet, if_pos ha, dGet, if_pos ha]
      · rw [dGet, if_neg ha, dGet, if_neg ha]
        refine ih ?_
        have h' : k ∈ a :: dKeys (rest.take m) := h
        rcases List.mem_cons.mp h' with h1 | h2
        · exact absurd h1.symm ha
        · exact h2

theorem dGet_of_mem_nodup {α : Type} {d : Dict α} {k : String} {v : α}
    (hnd : (dKeys d).Nodup) (hmem : (k, v) ∈ d) : dGet d k = some v := by
  have hk : k ∈ dKeys d := by simpa [dKeys] using List.mem_map_of_mem Prod.fst hmem
  obtain ⟨w, hw⟩ := dGet_some_of_mem hk
  rw [hw, eq_of_mem_of_dGet hnd hmem hw]

theorem takeKeys_eq (g : TaskGraph) (n : Nat) : takeKeys g n = (keyList g).take n :=
  dKeys_take _ _

theorem adj_take_keys {g : TaskGraph} (hg : WellFormed g) (n : Nat) :
    dKeys (g.adjacency_list.take n) = takeKeys g n := by
  rw [dKeys_take, hg.2.1, takeKeys_eq]
  rfl

theorem rev_take_keys {g : TaskGraph} (hg : WellFormed g) (n : Nat) :
    dKeys (g.reverse_adjacency.take n) = takeKeys g n := by
  rw [dKeys_take, hg.2.2.1, takeKeys_eq]
  rfl

theorem inner_tasks_dGet {g : TaskGraph} (hg : WellFormed g) (n : Nat) (k : String)
    (task : Task) (S : Finset String) (hknotin : k ∉ takeKeys g n) (a : String) :
    dGet (innerGraph g n k task S).tasks a =
      if a ∈ takeKeys g n then (dGet g.tasks a).map cacheBake
      else if a = k then some (cacheBake task) else none := by
  show dGet (_ ++ _) a = _
  rw [dGet_append]
  have hkeys : dKeys ((g.tasks.take n).map (fun p => (p.1, cacheBake p.2))) =
      takeKeys g n := dKeys_map_entry _ _
  rw [hkeys]
  by_cases ha : a ∈ takeKeys g n
  · rw [if_pos ha, if_pos ha]
    have hmap := dGet_map_entry (g.tasks.take n) (fun p => cacheBake p.2) a
    rw [hmap, dGet_take_of_mem ha]
  · rw [if_neg ha, if_neg ha]
    by_cases hak : a = k
    · subst hak
      rw [dGet, if_pos rfl, if_pos rfl]
    · have hka : ¬ k = a := fun hh => hak hh.symm
      rw [dGet, if_neg hka, if_neg hak]
      rfl

theorem inner_adj_dGet {g : TaskGraph} (hg : WellFormed g) (n : Nat) (k : String)
    (task : Task) (S : Finset String) (hknotin : k ∉ takeKeys g n) (a : String) :
    dGet (innerGraph g n k task S).adjacency_list a =
      if a ∈ takeKeys g n then
        some ((adjOf g a).filter (fun b => b ∈ takeKeys g n) ∪
          (if a ∈ S then {k} else ∅))
      else if a = k then some ∅ else none := by
  show dGet (_ ++ _) a = _
  rw [dGet_append]
  have hkeys : dKeys ((g.adjacency_list.take n).map
      (fun p => (p.1, p.2.filter (fun b => b ∈ takeKeys g n) ∪
        (if p.1 ∈ S then {k} else ∅)))) = takeKeys g n := by
    rw [dKeys_map_entry, adj_take_keys hg]
  rw [hkeys]
  by_cases ha : a ∈ takeKeys g n
  · rw [if_pos ha, if_pos ha]
    have hmap := dGet_map_entry (g.adjacency_list.take n)
      (fun p => p.2.filter (fun b => b ∈ takeKeys g n) ∪
        (if p.1 ∈ S then {k} else ∅)) a
    rw [hmap]
    have hmem : a ∈ dKeys (g.adjacency_list.take n) := by rw [adj_take_keys hg]; exact ha
    rw [dGet_take_of_mem hmem]
    have hmemfull : a ∈ dKeys g.adjacency_list := by
      rw [hg.2.1]
      exact List.take_subset _ _ ((takeKeys_eq g n) ▸ ha)
    obtain ⟨row, hrow⟩ := dGet_some_of_mem hmemfull
    rw [hrow]
    have hrowadj : adjOf g a = row := by rw [adjOf, hrow]; rfl
    rw [hrowadj]
    rfl
  · rw [if_neg ha, if_neg ha]
    by_cases hak : a = k
    · subst hak
      rw [dGet, if_pos rfl, if_pos rfl]
    · have hka : ¬ k = a := fun hh => hak hh.symm
      rw [dGet, if_neg hka, if_neg hak]
      rfl

theorem inner_rev_dGet {g : TaskGraph} (hg : WellFormed g) (n : Nat) (k : String)
    (task : Task) (S : Finset String) (hknotin : k ∉ takeKeys g n) (a : String) :
    dGet (innerGraph g n k task S).reverse_adjacency a =
      if a ∈ takeKeys g n then some (revOf g a)
      else if a = k then some S else none := by
  show dGet (_ ++ _) a = _
  rw [dGet_append, rev_take_keys hg]
  by_cases ha : a ∈ takeKeys g n
  · rw [if_pos ha, if_pos ha]
    have hmem : a ∈ dKeys (g.reverse_adjacency.take n) := by rw [rev_take_keys hg]; exact ha
    rw [dGet_take_of_mem hmem]
    have hmemfull : a ∈ dKeys g.reverse_adjacency := by
      rw [hg.2.2.1]
      exact List.take_subset _ _ ((takeKeys_eq g n) ▸ ha)
    obtain ⟨row, hrow⟩ := dGet_some_of_mem hmemfull
    rw [hrow]
    have hrowrev : revOf g a = row := by rw [revOf, hrow]; rfl
    rw [hrowrev]
  · rw [if_neg ha, if_neg ha]
    by_cases hak : a = k
    · subst hak
      rw [dGet, if_pos rfl, if_pos rfl]
    · have hka : ¬ k = a := fun hh => hak hh.symm
      rw [dGet, if_neg hka, if_neg hak]
      rfl

theorem inner_adjOf {g : TaskGraph} (hg : WellFormed g) (n : Nat) (k : String)
    (task : Task) (S : Finset String) (hknotin : k ∉ takeKeys g n) (a : String) :
    adjOf (innerGraph g n k task S) a =
      if a ∈ takeKeys g n then
        (adjOf g a).filter (fun b => b ∈ takeKeys g n) ∪ (if a ∈ S then {k} else ∅)
      else ∅ := by
  rw [adjOf, inner_adj_dGet hg n k task S hknotin]
  by_cases ha : a ∈ takeKeys g n
  · rw [if_pos ha, if_pos ha]
    rfl
  · rw [if_neg ha, if_neg ha]
    by_cases hak : a = k
    · rw [if_pos hak]
      rfl
    · rw [if_neg hak]
      rfl

theorem inner_revOf {g : TaskGraph} (hg : WellFormed g) (n : Nat) (k : String)
    (task : Task) (S : Finset String) (hknotin : k ∉ takeKeys g n) (a : String) :
    revOf (innerGraph g n k task S) a =
      if a ∈ takeKeys g n then revOf g a
      else if a = k then S else ∅ := by
  rw [revOf, inner_rev_dGet hg n k task S hknotin]
  by_cases ha : a ∈ takeKeys g n
  · rw [if_pos ha, if_pos ha]
    rfl
  · rw [if_neg ha, if_neg ha]
    by_cases hak : a = k
    · rw [if_pos hak, if_pos hak]
      rfl
    · rw [if_neg hak, if_neg hak]
      rfl

theorem mem_takeKeys_iff {g : TaskGraph} (hg : WellFormed g) {n : Nat} {a : String} :
    a ∈ takeKeys g n ↔ a ∈ keyList g ∧ keyIdx g a < n := by
  rw [takeKeys_eq]
  constructor
  · intro h
    exact ⟨List.take_subset _ _ h, indexOf_lt_of_mem_take hg.1 h⟩
  · intro h
    exact mem_take_of_indexOf_lt h.1 h.2

theorem keyList_mem_of_revOf {g : TaskGraph} (hg : WellFormed g) {a b : String}
    (hb : b ∈ revOf g a) : b ∈ keyList g := by
  have := revOf_subset_keySet hg a hb
  simpa [keySet, List.mem_toFinset] using this

theorem dep_in_takeKeys {g : TaskGraph} (hg : WellFormed g) (hdf : DepsFirst g)
    {a b : String} {n : Nat} (ha : a ∈ takeKeys g n) (hb : b ∈ revOf g a) :
    b ∈ takeKeys g n := by
  obtain ⟨hak, hai⟩ := (mem_takeKeys_iff hg).mp ha
  exact (mem_takeKeys_iff hg).mpr
    ⟨keyList_mem_of_revOf hg hb, lt_trans (hdf a hak b hb) hai⟩

theorem dep_of_top_in_takeKeys {g : TaskGraph} (hg : WellFormed g) (hdf : DepsFirst g)
    {k d : String} {n : Nat} (hkkey : k ∈ keyList g) (hidx : keyIdx g k = n)
    (hd : d ∈ revOf g k) : d ∈ takeKeys g n := by
  refine (mem_takeKeys_iff hg).mpr ⟨keyList_mem_of_revOf hg hd, ?_⟩
  have := hdf k hkkey d hd
  omega

theorem inner_keyList (g : TaskGraph) (n : Nat) (k : String) (task : Task)
    (S : Finset String) :
    keyList (innerGraph g n k task S) = takeKeys g n ++ [k] := by
  show dKeys (_ ++ _) = _
  rw [dKeys_append, dKeys_map_entry]
  rfl

theorem inner_rev_sub {g : TaskGraph} (hg : WellFormed g) {n : Nat} {k : String}
    {task : Task} {S : Finset String} (hknotin : k ∉ takeKeys g n)
    (hS : S ⊆ revOf g k) (a : String) :
    revOf (innerGraph g n k task S) a ⊆ revOf g a := by
  rw [inner_revOf hg n k task S hknotin]
  by_cases ha : a ∈ takeKeys g n
  · rw [if_pos ha]
  · rw [if_neg ha]
    by_cases hak : a = k
    · rw [if_pos hak, hak]
      exact hS
    · rw [if_neg hak]
      exact Finset.empty_subset _

theorem inner_mirror {g : TaskGraph} (hg : WellFormed g) (hdf : DepsFirst g)
    {n : Nat} {k : String} {task : Task} {S : Finset String}
    (hknotin : k ∉ takeKeys g n) (hidx : keyIdx g k = n)
    (hS : S ⊆ revOf g k) (a b : String) :
    b ∈ adjOf (innerGraph g n k task S) a ↔ a ∈ revOf (innerGraph g n k task S) b := by
  rw [inner_adjOf hg n k task S hknotin, inner_revOf hg n k task S hknotin]
  by_cases ha : a ∈ takeKeys g n
  · rw [if_pos ha]
    by_cases hb : b ∈ takeKeys g n
    · rw [if_pos hb]
      have hbk : b ≠ k := fun hh => hknotin (hh ▸ hb)
      simp only [Finset.mem_union, Finset.mem_filter]
      constructor
      · rintro (⟨h1, _⟩ | h2)
        · exact (mem_adjOf_iff_mem_revOf hg a b).mp h1
        · exfalso
          by_cases haS : a ∈ S
          · rw [if_pos haS] at h2
            exact hbk (Finset.mem_singleton.mp h2)
          · rw [if_neg haS] at h2
            exact Finset.not_mem_empty _ h2
      · intro h
        exact Or.inl ⟨(mem_adjOf_iff_mem_revOf hg a b).mpr h, hb⟩
    · rw [if_neg hb]
      by_cases hbk : b = k
      · subst hbk
        rw [if_pos rfl]
        simp only [Finset.mem_union, Finset.mem_filter]
        constructor
        · rintro (⟨_, hk2⟩ | h2)
          · exact absurd hk2 hknotin
          · by_cases haS : a ∈ S
            · exact haS
            · rw [if_neg haS] at h2
              exact absurd h2 (Finset.not_mem_empty _)
        · intro haS
          right
          rw [if_pos haS]
          exact Finset.mem_singleton_self _
      · rw [if_neg hbk]
        simp only [Finset.mem_union, Finset.mem_filter, Finset.not_mem_empty, iff_false]
        rintro (⟨_, h2⟩ | h2)
        · exact hb h2
        · by_cases haS : a ∈ S
          · rw [if_pos haS] at h2
            exact hbk (Finset.mem_singleton.mp h2)
          · rw [if_neg haS] at h2
            exact Finset.not_mem_empty _ h2
  · rw [if_neg ha]
    simp only [Finset.not_mem_empty, false_iff]
    by_cases hb : b ∈ takeKeys g n
    · rw [if_pos hb]
      intro hmem
      exact ha (dep_in_takeKeys hg hdf hb hmem)
    · rw [if_neg hb]
      by_cases hbk : b = k
      · subst hbk
        rw [if_pos rfl]
        intro haS
        have hkkey : b ∈ keyList g := by
          by_contra hk
          rw [revOf_empty_of_not_key hg hk] at hS
          exact Finset.not_mem_empty a (hS haS)
        exact ha (dep_of_top_in_takeKeys hg hdf hkkey hidx (hS haS))
      · rw [if_neg hbk]
        exact Finset.not_mem_empty a

theorem inner_wcc {g : TaskGraph} (hg : WellFormed g) (hdf : DepsFirst g)
    {n : Nat} {k d : String} {task : Task} {S : Finset String}
    (hknotin : k ∉ takeKeys g n) (hkkey : k ∈ keyList g) (hidx : keyIdx g k = n)
    (hS : S ⊆ revOf g k) (hd : d ∈ revOf g k) :
    would_create_cycle (innerGraph g n k task S) k d = false := by
  have hac : Acyclic g := acyclic_of_rank hg (keyIdx g) hdf
  have hkd : k ≠ d := by
    intro hh
    exact hac k (StepReach.single (hh ▸ hd))
  have hkeyI : k ∈ keyList (innerGraph g n k task S) := by
    rw [inner_keyList]
    exact List.mem_append_right _ (List.mem_singleton_self k)
  have hdkeyI : d ∈ keyList (innerGraph g n k task S) := by
    rw [inner_keyList]
    exact List.mem_append_left _ (dep_of_top_in_takeKeys hg hdf hkkey hidx hd)
  have hrevsub := @inner_rev_sub g hg n k task S hknotin hS
  simp only [would_create_cycle]
  rw [if_neg hkd]
  by_cases hc1 : d ∈ get_all_dependencies (innerGraph g n k task S) k
  · rw [if_pos hc1]
  · rw [if_neg hc1]
    have hc2 : k ∉ get_all_dependencies (innerGraph g n k task S) d := by
      intro hmem
      have hre := (mem_get_all_dependencies _ d hdkeyI k).mp hmem
      have hre' : StepReach (revOf g) d k := stepReach_mono hrevsub hre
      exact hac k ((StepReach.single hd).trans hre')
    rw [if_neg hc2]
    have hc3 : ¬ ∃ x ∈ get_all_dependents (innerGraph g n k task S) d,
        x ∈ get_all_dependencies (innerGraph g n k task S) k := by
      rintro ⟨x, hx1, hx2⟩
      have hadj := (mem_get_all_dependents _ d hdkeyI x).mp hx1
      have hxd : StepReach (revOf (innerGraph g n k task S)) x d :=
        stepReach_swap (inner_mirror hg hdf hknotin hidx hS) hadj
      have hkx := (mem_get_all_dependencies _ k hkeyI x).mp hx2
      exact hc1 ((mem_get_all_dependencies _ k hkeyI d).mpr (hkx.trans hxd))
    rw [if_neg hc3]

theorem add_dependency_success (g : TaskGraph) (t d : String)
    (h1 : t ≠ d) (h2 : t ∈ keyList g) (h3 : d ∈ keyList g)
    (h4 : would_create_cycle g t d = false) :
    add_dependency g t d =
      (update_task_blocked_status
        (modifyTask
          (modifyTask
            { g with
              adjacency_list := dAdjust g.adjacency_list d (insert t),
              reverse_adjacency := dAdjust g.reverse_adjacency t (insert d) }
            t (fun tk => tk.addDep d))
          d (fun tk => tk.addDept t)) t, Except.ok true) := by
  unfold add_dependency
  rw [if_neg h1, if_neg (not_not_intro h2), if_neg (not_not_intro h3),
    if_neg (by simp [h4])]

theorem takeKeys_nodup {g : TaskGraph} (hg : WellFormed g) (n : Nat) :
    (takeKeys g n).Nodup := by
  rw [takeKeys_eq]
  exact (List.take_sublist _ _).nodup hg.1

theorem inner_keys_nodup {g : TaskGraph} (hg : WellFormed g) {n : Nat} {k : String}
    (hknotin : k ∉ takeKeys g n) : (takeKeys g n ++ [k]).Nodup := by
  rw [List.nodup_append]
  refine ⟨takeKeys_nodup hg n, List.nodup_singleton k, ?_⟩
  intro a ha hb
  rw [List.mem_singleton] at hb
  exact hknotin (hb ▸ ha)

theorem inner_adj_keys {g : TaskGraph} (hg : WellFormed g) (n : Nat) (k : String)
    (task : Task) (S : Finset String) :
    dKeys (innerGraph g n k task S).adjacency_list = takeKeys g n ++ [k] := by
  show dKeys (_ ++ _) = _
  rw [dKeys_append, dKeys_map_entry, adj_take_keys hg]
  rfl

theorem inner_rev_keys {g : TaskGraph} (hg : WellFormed g) (n : Nat) (k : String)
    (task : Task) (S : Finset String) :
    dKeys (innerGraph g n k task S).reverse_adjacency = takeKeys g n ++ [k] := by
  show dKeys (_ ++ _) = _
  rw [dKeys_append, rev_take_keys hg]
  rfl

/-- One successful step of add_task's dependency replay for the task at
position `n`: adding the next dependency edge `(k, d)` moves the
intermediate state from `S` to `insert d S`; all four task records
involved are left unchanged (the sets are already complete on the
reconstructed records and the blocked-status pass is a no-op on a
status-consistent snapshot). -/
theorem add_dep_inner {g : TaskGraph} (hg : WellFormed g) (hdf : DepsFirst g)
    (hsc : StatusConsistent g) {n : Nat} {k d : String} {task : Task} {S : Finset String}
    (hknotin : k ∉ takeKeys g n) (hkkey : k ∈ keyList g) (hidx : keyIdx g k = n)
    (hktask : dGet g.tasks k = some task) (hS : S ⊆ revOf g k) (hd : d ∈ revOf g k) :
    add_dependency (innerGraph g n k task S) k d =
      (innerGraph g n k task (insert d S), Except.ok true) := by
  have hac : Acyclic g := acyclic_of_rank hg (keyIdx g) hdf
  have hkd : k ≠ d := fun hh => hac k (StepReach.single (hh ▸ hd))
  have hkmem : (k, task) ∈ g.tasks := mem_of_dGet hktask
  have hsync := hg.2.2.2.2.2.2 _ hkmem
  have hdeps : task.dependencies = revOf g k := hsync.2.1
  have hdtake : d ∈ takeKeys g n := dep_of_top_in_takeKeys hg hdf hkkey hidx hd
  have hkeyI : k ∈ keyList (innerGraph g n k task S) := by
    rw [inner_keyList]
    exact List.mem_append_right _ (List.mem_singleton_self k)
  have hdkeyI : d ∈ keyList (innerGraph g n k task S) := by
    rw [inner_keyList]
    exact List.mem_append_left _ hdtake
  have hwcc := @inner_wcc g hg hdf n k d task S hknotin hkkey hidx hS hd
  rw [add_dependency_success _ _ _ hkd hkeyI hdkeyI hwcc]
  have hndI : (dKeys (innerGraph g n k task S).tasks).Nodup := by
    have : dKeys (innerGraph g n k task S).tasks = takeKeys g n ++ [k] :=
      inner_keyList g n k task S
    rw [this]
    exact inner_keys_nodup hg hknotin
  have hgetIk : dGet (innerGraph g n k task S).tasks k = some (cacheBake task) := by
    rw [inner_tasks_dGet hg n k task S hknotin, if_neg hknotin, if_pos rfl]
  obtain ⟨taskd, hgetd⟩ : ∃ td, dGet g.tasks d = some td :=
    dGet_some_of_mem (keyList_mem_of_revOf hg hd)
  have hdmem : (d, taskd) ∈ g.tasks := mem_of_dGet hgetd
  have hsyncd := hg.2.2.2.2.2.2 _ hdmem
  have hgetId : dGet (innerGraph g n k task S).tasks d = some (cacheBake taskd) := by
    rw [inner_tasks_dGet hg n k task S hknotin, if_pos hdtake, hgetd]
    rfl
  have htasks1 : dAdjust (innerGraph g n k task S).tasks k (fun tk => tk.addDep d) =
      (innerGraph g n k task S).tasks := by
    apply dAdjust_eq_self
    intro v hv
    have hveq : v = cacheBake task := eq_of_mem_of_dGet hndI hv hgetIk
    subst hveq
    exact Task.addDep_eq_self (show d ∈ task.dependencies from hdeps ▸ hd)
  have htasks2 : dAdjust (innerGraph g n k task S).tasks d (fun tk => tk.addDept k) =
      (innerGraph g n k task S).tasks := by
    apply dAdjust_eq_self
    intro v hv
    have hveq : v = cacheBake taskd := eq_of_mem_of_dGet hndI hv hgetId
    subst hveq
    exact Task.addDept_eq_self (show k ∈ taskd.dependents from by
      rw [hsyncd.2.2]
      exact (mem_adjOf_iff_mem_revOf hg d k).mpr hd)
  have hadj : dAdjust (innerGraph g n k task S).adjacency_list d (insert k) =
      (innerGraph g n k task (insert d S)).adjacency_list := by
    apply dict_ext
    · rw [dKeys_dAdjust, inner_adj_keys hg]
      exact inner_keys_nodup hg hknotin
    · rw [dKeys_dAdjust, inner_adj_keys hg, inner_adj_keys hg]
    · intro a
      rw [dGet_dAdjust]
      by_cases hda : d = a
      · subst hda
        rw [if_pos rfl, inner_adj_dGet hg n k task S hknotin, if_pos hdtake,
          inner_adj_dGet hg n k task _ hknotin, if_pos hdtake]
        simp only [Option.map]
        congr 1
        rw [if_pos (Finset.mem_insert_self d S)]
        by_cases hdS : d ∈ S
        · rw [if_pos hdS]
          exact Finset.insert_eq_self.mpr
            (Finset.mem_union_right _ (Finset.mem_singleton_self k))
        · rw [if_neg hdS, Finset.union_empty, Finset.insert_eq, Finset.union_comm]
      · rw [if_neg hda, inner_adj_dGet hg n k task S hknotin,
          inner_adj_dGet hg n k task _ hknotin]
        by_cases ha : a ∈ takeKeys g n
        · rw [if_pos ha, if_pos ha]
          by_cases haS : a ∈ S
          · rw [if_pos haS, if_pos (Finset.mem_insert_of_mem haS)]
          · rw [if_neg haS, if_neg (fun hh => by
              rcases Finset.mem_insert.mp hh with h1 | h2
              · exact hda h1.symm
              · exact haS h2)]
        · rw [if_neg ha, if_neg ha]
  have hrev : dAdjust (innerGraph g n k task S).reverse_adjacency k (insert d) =
      (innerGraph g n k task (insert d S)).reverse_adjacency := by
    apply dict_ext
    · rw [dKeys_dAdjust, inner_rev_keys hg]
      exact inner_keys_nodup hg hknotin
    · rw [dKeys_dAdjust, inner_rev_keys hg, inner_rev_keys hg]
    · intro a
      rw [dGet_dAdjust]
      by_cases hka : k = a
      · subst hka
        rw [if_pos rfl, inner_rev_dGet hg n k task S hknotin, if_neg hknotin,
          if_pos rfl, inner_rev_dGet hg n k task _ hknotin, if_neg hknotin, if_pos rfl]
        simp only [Option.map]
      · rw [if_neg hka, inner_rev_dGet hg n k task S hknotin,
          inner_rev_dGet hg n k task _ hknotin]
        by_cases ha : a ∈ takeKeys g n
        · rw [if_pos ha, if_pos ha]
        · have hak : ¬ a = k := fun hh => hka hh.symm
          rw [if_neg ha, if_neg ha, if_neg hak, if_neg hak]
  have hM : modifyTask (modifyTask { innerGraph g n k task S with
      adjacency_list := dAdjust (innerGraph g n k task S).adjacency_list d (insert k),
      reverse_adjacency := dAdjust (innerGraph g n k task S).reverse_adjacency k
        (insert d) } k (fun tk => tk.addDep d)) d (fun tk => tk.addDept k) =
      innerGraph g n k task (insert d S) := by
    unfold modifyTask
    show TaskGraph.mk _ _ _ = _
    rw [htasks1, htasks2, hadj, hrev]
    rfl
  rw [hM]
  have hnoop : update_task_blocked_status (innerGraph g n k task (insert d S)) k =
      innerGraph g n k task (insert d S) := by
    apply update_tbs_noop _ _ (cacheBake task)
    · have : dKeys (innerGraph g n k task (insert d S)).tasks = takeKeys g n ++ [k] :=
        inner_keyList g n k task _
      rw [this]
      exact inner_keys_nodup hg hknotin
    · rw [inner_tasks_dGet hg n k task _ hknotin, if_neg hknotin, if_pos rfl]
    · intro hterm
      have htrans : ∀ dep ∈ task.dependencies,
          depBlocks (innerGraph g n k task (insert d S)) dep = depBlocks g dep := by
        intro dep hdep
        have hdepidx : dep ∈ takeKeys g n :=
          dep_of_top_in_takeKeys hg hdf hkkey hidx (hdeps ▸ hdep)
        apply depBlocks_eq_of_status_eq
        rw [inner_tasks_dGet hg n k task _ hknotin, if_pos hdepidx]
        cases dGet g.tasks dep <;> rfl
      have hscK := hsc _ hkmem hterm
      constructor
      · rintro ⟨dep, hdep, hb⟩
        exact hscK.mp ⟨dep, hdep, (htrans dep hdep) ▸ hb⟩
      · intro hb
        obtain ⟨dep, hdep, hgb⟩ := hscK.mpr hb
        exact ⟨dep, hdep, (htrans dep hdep).symm ▸ hgb⟩
  rw [hnoop]

theorem foldl_insert_toFinset (l : List String) (S : Finset String) :
    l.foldl (fun s d => insert d s) S = S ∪ l.toFinset := by
  induction l generalizing S with
  | nil => simp
  | cons d rest ih =>
    rw [List.foldl_cons, ih]
    ext x
    simp only [Finset.mem_union, Finset.mem_insert, List.toFinset_cons, List.mem_toFinset]
    tauto

/-- The whole dependency replay of add_task for the task at position
`n`: replaying any remaining dependencies of `k` from the intermediate
state `S` succeeds and accumulates them into the state. -/
theorem replay_inner {g : TaskGraph} (hg : WellFormed g) (hdf : DepsFirst g)
    (hsc : StatusConsistent g) {n : Nat} {k : String} {task : Task}
    (hknotin : k ∉ takeKeys g n) (hkkey : k ∈ keyList g) (hidx : keyIdx g k = n)
    (hktask : dGet g.tasks k = some task) :
    ∀ (rem : List String) (S : Finset String), S ⊆ revOf g k →
      (∀ d ∈ rem, d ∈ revOf g k) →
      replayDeps k (innerGraph g n k task S) rem =
        (innerGraph g n k task (rem.foldl (fun s d => insert d s) S), Except.ok ()) := by
  intro rem
  induction rem with
  | nil =>
    intro S _ _
    rfl
  | cons d rest ih =>
    intro S hS hrem
    have hd : d ∈ revOf g k := hrem d (List.mem_cons_self _ _)
    show (match add_dependency (innerGraph g n k task S) k d with
      | (g1, .ok _) => replayDeps k g1 rest
      | (g1, .error e) => (g1, .error e)) = _
    rw [add_dep_inner hg hdf hsc hknotin hkkey hidx hktask hS hd]
    exact ih (insert d S) (Finset.insert_subset hd hS)
      (fun x hx => hrem x (List.mem_cons_of_mem _ hx))

theorem phase1_keyList (g : TaskGraph) (n : Nat) :
    keyList (phase1Graph g n) = takeKeys g n := dKeys_map_entry _ _

theorem phase1_tasks_dGet {g : TaskGraph} (hg : WellFormed g) (n : Nat) (a : String) :
    dGet (phase1Graph g n).tasks a =
      if a ∈ takeKeys g n then (dGet g.tasks a).map cacheBake else none := by
  show dGet ((g.tasks.take n).map _) a = _
  rw [dGet_map_entry (g.tasks.take n) (fun p => cacheBake p.2) a]
  by_cases ha : a ∈ takeKeys g n
  · rw [if_pos ha, dGet_take_of_mem ha]
  · rw [if_neg ha]
    have : dGet (g.tasks.take n) a = none := by
      rw [dGet_eq_none]
      exact ha
    rw [this]
    rfl

theorem phase1_adj_dGet {g : TaskGraph} (hg : WellFormed g) (n : Nat) (a : String) :
    dGet (phase1Graph g n).adjacency_list a =
      if a ∈ takeKeys g n then
        some ((adjOf g a).filter (fun b => b ∈ takeKeys g n)) else none := by
  show dGet ((g.adjacency_list.take n).map _) a = _
  rw [dGet_map_entry (g.adjacency_list.take n)
    (fun p => p.2.filter (fun b => b ∈ takeKeys g n)) a]
  by_cases ha : a ∈ takeKeys g n
  · rw [if_pos ha]
    have hmem : a ∈ dKeys (g.adjacency_list.take n) := by
      rw [adj_take_keys hg]
      exact ha
    rw [dGet_take_of_mem hmem]
    have hmemfull : a ∈ dKeys g.adjacency_list := by
      rw [hg.2.1]
      exact List.take_subset _ _ ((takeKeys_eq g n) ▸ ha)
    obtain ⟨row, hrow⟩ := dGet_some_of_mem hmemfull
    rw [hrow]
    have hrowadj : adjOf g a = row := by rw [adjOf, hrow]; rfl
    rw [hrowadj]
    rfl
  · rw [if_neg ha]
    have : dGet (g.adjacency_list.take n) a = none := by
      rw [dGet_eq_none, adj_take_keys hg]
      exact ha
    rw [this]
    rfl

theorem phase1_rev_dGet {g : TaskGraph} (hg : WellFormed g) (n : Nat) (a : String) :
    dGet (phase1Graph g n).reverse_adjacency a =
      if a ∈ takeKeys g n then some (revOf g a) else none := by
  show dGet (g.reverse_adjacency.take n) a = _
  by_cases ha : a ∈ takeKeys g n
  · rw [if_pos ha]
    have hmem : a ∈ dKeys (g.reverse_adjacency.take n) := by
      rw [rev_take_keys hg]
      exact ha
    rw [dGet_take_of_mem hmem]
    have hmemfull : a ∈ dKeys g.reverse_adjacency := by
      rw [hg.2.2.1]
      exact List.take_subset _ _ ((takeKeys_eq g n) ▸ ha)
    obtain ⟨row, hrow⟩ := dGet_some_of_mem hmemfull
    rw [hrow]
    have hrowrev : revOf g a = row := by rw [revOf, hrow]; rfl
    rw [hrowrev]
  · rw [if_neg ha, dGet_eq_none, rev_take_keys hg]
    exact ha

theorem TaskGraph.eq_of_parts {g1 g2 : TaskGraph} (h1 : g1.tasks = g2.tasks)
    (h2 : g1.adjacency_list = g2.adjacency_list)
    (h3 : g1.reverse_adjacency = g2.reverse_adjacency) : g1 = g2 := by
  cases g1
  cases g2
  cases h1
  cases h2
  cases h3
  rfl

theorem phase1_adj_keys {g : TaskGraph} (hg : WellFormed g) (n : Nat) :
    dKeys (phase1Graph g n).adjacency_list = takeKeys g n := by
  show dKeys ((g.adjacency_list.take n).map _) = _
  rw [dKeys_map_entry, adj_take_keys hg]

theorem phase1_rev_keys {g : TaskGraph} (hg : WellFormed g) (n : Nat) :
    dKeys (phase1Graph g n).reverse_adjacency = takeKeys g n :=
  rev_take_keys hg n

theorem phase1_succ_tasks {g : TaskGraph} {n : Nat} (hn : n < g.tasks.length)
    {k : String} {task : Task} (hkt : g.tasks[n] = (k, task)) :
    g.tasks.take (n + 1) = g.tasks.take n ++ [(k, task)] := by
  rw [List.take_succ, List.getElem?_eq_getElem hn, hkt]
  rfl

theorem takeKeys_succ {g : TaskGraph} {n : Nat} (hn : n < g.tasks.length)
    {k : String} {task : Task} (hkt : g.tasks[n] = (k, task)) :
    takeKeys g (n + 1) = takeKeys g n ++ [k] := by
  unfold takeKeys
  rw [phase1_succ_tasks hn hkt, dKeys_append]
  rfl

/-- After the last dependency of the task at position `n` has been
replayed, the intermediate state is exactly the phase-1 state for the
first `n + 1` tasks. -/
theorem inner_full_eq_phase1_succ {g : TaskGraph} (hg : WellFormed g) (hdf : DepsFirst g)
    {n : Nat} (hn : n < g.tasks.length) {k : String} {task : Task}
    (hkt : g.tasks[n] = (k, task)) (hknotin : k ∉ takeKeys g n)
    (hidx : keyIdx g k = n) :
    innerGraph g n k task (revOf g k) = phase1Graph g (n + 1) := by
  have hK : takeKeys g (n + 1) = takeKeys g n ++ [k] := takeKeys_succ hn hkt
  apply TaskGraph.eq_of_parts
  · show _ = (g.tasks.take (n + 1)).map _
    rw [phase1_succ_tasks hn hkt, List.map_append]
    rfl
  · apply dict_ext
    · rw [inner_adj_keys hg]
      exact inner_keys_nodup hg hknotin
    · rw [inner_adj_keys hg, phase1_adj_keys hg, hK]
    · intro a
      rw [inner_adj_dGet hg n k task _ hknotin, phase1_adj_dGet hg (n + 1) a]
      by_cases ha : a ∈ takeKeys g n
      · have ha1 : a ∈ takeKeys g (n + 1) := by
          rw [hK]
          exact List.mem_append_left _ ha
        rw [if_pos ha, if_pos ha1]
        congr 1
        ext x
        simp only [Finset.mem_union, Finset.mem_filter]
        constructor
        · rintro (⟨hx1, hx2⟩ | hx)
          · exact ⟨hx1, by rw [hK]; exact List.mem_append_left _ hx2⟩
          · by_cases har : a ∈ revOf g k
            · rw [if_pos har] at hx
              have hxk : x = k := Finset.mem_singleton.mp hx
              subst hxk
              exact ⟨(mem_adjOf_iff_mem_revOf hg a x).mpr har,
                by rw [hK]; exact List.mem_append_right _ (List.mem_singleton_self _)⟩
            · rw [if_neg har] at hx
              exact absurd hx (Finset.not_mem_empty _)
        · rintro ⟨hx1, hx2⟩
          rw [hK] at hx2
          rcases List.mem_append.mp hx2 with h1 | h2
          · exact Or.inl ⟨hx1, h1⟩
          · have hxk : x = k := List.mem_singleton.mp h2
            subst hxk
            right
            rw [if_pos ((mem_adjOf_iff_mem_revOf hg a x).mp hx1)]
            exact Finset.mem_singleton_self _
      · by_cases hak : a = k
        · have ha1 : a ∈ takeKeys g (n + 1) := by
            rw [hK, hak]
            exact List.mem_append_right _ (List.mem_singleton_self _)
          rw [if_neg ha, if_pos hak, if_pos ha1]
          refine congrArg some ?_
          refine Eq.symm (Finset.filter_eq_empty_iff.mpr ?_)
          intro x hx
          intro hmem
          have hkrev : k ∈ revOf g x := by
            rw [hak] at hx
            exact (mem_adjOf_iff_mem_revOf hg k x).mp hx
          have hxkey : x ∈ keyList g := (key_of_revOf_ne hg hkrev).1
          have hlt := hdf x hxkey k hkrev
          rw [hK] at hmem
          rcases List.mem_append.mp hmem with h1 | h2
          · have hx2 := (mem_takeKeys_iff hg).mp h1
            omega
          · have hxk : x = k := List.mem_singleton.mp h2
            rw [hxk] at hlt
            omega
        · have ha1 : a ∉ takeKeys g (n + 1) := by
            rw [hK]
            intro hmem
            rcases List.mem_append.mp hmem with h1 | h2
            · exact ha h1
            · exact hak (List.mem_singleton.mp h2)
          rw [if_neg ha, if_neg hak, if_neg ha1]
  · apply dict_ext
    · rw [inner_rev_keys hg]
      exact inner_keys_nodup hg hknotin
    · rw [inner_rev_keys hg, phase1_rev_keys hg, hK]
    · intro a
      rw [inner_rev_dGet hg n k task _ hknotin, phase1_rev_dGet hg (n + 1) a]
      by_cases ha : a ∈ takeKeys g n
      · rw [if_pos ha, if_pos (by rw [hK]; exact List.mem_append_left _ ha)]
      · rw [if_neg ha]
        by_cases hak : a = k
        · rw [if_pos hak,
            if_pos (show a ∈ takeKeys g (n + 1) by
              rw [hK, hak]
              exact List.mem_append_right _ (List.mem_singleton_self _)), hak]
        · rw [if_neg hak,
            if_neg (show a ∉ takeKeys g (n + 1) by
              rw [hK]
              intro hmem
              rcases List.mem_append.mp hmem with h1 | h2
              · exact ha h1
              · exact hak (List.mem_singleton.mp h2))]

/-- One phase-1 step: adding the reconstructed task at position `n` to
the phase-1 state for the first `n` tasks succeeds (its dependencies all
exist already) and yields the phase-1 state for the first `n + 1`
tasks. -/
theorem add_task_step {g : TaskGraph} (hg : WellFormed g) (hdf : DepsFirst g)
    (hsc : StatusConsistent g) {n : Nat} (hn : n < g.tasks.length)
    {k : String} {task : Task} (hkt : g.tasks[n] = (k, task)) :
    add_task (phase1Graph g n) (cacheBake task) =
      (phase1Graph g (n + 1), Except.ok ()) := by
  have hkmem : (k, task) ∈ g.tasks := hkt ▸ List.getElem_mem hn
  have hktask : dGet g.tasks k = some task := dGet_of_mem_nodup hg.1 hkmem
  have hsync := hg.2.2.2.2.2.2 _ hkmem
  have hid : task.id = k := hsync.1
  have hdeps : task.dependencies = revOf g k := hsync.2.1
  have hklen : n < (keyList g).length := by
    show n < (List.map Prod.fst g.tasks).length
    rw [List.length_map]
    exact hn
  have hkn : (keyList g)[n] = k := by
    show (List.map Prod.fst g.tasks)[n] = k
    rw [List.getElem_map, hkt]
  have hidx : keyIdx g k = n := by
    unfold keyIdx
    rw [← hkn]
    exact nodup_indexOf_getElem hg.1 n hklen
  have hkkey : k ∈ keyList g := by
    rw [← hkn]
    exact List.getElem_mem hklen
  have hknotin : k ∉ takeKeys g n := by
    rw [takeKeys_eq]
    intro hmem
    have h1 : (keyList g).indexOf k < n := indexOf_lt_of_mem_take hg.1 hmem
    have h2 : (keyList g).indexOf k = n := hidx
    omega
  have hidc : (cacheBake task).id = k := hid
  have hdepsc : (cacheBake task).dependencies = revOf g k := hdeps
  unfold add_task
  rw [hidc, phase1_keyList, if_neg hknotin, hdepsc]
  dsimp only
  have hg1 : TaskGraph.mk (dPut (phase1Graph g n).tasks k (cacheBake task))
      (dPut (phase1Graph g n).adjacency_list k ∅)
      (dPut (phase1Graph g n).reverse_adjacency k ∅) = innerGraph g n k task ∅ := by
    rw [dPut_not_mem _ _ _ (by rw [show dKeys (phase1Graph g n).tasks = takeKeys g n from
          phase1_keyList g n]; exact hknotin),
      dPut_not_mem _ _ _ (by rw [phase1_adj_keys hg]; exact hknotin),
      dPut_not_mem _ _ _ (by rw [phase1_rev_keys hg]; exact hknotin)]
    apply TaskGraph.eq_of_parts
    · rfl
    · apply dict_ext
      · rw [dKeys_append, phase1_adj_keys hg]
        exact inner_keys_nodup hg hknotin
      · rw [dKeys_append, phase1_adj_keys hg, inner_adj_keys hg]
        rfl
      · intro a
        rw [dGet_append, phase1_adj_keys hg, inner_adj_dGet hg n k task _ hknotin]
        by_cases ha : a ∈ takeKeys g n
        · rw [if_pos ha, if_pos ha, phase1_adj_dGet hg n a, if_pos ha]
          refine congrArg some ?_
          rw [if_neg (Finset.not_mem_empty a), Finset.union_empty]
        · rw [if_neg ha, if_neg ha]
          by_cases hak : a = k
          · subst hak
            rw [dGet, if_pos rfl, if_pos rfl]
          · rw [dGet, if_neg (fun hh => hak hh.symm), if_neg hak]
            rfl
    · rfl
  rw [hg1, replay_inner hg hdf hsc hknotin hkkey hidx hktask (setToList (revOf g k)) ∅
    (Finset.empty_subset _) (fun d hd => mem_setToList.mp hd),
    foldl_insert_toFinset, setToList_toFinset, Finset.empty_union,
    inner_full_eq_phase1_succ hg hdf hn hkt hknotin hidx]

/-- Phase 1 of from_dict on a serialized deps-first graph: the first `n`
iterations reach the phase-1 state, never raising. -/
theorem phase1_fold {g : TaskGraph} (hg : WellFormed g) (hdf : DepsFirst g)
    (hsc : StatusConsistent g) :
    ∀ n, n ≤ g.tasks.length →
      ((TaskGraph.to_dict g).tasks.take n).foldl
        (fun st p =>
          match st.2 with
          | .error _ => st
          | .ok _ => add_task st.1 (Task.from_dict p.2))
        (TaskGraph.empty, Except.ok ()) = (phase1Graph g n, Except.ok ()) := by
  intro n
  induction n with
  | zero =>
    intro _
    rfl
  | succ m ih =>
    intro hm
    have hmlt : m < g.tasks.length := by omega
    have hlen : m < (TaskGraph.to_dict g).tasks.length := by
      show m < (g.tasks.map _).length
      rw [List.length_map]
      exact hmlt
    have hentry : (TaskGraph.to_dict g).tasks[m] =
        ((g.tasks[m]).1, (g.tasks[m]).2.to_dict) := by
      show (g.tasks.map (fun p => (p.1, p.2.to_dict)))[m] = _
      rw [List.getElem_map]
    rw [List.take_succ, List.getElem?_eq_getElem hlen, hentry]
    rw [show (some ((g.tasks[m]).1, (g.tasks[m]).2.to_dict)).toList =
      [((g.tasks[m]).1, (g.tasks[m]).2.to_dict)] from rfl]
    rw [List.foldl_append, ih (by omega), List.foldl_cons, List.foldl_nil]
    show add_task (phase1Graph g m) (Task.from_dict (g.tasks[m]).2.to_dict) = _
    rw [from_to_task]
    exact add_task_step hg hdf hsc hmlt rfl

theorem takeKeys_full (g : TaskGraph) : takeKeys g g.tasks.length = keyList g := by
  unfold takeKeys
  rw [List.take_length]
  rfl

theorem full_keyList {g : TaskGraph} :
    keyList (phase1Graph g g.tasks.length) = keyList g := by
  rw [phase1_keyList, takeKeys_full]

theorem full_tasks_dGet {g : TaskGraph} (hg : WellFormed g) (a : String) :
    dGet (phase1Graph g g.tasks.length).tasks a = (dGet g.tasks a).map cacheBake := by
  rw [phase1_tasks_dGet hg, takeKeys_full]
  by_cases ha : a ∈ keyList g
  · rw [if_pos ha]
  · rw [if_neg ha]
    have h0 : dGet g.tasks a = none := by
      rw [dGet_eq_none]
      exact ha
    rw [h0]
    rfl

theorem full_adjOf {g : TaskGraph} (hg : WellFormed g) (a : String) :
    adjOf (phase1Graph g g.tasks.length) a = adjOf g a := by
  rw [adjOf, phase1_adj_dGet hg, takeKeys_full]
  by_cases ha : a ∈ keyList g
  · rw [if_pos ha]
    show (adjOf g a).filter _ = adjOf g a
    apply Finset.filter_true_of_mem
    intro x hx
    have := adjOf_subset_keySet hg a hx
    simpa [keySet, List.mem_toFinset] using this
  · rw [if_neg ha]
    rw [adjOf_empty_of_not_key hg ha]
    rfl

theorem full_revOf {g : TaskGraph} (hg : WellFormed g) (a : String) :
    revOf (phase1Graph g g.tasks.length) a = revOf g a := by
  rw [revOf, phase1_rev_dGet hg, takeKeys_full]
  by_cases ha : a ∈ keyList g
  · rw [if_pos ha]
    rfl
  · rw [if_neg ha]
    rw [revOf_empty_of_not_key hg ha]
    rfl

theorem full_tasks_eq {g : TaskGraph} :
    (phase1Graph g g.tasks.length).tasks =
      g.tasks.map (fun p => (p.1, cacheBake p.2)) := by
  show (g.tasks.take g.tasks.length).map _ = _
  rw [List.take_length]

theorem full_WF {g : TaskGraph} (hg : WellFormed g) :
    WellFormed (phase1Graph g g.tasks.length) := by
  have hkeyset : keySet (phase1Graph g g.tasks.length) = keySet g := by
    unfold keySet
    rw [full_keyList]
  refine ⟨?_, ?_, ?_, ?_, ?_, ?_, ?_⟩
  · show (dKeys (phase1Graph g g.tasks.length).tasks).Nodup
    have h1 : dKeys (phase1Graph g g.tasks.length).tasks = keyList g := full_keyList
    rw [h1]
    exact hg.1
  · rw [phase1_adj_keys hg]
    show takeKeys g g.tasks.length = keyList (phase1Graph g g.tasks.length)
    rw [takeKeys_full, full_keyList]
  · rw [phase1_rev_keys hg]
    show takeKeys g g.tasks.length = keyList (phase1Graph g g.tasks.length)
    rw [takeKeys_full, full_keyList]
  · intro p hp
    obtain ⟨q, hq, hpq⟩ := List.mem_map.mp hp
    have hsub := hg.2.2.2.1 q (List.take_subset _ _ hq)
    rw [← hpq, hkeyset]
    exact (Finset.filter_subset _ _).trans hsub
  · intro p hp
    have hsub := hg.2.2.2.2.1 p (List.take_subset _ _ hp)
    rw [hkeyset]
    exact hsub
  · intro a ha b hb
    rw [full_adjOf hg, full_revOf hg]
    rw [full_keyList] at ha hb
    exact hg.2.2.2.2.2.1 a ha b hb
  · intro p hp
    rw [full_tasks_eq] at hp
    obtain ⟨q, hq, hpq⟩ := List.mem_map.mp hp
    have hsync := hg.2.2.2.2.2.2 q hq
    rw [← hpq]
    refine ⟨hsync.1, ?_, ?_⟩
    · show q.2.dependencies = _
      rw [full_revOf hg]
      exact hsync.2.1
    · show q.2.dependents = _
      rw [full_adjOf hg]
      exact hsync.2.2

theorem full_SC {g : TaskGraph} (hg : WellFormed g) (hsc : StatusConsistent g) :
    StatusConsistent (phase1Graph g g.tasks.length) := by
  intro p hp hterm
  rw [full_tasks_eq] at hp
  obtain ⟨q, hq, hpq⟩ := List.mem_map.mp hp
  have htrans : ∀ dep, depBlocks (phase1Graph g g.tasks.length) dep = depBlocks g dep := by
    intro dep
    apply depBlocks_eq_of_status_eq
    rw [full_tasks_dGet hg]
    cases dGet g.tasks dep <;> rfl
  have hscq := hsc q hq (by rw [← hpq] at hterm; exact hterm)
  rw [← hpq]
  show (∃ dep ∈ q.2.dependencies, depBlocks _ dep = true) ↔ q.2.status = _
  constructor
  · rintro ⟨dep, hdep, hb⟩
    exact hscq.mp ⟨dep, hdep, (htrans dep) ▸ hb⟩
  · intro hb
    obtain ⟨dep, hdep, hgb⟩ := hscq.mpr hb
    exact ⟨dep, hdep, (htrans dep).symm ▸ hgb⟩

theorem full_acyclic {g : TaskGraph} (hg : WellFormed g) (hdf : DepsFirst g) :
    Acyclic (phase1Graph g g.tasks.length) := by
  have hac : Acyclic g := acyclic_of_rank hg (keyIdx g) hdf
  intro x hx
  apply hac x
  refine stepReach_mono ?_ hx
  intro a
  rw [full_revOf hg]

/-- Re-adding an existing dependency edge leaves the graph unchanged:
the cycle guard short-circuits on the first closure test, every set
insertion is absorbed, and the status pass is a no-op on a consistent
snapshot. -/
theorem add_dep_noop {G : TaskGraph} (hG : WellFormed G) (hsc2 : StatusConsistent G)
    (hac : Acyclic G) {t d : String} (hd : d ∈ revOf G t) :
    (add_dependency G t d).1 = G := by
  have htd : t ≠ d := fun hh => hac d (StepReach.single (hh ▸ hd))
  have hkeys := key_of_revOf_ne hG hd
  have hwcc : would_create_cycle G t d = false := by
    simp only [would_create_cycle]
    rw [if_neg htd,
      if_pos ((mem_get_all_dependencies G t hkeys.1 d).mpr (StepReach.single hd))]
  rw [add_dependency_success G t d htd hkeys.1 hkeys.2 hwcc]
  obtain ⟨taskt, hgett⟩ := dGet_some_of_mem (show t ∈ dKeys G.tasks from hkeys.1)
  obtain ⟨taskd2, hgetd2⟩ := dGet_some_of_mem (show d ∈ dKeys G.tasks from hkeys.2)
  have hsynct := hG.2.2.2.2.2.2 _ (mem_of_dGet hgett)
  have hsyncd := hG.2.2.2.2.2.2 _ (mem_of_dGet hgetd2)
  have hadjnod : (dKeys G.adjacency_list).Nodup := by
    rw [hG.2.1]
    exact hG.1
  have hrevnod : (dKeys G.reverse_adjacency).Nodup := by
    rw [hG.2.2.1]
    exact hG.1
  have hadjrow : dGet G.adjacency_list d = some (adjOf G d) := by
    obtain ⟨row, hrow⟩ := dGet_some_of_mem
      (show d ∈ dKeys G.adjacency_list by rw [hG.2.1]; exact hkeys.2)
    rw [hrow]
    refine congrArg some ?_
    rw [adjOf, hrow]
    rfl
  have hrevrow : dGet G.reverse_adjacency t = some (revOf G t) := by
    obtain ⟨row, hrow⟩ := dGet_some_of_mem
      (show t ∈ dKeys G.reverse_adjacency by rw [hG.2.2.1]; exact hkeys.1)
    rw [hrow]
    refine congrArg some ?_
    rw [revOf, hrow]
    rfl
  have hadj1 : dAdjust G.adjacency_list d (insert t) = G.adjacency_list := by
    apply dAdjust_eq_self
    intro v hv
    have hva : v = adjOf G d := eq_of_mem_of_dGet hadjnod hv hadjrow
    rw [hva]
    exact Finset.insert_eq_self.mpr ((mem_adjOf_iff_mem_revOf hG d t).mpr hd)
  have hrev1 : dAdjust G.reverse_adjacency t (insert d) = G.reverse_adjacency := by
    apply dAdjust_eq_self
    intro v hv
    have hva : v = revOf G t := eq_of_mem_of_dGet hrevnod hv hrevrow
    rw [hva]
    exact Finset.insert_eq_self.mpr hd
  have hGmk : { G with
      adjacency_list := dAdjust G.adjacency_list d (insert t),
      reverse_adjacency := dAdjust G.reverse_adjacency t (insert d) } = G := by
    apply TaskGraph.eq_of_parts
    · rfl
    · exact hadj1
    · exact hrev1
  show update_task_blocked_status _ t = G
  rw [hGmk]
  have hm1 : modifyTask G t (fun tk => tk.addDep d) = G := by
    unfold modifyTask
    apply TaskGraph.eq_of_parts
    · show dAdjust G.tasks t _ = G.tasks
      apply dAdjust_eq_self
      intro v hv
      have hva : v = taskt := eq_of_mem_of_dGet hG.1 hv hgett
      rw [hva]
      exact Task.addDep_eq_self (show d ∈ taskt.dependencies from hsynct.2.1 ▸ hd)
    · rfl
    · rfl
  rw [hm1]
  have hm2 : modifyTask G d (fun tk => tk.addDept t) = G := by
    unfold modifyTask
    apply TaskGraph.eq_of_parts
    · show dAdjust G.tasks d _ = G.tasks
      apply dAdjust_eq_self
      intro v hv
      have hva : v = taskd2 := eq_of_mem_of_dGet hG.1 hv hgetd2
      rw [hva]
      exact Task.addDept_eq_self (show t ∈ taskd2.dependents from by
        rw [hsyncd.2.2]
        exact (mem_adjOf_iff_mem_revOf hG d t).mpr hd)
    · rfl
    · rfl
  rw [hm2]
  exact update_tbs_noop G t taskt hG.1 hgett
    (fun hterm => hsc2 _ (mem_of_dGet hgett) hterm)

/-- Phase 2 of from_dict replays only edges that already exist, so it is
the identity. -/
theorem phase2_noop {G : TaskGraph} (hG : WellFormed G) (hsc2 : StatusConsistent G)
    (hac : Acyclic G) :
    ∀ (rows : List (String × List String)),
      (∀ p ∈ rows, ∀ d ∈ p.2, d ∈ revOf G p.1) →
      rows.foldl (fun gacc p =>
        p.2.foldl (fun g2 dep => (add_dependency g2 p.1 dep).1) gacc) G = G := by
  intro rows
  induction rows with
  | nil =>
    intro _
    rfl
  | cons p rest ih =>
    intro h
    rw [List.foldl_cons]
    have hinner : ∀ (l : List String), (∀ d ∈ l, d ∈ revOf G p.1) →
        l.foldl (fun g2 dep => (add_dependency g2 p.1 dep).1) G = G := by
      intro l
      induction l with
      | nil =>
        intro _
        rfl
      | cons d ds ih2 =>
        intro hl
        rw [List.foldl_cons, add_dep_noop hG hsc2 hac (hl d (List.mem_cons_self _ _)),
          ih2 (fun x hx => hl x (List.mem_cons_of_mem _ hx))]
    rw [hinner p.2 (h p (List.mem_cons_self _ _))]
    exact ih (fun q hq => h q (List.mem_cons_of_mem _ hq))

/-- The serialized dependency rows only mention existing edges. -/
theorem to_dict_rows {g : TaskGraph} (hg : WellFormed g) :
    ∀ p ∈ (TaskGraph.to_dict g).dependencies, ∀ d ∈ p.2, d ∈ revOf g p.1 := by
  intro p hp d hd
  obtain ⟨q, hq, hpq⟩ := List.mem_map.mp hp
  have hqmem : q ∈ g.reverse_adjacency := List.mem_of_mem_filter hq
  have h1 : q.1 = p.1 := by rw [← hpq]
  have h2 : setToList q.2 = p.2 := by rw [← hpq]
  rw [← h2] at hd
  have hd2 : d ∈ q.2 := mem_setToList.mp hd
  have hnod : (dKeys g.reverse_adjacency).Nodup := by
    rw [hg.2.2.1]
    exact hg.1
  have hget : dGet g.reverse_adjacency q.1 = some q.2 := by
    have : (q.1, q.2) ∈ g.reverse_adjacency := hqmem
    exact dGet_of_mem_nodup hnod this
  have hrow : revOf g q.1 = q.2 := by
    rw [revOf, hget]
    rfl
  rw [← h1, hrow]
  exact hd2

/-- Claim C5 (amended): when every dependency precedes its dependent in
the tasks-dict insertion order and every status already satisfies the
blocked-status rule, from_dict(to_dict(g)) completes without raising and
reproduces the graph: the same task ids in the same order, every Task
record preserved except that the effective-priority property value is
baked into the cache, and both adjacency maps reproduced exactly (hence
all scalar fields, dependency edges and dependent sets survive the
round trip). -/
theorem roundtrip_preserves (g : TaskGraph) (hg : WellFormed g) (hdf : DepsFirst g)
    (hsc : StatusConsistent g) :
    (TaskGraph.from_dict (TaskGraph.to_dict g)).2 = Except.ok () ∧
    keyList (TaskGraph.from_dict (TaskGraph.to_dict g)).1 = keyList g ∧
    (∀ tid task, dGet g.tasks tid = some task →
      dGet (TaskGraph.from_dict (TaskGraph.to_dict g)).1.tasks tid =
        some (cacheBake task)) ∧
    (∀ a, adjOf (TaskGraph.from_dict (TaskGraph.to_dict g)).1 a = adjOf g a) ∧
    (∀ a, revOf (TaskGraph.from_dict (TaskGraph.to_dict g)).1 a = revOf g a) := by
  have hfold := phase1_fold hg hdf hsc g.tasks.length le_rfl
  have hlen : (TaskGraph.to_dict g).tasks.length = g.tasks.length := by
    show (g.tasks.map _).length = _
    rw [List.length_map]
  have htake : (TaskGraph.to_dict g).tasks.take g.tasks.length =
      (TaskGraph.to_dict g).tasks := by
    rw [← hlen, List.take_length]
  rw [htake] at hfold
  have hrows : ∀ p ∈ (TaskGraph.to_dict g).dependencies, ∀ d ∈ p.2,
      d ∈ revOf (phase1Graph g g.tasks.length) p.1 := by
    intro p hp d hd
    rw [full_revOf hg]
    exact to_dict_rows hg p hp d hd
  have hmain : TaskGraph.from_dict (TaskGraph.to_dict g) =
      (phase1Graph g g.tasks.length, Except.ok ()) := by
    unfold TaskGraph.from_dict
    rw [hfold]
    dsimp only
    rw [phase2_noop (full_WF hg) (full_SC hg hsc) (full_acyclic hg hdf)
      (TaskGraph.to_dict g).dependencies hrows]
  refine ⟨?_, ?_, ?_, ?_, ?_⟩
  · rw [hmain]
  · rw [hmain]
    exact full_keyList
  · intro tid task h
    rw [hmain]
    show dGet (phase1Graph g g.tasks.length).tasks tid = _
    rw [full_tasks_dGet hg, h]
    rfl
  · intro a
    rw [hmain]
    exact full_adjOf hg a
  · intro a
    rw [hmain]
    exact full_revOf hg a

/-- Claim C5 amended-theorem witness input evaluation. -/
theorem roundtrip_preserves_witness :
    WellFormed gC1 ∧ DepsFirst gC1 ∧ StatusConsistent gC1 ∧
    (TaskGraph.from_dict (TaskGraph.to_dict gC1)).2 = Except.ok () ∧
    dGet (TaskGraph.from_dict (TaskGraph.to_dict gC1)).1.tasks "b" =
      some (cacheBake (mkTask "b" .blocked 1 {"a"} ∅)) ∧
    revOf (TaskGraph.from_dict (TaskGraph.to_dict gC1)).1 "b" = revOf gC1 "b" ∧
    adjOf (TaskGraph.from_dict (TaskGraph.to_dict gC1)).1 "a" = adjOf gC1 "a" :=
  ⟨by decide, by decide, by decide,
    (roundtrip_preserves gC1 (by decide) (by decide) (by decide)).1,
    (roundtrip_preserves gC1 (by decide) (by decide) (by decide)).2.2.1 "b"
      (mkTask "b" .blocked 1 {"a"} ∅) (by decide),
    (roundtrip_preserves gC1 (by decide) (by decide) (by decide)).2.2.2.2 "b",
    (roundtrip_preserves gC1 (by decide) (by decide) (by decide)).2.2.2.1 "a"⟩

/-- The priority pass only touches effective-priority caches: both
adjacency dicts, the key list and every cache-stripped task record are
unchanged. -/
theorem effPrStep_fold_graph (g : TaskGraph) (w : PriorityWeights) (cp : List String)
    (pd : Dict Nat) :
    ∀ (l : List (String × Task)) (st : Dict ℚ × TaskGraph),
      (l.foldl (effPrStep g w cp pd) st).2.adjacency_list = st.2.adjacency_list ∧
      (l.foldl (effPrStep g w cp pd) st).2.reverse_adjacency = st.2.reverse_adjacency ∧
      dKeys (l.foldl (effPrStep g w cp pd) st).2.tasks = dKeys st.2.tasks ∧
      ∀ a, (dGet (l.foldl (effPrStep g w cp pd) st).2.tasks a).map stripCache =
        (dGet st.2.tasks a).map stripCache := by
  intro l
  induction l with
  | nil =>
    intro st
    exact ⟨rfl, rfl, rfl, fun a => rfl⟩
  | cons p rest ih =>
    intro st
    rw [List.foldl_cons]
    have hstep := ih (effPrStep g w cp pd st p)
    refine ⟨hstep.1.trans ?_, hstep.2.1.trans ?_, hstep.2.2.1.trans ?_,
      fun a => (hstep.2.2.2 a).trans ?_⟩
    · unfold effPrStep
      split
      · rfl
      · rfl
    · unfold effPrStep
      split
      · rfl
      · rfl
    · unfold effPrStep
      split
      · rfl
      · exact dKeys_dAdjust _ _ _
    · unfold effPrStep
      split
      · rfl
      · show (dGet (dAdjust st.2.tasks p.1 _) a).map stripCache = _
        rw [dGet_dAdjust]
        by_cases hpa : p.1 = a
        · rw [if_pos hpa]
          cases dGet st.2.tasks a <;> rfl
        · rw [if_neg hpa]

theorem effpr_adj (g : TaskGraph) (w : PriorityWeights) :
    (calculate_effective_priorities g w).2.adjacency_list = g.adjacency_list :=
  (effPrStep_fold_graph g w _ _ g.tasks ([], g)).1

theorem effpr_rev (g : TaskGraph) (w : PriorityWeights) :
    (calculate_effective_priorities g w).2.reverse_adjacency = g.reverse_adjacency :=
  (effPrStep_fold_graph g w _ _ g.tasks ([], g)).2.1

theorem effpr_keys (g : TaskGraph) (w : PriorityWeights) :
    dKeys (calculate_effective_priorities g w).2.tasks = dKeys g.tasks :=
  (effPrStep_fold_graph g w _ _ g.tasks ([], g)).2.2.1

theorem effpr_strip (g : TaskGraph) (w : PriorityWeights) (a : String) :
    (dGet (calculate_effective_priorities g w).2.tasks a).map stripCache =
      (dGet g.tasks a).map stripCache :=
  (effPrStep_fold_graph g w _ _ g.tasks ([], g)).2.2.2 a

theorem effpr_field {g : TaskGraph} {w : PriorityWeights} {β : Type} (f : Task → β)
    (hf : ∀ t, f (stripCache t) = f t) (a : String) :
    (dGet (calculate_effective_priorities g w).2.tasks a).map f =
      (dGet g.tasks a).map f := by
  have h := effpr_strip g w a
  rcases hx : dGet (calculate_effective_priorities g w).2.tasks a with _ | t1 <;>
    rcases hy : dGet g.tasks a with _ | t2 <;> rw [hx, hy] at h <;> simp at h ⊢
  rw [← hf t1, ← hf t2, h]

theorem effpr_adjOf (g : TaskGraph) (w : PriorityWeights) (a : String) :
    adjOf (calculate_effective_priorities g w).2 a = adjOf g a := by
  unfold adjOf
  rw [effpr_adj]

theorem effpr_revOf (g : TaskGraph) (w : PriorityWeights) (a : String) :
    revOf (calculate_effective_priorities g w).2 a = revOf g a := by
  unfold revOf
  rw [effpr_rev]

theorem effpr_keyList (g : TaskGraph) (w : PriorityWeights) :
    keyList (calculate_effective_priorities g w).2 = keyList g :=
  effpr_keys g w

theorem effpr_depsOf (g : TaskGraph) (w : PriorityWeights) (a : String) :
    depsOf (calculate_effective_priorities g w).2 a = depsOf g a := by
  unfold depsOf
  rw [effpr_field Task.dependencies (fun t => rfl)]

theorem effpr_effortOf (g : TaskGraph) (w : PriorityWeights) (a : String) :
    effortOf (calculate_effective_priorities g w).2 a = effortOf g a := by
  unfold effortOf
  rw [effpr_field Task.estimated_effort (fun t => rfl)]

theorem depsOf_eq_revOf {g : TaskGraph} (hg : WellFormed g) (a : String) :
    depsOf g a = revOf g a := by
  unfold depsOf
  rcases ha : dGet g.tasks a with _ | t
  · have hak : a ∉ keyList g := by
      show a ∉ dKeys g.tasks
      rw [← dGet_eq_none]
      exact ha
    rw [revOf_empty_of_not_key hg hak]
    rfl
  · have hsync := hg.2.2.2.2.2.2 _ (mem_of_dGet ha)
    show t.dependencies = _
    exact hsync.2.1

theorem effpr_WF {g : TaskGraph} (w : PriorityWeights) (hg : WellFormed g) :
    WellFormed (calculate_effective_priorities g w).2 := by
  have hkeyset : keySet (calculate_effective_priorities g w).2 = keySet g := by
    unfold keySet keyList
    rw [effpr_keys]
  refine ⟨?_, ?_, ?_, ?_, ?_, ?_, ?_⟩
  · show (dKeys _).Nodup
    rw [effpr_keys]
    exact hg.1
  · rw [effpr_adj]
    show dKeys g.adjacency_list = dKeys _
    rw [effpr_keys]
    exact hg.2.1
  · rw [effpr_rev]
    show dKeys g.reverse_adjacency = dKeys _
    rw [effpr_keys]
    exact hg.2.2.1
  · rw [effpr_adj, hkeyset]
    exact hg.2.2.2.1
  · rw [effpr_rev, hkeyset]
    exact hg.2.2.2.2.1
  · intro a ha b hb
    rw [effpr_adjOf, effpr_revOf]
    rw [show keyList (calculate_effective_priorities g w).2 = keyList g from
      effpr_keys g w] at ha hb
    exact hg.2.2.2.2.2.1 a ha b hb
  · intro p hp
    have hnd : (dKeys (calculate_effective_priorities g w).2.tasks).Nodup := by
      rw [effpr_keys]
      exact hg.1
    have hget : dGet (calculate_effective_priorities g w).2.tasks p.1 = some p.2 :=
      dGet_of_mem_nodup hnd hp
    have hstrip := effpr_strip g w p.1
    rw [hget] at hstrip
    rcases horig : dGet g.tasks p.1 with _ | t0
    · rw [horig] at hstrip
      simp at hstrip
    · rw [horig] at hstrip
      simp at hstrip
      have hsync := hg.2.2.2.2.2.2 _ (mem_of_dGet horig)
      have hid : p.2.id = t0.id := by
        have := congrArg Task.id hstrip
        exact this
      have hdeps : p.2.dependencies = t0.dependencies := by
        have h2 := congrArg Task.dependencies hstrip
        exact h2
      have hdepts : p.2.dependents = t0.dependents := by
        have h2 := congrArg Task.dependents hstrip
        exact h2
      rw [effpr_adjOf, effpr_revOf, hid, hdeps, hdepts]
      exact hsync

theorem minEntry_fold_mem (xs : List (ℚ × String)) (x : ℚ × String) :
    xs.foldl minEntry x ∈ x :: xs := by
  induction xs generalizing x with
  | nil => exact List.mem_cons_self _ _
  | cons y ys ih =>
    rw [List.foldl_cons]
    have h := ih (minEntry x y)
    rcases List.mem_cons.mp h with h1 | h2
    · rw [h1]
      unfold minEntry
      by_cases hc : entryLt y x = true
      · rw [if_pos hc]
        exact List.mem_cons_of_mem _ (List.mem_cons_self _ _)
      · rw [if_neg hc]
        exact List.mem_cons_self _ _
    · exact List.mem_cons_of_mem _ (List.mem_cons_of_mem _ h2)

theorem popMin_mem {l : List (ℚ × String)} {m : ℚ × String} {rest : List (ℚ × String)}
    (h : popMin l = some (m, rest)) : m ∈ l := by
  cases l with
  | nil => simp [popMin] at h
  | cons x xs =>
    have h2 : (xs.foldl minEntry x, (x :: xs).erase (xs.foldl minEntry x)) = (m, rest) := by
      injection h
    have hm : xs.foldl minEntry x = m := congrArg Prod.fst h2
    rw [← hm]
    exact minEntry_fold_mem xs x

theorem popMin_rest_sub {l : List (ℚ × String)} {m : ℚ × String}
    {rest : List (ℚ × String)} (h : popMin l = some (m, rest)) :
    ∀ p ∈ rest, p ∈ l := by
  cases l with
  | nil => simp [popMin] at h
  | cons x xs =>
    have h2 : (xs.foldl minEntry x, (x :: xs).erase (xs.foldl minEntry x)) = (m, rest) := by
      injection h
    have hrest : (x :: xs).erase (xs.foldl minEntry x) = rest := congrArg Prod.snd h2
    intro p hp
    rw [← hrest] at hp
    exact List.erase_subset _ _ hp

theorem popMin_rest_length {l : List (ℚ × String)} {m : ℚ × String}
    {rest : List (ℚ × String)} (h : popMin l = some (m, rest)) :
    rest.length + 1 = l.length := by
  cases l with
  | nil => simp [popMin] at h
  | cons x xs =>
    have h2 : (xs.foldl minEntry x, (x :: xs).erase (xs.foldl minEntry x)) = (m, rest) := by
      injection h
    have hrest : (x :: xs).erase (xs.foldl minEntry x) = rest := congrArg Prod.snd h2
    have hmem := minEntry_fold_mem xs x
    rw [← hrest, List.length_erase_of_mem hmem]
    simp

theorem mem_dKeys_dPut {α : Type} (d : Dict α) (k : String) (v : α) (x : String) :
    x ∈ dKeys (dPut d k v) ↔ x ∈ dKeys d ∨ x = k := by
  induction d with
  | nil =>
    show x ∈ [k] ↔ _
    simp [dKeys]
  | cons p rest ih =>
    obtain ⟨a, w⟩ := p
    by_cases ha : a = k
    · subst ha
      rw [dPut, if_pos rfl]
      show x ∈ a :: dKeys rest ↔ _
      constructor
      · intro h
        exact Or.inl h
      · intro h
        rcases h with h | h
        · exact h
        · rw [h]
          exact List.mem_cons_self _ _
    · rw [dPut, if_neg ha]
      show x ∈ a :: dKeys (dPut rest k v) ↔ x ∈ a :: dKeys rest ∨ x = k
      rw [List.mem_cons, List.mem_cons, ih]
      tauto

theorem get_dependents_subset_adjOf (g : TaskGraph) (tid : String) :
    get_dependents g tid ⊆ adjOf g tid := by
  unfold get_dependents
  split
  · exact Finset.empty_subset _
  · exact Finset.Subset.refl _

theorem mem_get_root_tasks {g : TaskGraph} {t : Task} :
    t ∈ get_root_tasks g ↔ ∃ key, (key, t) ∈ g.tasks ∧ revOf g key = ∅ := by
  unfold get_root_tasks
  constructor
  · intro h
    obtain ⟨p, hp, hpt⟩ := List.mem_map.mp h
    have hf := List.mem_filter.mp hp
    refine ⟨p.1, ?_, by simpa using hf.2⟩
    have hpp : p = (p.1, t) := by
      rw [← hpt]
    rw [← hpp]
    exact hf.1
  · rintro ⟨key, hmem, hrev⟩
    exact List.mem_map.mpr ⟨(key, t), List.mem_filter.mpr ⟨hmem, by simpa using hrev⟩, rfl⟩

theorem schedLoop_eq_empty (g2 : TaskGraph) (f : Nat) (uns : Finset String)
    (ra : List ℚ) (sched : Dict SchedEntry) (ready : List (ℚ × String))
    (hU : uns = ∅) :
    schedLoop g2 (f + 1) uns ra sched ready = (uns, ra, sched) := by
  rw [schedLoop, if_pos hU]

theorem schedLoop_eq_none (g2 : TaskGraph) (f : Nat) (uns : Finset String)
    (ra : List ℚ) (sched : Dict SchedEntry) (ready : List (ℚ × String))
    (hU : ¬ uns = ∅) (hpop : popMin ready = none) :
    schedLoop g2 (f + 1) uns ra sched ready = (uns, ra, sched) := by
  rw [schedLoop, if_neg hU, hpop]

theorem schedLoop_eq_skip (g2 : TaskGraph) (f : Nat) (uns : Finset String)
    (ra : List ℚ) (sched : Dict SchedEntry) (ready : List (ℚ × String))
    {q : ℚ} {tid : String} {rest : List (ℚ × String)} (hU : ¬ uns = ∅)
    (hpop : popMin ready = some ((q, tid), rest)) (htid : tid ∉ uns) :
    schedLoop g2 (f + 1) uns ra sched ready = schedLoop g2 f uns ra sched rest := by
  rw [schedLoop, if_neg hU, hpop]
  show (if tid ∉ uns then schedLoop g2 f uns ra sched rest else _) = _
  rw [if_pos htid]

theorem schedLoop_eq_sched (g2 : TaskGraph) (f : Nat) (uns : Finset String)
    (ra : List ℚ) (sched : Dict SchedEntry) (ready : List (ℚ × String))
    {q : ℚ} {tid : String} {rest : List (ℚ × String)} (hU : ¬ uns = ∅)
    (hpop : popMin ready = some ((q, tid), rest)) (htid : tid ∈ uns) :
    schedLoop g2 (f + 1) uns ra sched ready =
      schedLoop g2 f (uns.erase tid)
        (ra.set (idxOfMin ra) (schedStart g2 sched ra tid + effortOf g2 tid))
        (dPut sched tid
          ⟨schedStart g2 sched ra tid,
           schedStart g2 sched ra tid + effortOf g2 tid, idxOfMin ra⟩)
        (rest ++ (schedPushes g2 (uns.erase tid) tid).map
          (fun dep2 => (-effPrioOf g2 dep2, dep2))) := by
  rw [schedLoop, if_neg hU, hpop]
  show (if tid ∉ uns then schedLoop g2 f uns ra sched rest else _) = _
  rw [if_neg (not_not_intro htid)]

/-- C10 loop invariant: a task with no dependency row that never enters
the ready heap — together with everything reachable from it along
dependent edges — survives the whole loop unscheduled (a dependent is
only enqueued when all of its dependencies have left the unscheduled
set, and some dependency on the chain back to `R` never does). -/
theorem schedLoop_root_inv (g2 : TaskGraph) (hg2 : WellFormed g2) (R : String)
    (hroot : revOf g2 R = ∅) :
    ∀ (fuel : Nat) (uns : Finset String) (ra : List ℚ) (sched : Dict SchedEntry)
      (ready : List (ℚ × String)),
      R ∈ uns →
      (∀ x, StepReach (adjOf g2) R x → x ∈ uns) →
      (∀ p ∈ ready, p.2 ≠ R ∧ ¬ StepReach (adjOf g2) R p.2) →
      R ∉ dKeys sched →
      (∀ x, StepReach (adjOf g2) R x → x ∉ dKeys sched) →
      R ∈ (schedLoop g2 fuel uns ra sched ready).1 ∧
      R ∉ dKeys (schedLoop g2 fuel uns ra sched ready).2.2 ∧
      (∀ x, StepReach (adjOf g2) R x →
        x ∈ (schedLoop g2 fuel uns ra sched ready).1 ∧
        x ∉ dKeys (schedLoop g2 fuel uns ra sched ready).2.2) := by
  intro fuel
  induction fuel with
  | zero =>
    intro uns ra sched ready h1 h2 h3 h4 h5
    exact ⟨h1, h4, fun x hx => ⟨h2 x hx, h5 x hx⟩⟩
  | succ f ih =>
    intro uns ra sched ready h1 h2 h3 h4 h5
    by_cases hU : uns = ∅
    · rw [schedLoop_eq_empty g2 f uns ra sched ready hU]
      exact ⟨h1, h4, fun x hx => ⟨h2 x hx, h5 x hx⟩⟩
    · rcases hpop : popMin ready with _ | pr
      · rw [schedLoop_eq_none g2 f uns ra sched ready hU hpop]
        exact ⟨h1, h4, fun x hx => ⟨h2 x hx, h5 x hx⟩⟩
      · obtain ⟨⟨q, tid⟩, rest⟩ := pr
        have hmem := popMin_mem hpop
        have htidprop := h3 _ hmem
        by_cases htid : tid ∉ uns
        · rw [schedLoop_eq_skip g2 f uns ra sched ready hU hpop htid]
          exact ih uns ra sched rest h1 h2
            (fun p hp => h3 p (popMin_rest_sub hpop p hp)) h4 h5
        · rw [not_not] at htid
          rw [schedLoop_eq_sched g2 f uns ra sched ready hU hpop htid]
          have hRne : R ≠ tid := fun hh => htidprop.1 hh.symm
          have h1' : R ∈ uns.erase tid := Finset.mem_erase.mpr ⟨hRne, h1⟩
          have h2' : ∀ x, StepReach (adjOf g2) R x → x ∈ uns.erase tid := by
            intro x hx
            refine Finset.mem_erase.mpr ⟨?_, h2 x hx⟩
            intro hh
            exact htidprop.2 (hh ▸ hx)
          have h4' : ∀ (e : SchedEntry), R ∉ dKeys (dPut sched tid e) := by
            intro e hh
            rcases (mem_dKeys_dPut sched tid e R).mp hh with hh1 | hh2
            · exact h4 hh1
            · exact hRne hh2
          have h5' : ∀ (e : SchedEntry), ∀ x, StepReach (adjOf g2) R x →
              x ∉ dKeys (dPut sched tid e) := by
            intro e x hx hh
            rcases (mem_dKeys_dPut sched tid e x).mp hh with hh1 | hh2
            · exact h5 x hx hh1
            · exact htidprop.2 (hh2 ▸ hx)
          have h3' : ∀ p ∈ rest ++ (schedPushes g2 (uns.erase tid) tid).map
                (fun dep2 => (-effPrioOf g2 dep2, dep2)),
              p.2 ≠ R ∧ ¬ StepReach (adjOf g2) R p.2 := by
            intro p hp
            rcases List.mem_append.mp hp with hp1 | hp2
            · exact h3 p (popMin_rest_sub hpop p hp1)
            · obtain ⟨dep2, hdep2, hpd⟩ := List.mem_map.mp hp2
              have hfil := List.mem_filter.mp hdep2
              have hadj : dep2 ∈ adjOf g2 tid :=
                get_dependents_subset_adjOf g2 tid (mem_setToList.mp hfil.1)
              have hconds : dep2 ∈ uns.erase tid ∧
                  ∀ dp ∈ depsOf g2 dep2, dp ∉ uns.erase tid := by
                have hb := hfil.2
                rw [Bool.and_eq_true, decide_eq_true_eq, decide_eq_true_eq] at hb
                exact hb
              have hp2eq : p.2 = dep2 := by rw [← hpd]
              rw [hp2eq]
              constructor
              · intro hh
                rw [hh] at hadj
                have hmemR := (mem_adjOf_iff_mem_revOf hg2 tid R).mp hadj
                rw [hroot] at hmemR
                exact Finset.not_mem_empty _ hmemR
              · intro hreach
                cases hreach with
                | single hstep =>
                  have hRdep : R ∈ depsOf g2 dep2 := by
                    rw [depsOf_eq_revOf hg2]
                    exact (mem_adjOf_iff_mem_revOf hg2 R dep2).mp hstep
                  exact hconds.2 R hRdep h1'
                | tail hpath hstep =>
                  rename_i y
                  have hy : y ∈ uns.erase tid := h2' y hpath
                  have hydep : y ∈ depsOf g2 dep2 := by
                    rw [depsOf_eq_revOf hg2]
                    exact (mem_adjOf_iff_mem_revOf hg2 y dep2).mp hstep
                  exact hconds.2 y hydep hy
          exact ih _ _ _ _ h1' h2' h3' (h4' _) (h5' _)

/-- Claim C10: in generate_schedule, a root task (no dependencies)
whose status is Completed is never assigned a schedule entry — it stays
in the unscheduled set, whose size is the returned unscheduled_tasks
count (hence that count is positive) — and every task transitively
depending on it is likewise left unscheduled, because a dependent is
enqueued only when all of its dependencies have left the unscheduled
set. -/
theorem completed_root_unscheduled (g : TaskGraph) (resources : Nat) (R : String)
    (taskR : Task) (hg : WellFormed g) (hR : dGet g.tasks R = some taskR)
    (hstatus : taskR.status = TaskStatus.completed) (hroot : revOf g R = ∅) :
    R ∈ (schedState g resources).1 ∧
    dGet (generate_schedule g resources).1 R = none ∧
    0 < (generate_schedule g resources).2 ∧
    (∀ x, StepReach (adjOf g) R x →
      x ∈ (schedState g resources).1 ∧
      dGet (generate_schedule g resources).1 x = none) := by
  have hg2 : WellFormed (calculate_effective_priorities g defaultWeights).2 :=
    effpr_WF defaultWeights hg
  have hroot2 : revOf (calculate_effective_priorities g defaultWeights).2 R = ∅ := by
    rw [effpr_revOf]
    exact hroot
  have hreach2 : ∀ x, StepReach (adjOf g) R x →
      StepReach (adjOf (calculate_effective_priorities g defaultWeights).2) R x := by
    intro x hx
    refine stepReach_mono ?_ hx
    intro a
    rw [effpr_adjOf]
  have hRkey : R ∈ keyList g := by
    have hs : (dGet g.tasks R).isSome = true := by rw [hR]; rfl
    exact (dGet_isSome g.tasks R).mp hs
  have h1 : R ∈ (keyList (calculate_effective_priorities g defaultWeights).2).toFinset := by
    rw [List.mem_toFinset, effpr_keyList]
    exact hRkey
  have h2 : ∀ x, StepReach (adjOf (calculate_effective_priorities g defaultWeights).2) R x →
      x ∈ (keyList (calculate_effective_priorities g defaultWeights).2).toFinset := by
    intro x hx
    cases hx with
    | single h => exact adjOf_subset_keySet hg2 _ h
    | tail _ h => exact adjOf_subset_keySet hg2 _ h
  have h3 : ∀ p ∈ initReady (calculate_effective_priorities g defaultWeights).2,
      p.2 ≠ R ∧
      ¬ StepReach (adjOf (calculate_effective_priorities g defaultWeights).2) R p.2 := by
    intro p hp
    obtain ⟨t, ht, hpt⟩ := List.mem_map.mp hp
    have hfil := List.mem_filter.mp ht
    obtain ⟨key, hkeymem, hkeyrev⟩ := mem_get_root_tasks.mp hfil.1
    have hid : t.id = key := (hg2.2.2.2.2.2.2 _ hkeymem).1
    have hp2 : p.2 = key := by
      rw [← hpt]
      exact hid
    rw [hp2]
    constructor
    · intro hh
      subst hh
      have hgetR : dGet (calculate_effective_priorities g defaultWeights).2.tasks key =
          some t := dGet_of_mem_nodup hg2.1 hkeymem
      have hstat := effpr_field (g := g) (w := defaultWeights) Task.status
        (fun _ => rfl) key
      rw [hgetR, hR] at hstat
      simp at hstat
      rw [hstatus] at hstat
      have := hfil.2
      rw [decide_eq_true_eq] at this
      exact this hstat
    · intro hx
      cases hx with
      | single h =>
        have := (mem_adjOf_iff_mem_revOf hg2 R key).mp h
        rw [hkeyrev] at this
        exact Finset.not_mem_empty _ this
      | tail hpath h =>
        rename_i y
        have := (mem_adjOf_iff_mem_revOf hg2 y key).mp h
        rw [hkeyrev] at this
        exact Finset.not_mem_empty _ this
  have hres := schedLoop_root_inv (calculate_effective_priorities g defaultWeights).2 hg2 R
    hroot2
    (schedFuel (calculate_effective_priorities g defaultWeights).2)
    (keyList (calculate_effective_priorities g defaultWeights).2).toFinset
    (List.replicate resources (0 : ℚ)) [] (initReady _)
    h1 h2 h3 (by simp [dKeys]) (fun x _ => by simp [dKeys])
  refine ⟨hres.1, ?_, ?_, ?_⟩
  · rw [dGet_eq_none]
    exact hres.2.1
  · exact Finset.card_pos.mpr ⟨R, hres.1⟩
  · intro x hx
    refine ⟨(hres.2.2 x (hreach2 x hx)).1, ?_⟩
    rw [dGet_eq_none]
    exact (hres.2.2 x (hreach2 x hx)).2

/-- Claim C10 witness input evaluation. -/
theorem completed_root_unscheduled_witness :
    WellFormed gRC ∧ dGet gRC.tasks "r" = some (mkTask "r" .completed 1 ∅ {"c"}) ∧
    (mkTask "r" .completed 1 ∅ {"c"}).status = TaskStatus.completed ∧
    revOf gRC "r" = ∅ ∧
    "r" ∈ (schedState gRC 1).1 ∧
    dGet (generate_schedule gRC 1).1 "r" = none ∧
    0 < (generate_schedule gRC 1).2 ∧
    ("c" ∈ (schedState gRC 1).1 ∧ dGet (generate_schedule gRC 1).1 "c" = none) :=
  ⟨by decide, by decide, by decide, by decide,
    (completed_root_unscheduled gRC 1 "r" (mkTask "r" .completed 1 ∅ {"c"})
      (by decide) (by decide) (by decide) (by decide)).1,
    (completed_root_unscheduled gRC 1 "r" (mkTask "r" .completed 1 ∅ {"c"})
      (by decide) (by decide) (by decide) (by decide)).2.1,
    (completed_root_unscheduled gRC 1 "r" (mkTask "r" .completed 1 ∅ {"c"})
      (by decide) (by decide) (by decide) (by decide)).2.2.1,
    (completed_root_unscheduled gRC 1 "r" (mkTask "r" .completed 1 ∅ {"c"})
      (by decide) (by decide) (by decide) (by decide)).2.2.2 "c"
      (StepReach.single (by decide))⟩

theorem startStep_ge (sched : Dict SchedEntry) (st : ℚ) (dep : String) :
    st ≤ startStep sched st dep := by
  unfold startStep
  split
  · rename_i e heq
    by_cases h : e.end_time > st
    · rw [if_pos h]
      exact le_of_lt h
    · rw [if_neg h]
  · exact le_refl st

theorem startStep_some (sched : Dict SchedEntry) (st : ℚ) (dep : String)
    (e : SchedEntry) (h : dGet sched dep = some e) :
    e.end_time ≤ startStep sched st dep := by
  unfold startStep
  rw [h]
  show e.end_time ≤ if e.end_time > st then e.end_time else st
  by_cases hgt : e.end_time > st
  · rw [if_pos hgt]
  · rw [if_neg hgt]
    exact le_of_not_lt hgt

theorem schedStart_fold (sched : Dict SchedEntry) :
    ∀ (l : List String) (st : ℚ),
      st ≤ l.foldl (startStep sched) st ∧
      ∀ dep ∈ l, ∀ e, dGet sched dep = some e →
        e.end_time ≤ l.foldl (startStep sched) st := by
  intro l
  induction l with
  | nil =>
    intro st
    exact ⟨le_refl _, fun dep h => absurd h (List.not_mem_nil _)⟩
  | cons d rest ih =>
    intro st
    rw [List.foldl_cons]
    refine ⟨(startStep_ge sched st d).trans (ih (startStep sched st d)).1, ?_⟩
    intro dep hdep e he
    rcases List.mem_cons.mp hdep with h1 | h2
    · subst h1
      exact (startStep_some sched st dep e he).trans (ih (startStep sched st dep)).1
    · exact (ih (startStep sched st d)).2 dep h2 e he

/-- C8 loop invariant: throughout the loop, every schedule entry's end
time is its start time plus the task's effort, and every dependency of
a scheduled task is itself scheduled with an end time at or before the
task's start time. -/
theorem schedLoop_times_inv (g2 : TaskGraph) (hg2 : WellFormed g2) :
    ∀ (fuel : Nat) (uns : Finset String) (ra : List ℚ) (sched : Dict SchedEntry)
      (ready : List (ℚ × String)),
      (∀ x ∈ dKeys sched, x ∉ uns) →
      (∀ x ∈ keyList g2, x ∉ uns → x ∈ dKeys sched) →
      (∀ p ∈ ready, ∀ dp ∈ depsOf g2 p.2, dp ∉ uns) →
      (∀ t e, dGet sched t = some e →
        e.end_time = e.start_time + effortOf g2 t ∧
        ∀ dep ∈ depsOf g2 t, ∃ ed, dGet sched dep = some ed ∧
          ed.end_time ≤ e.start_time) →
      ∀ t e, dGet (schedLoop g2 fuel uns ra sched ready).2.2 t = some e →
        e.end_time = e.start_time + effortOf g2 t ∧
        ∀ dep ∈ depsOf g2 t, ∃ ed,
          dGet (schedLoop g2 fuel uns ra sched ready).2.2 dep = some ed ∧
          ed.end_time ≤ e.start_time := by
  intro fuel
  induction fuel with
  | zero =>
    intro uns ra sched ready _ _ _ hJ34
    exact hJ34
  | succ f ih =>
    intro uns ra sched ready hJ1 hJ1' hJ2 hJ34
    by_cases hU : uns = ∅
    · rw [schedLoop_eq_empty _ _ _ _ _ _ hU]
      exact hJ34
    · rcases hpop : popMin ready with _ | pr
      · rw [schedLoop_eq_none _ _ _ _ _ _ hU hpop]
        exact hJ34
      · obtain ⟨⟨q, tid⟩, rest⟩ := pr
        by_cases htid : tid ∉ uns
        · rw [schedLoop_eq_skip _ _ _ _ _ _ hU hpop htid]
          exact ih uns ra sched rest hJ1 hJ1'
            (fun p hp => hJ2 p (popMin_rest_sub hpop p hp)) hJ34
        · rw [not_not] at htid
          rw [schedLoop_eq_sched _ _ _ _ _ _ hU hpop htid]
          have htidnot : tid ∉ dKeys sched := fun hh => hJ1 tid hh htid
          have hdeps_tid : ∀ dp ∈ depsOf g2 tid, dp ∉ uns := hJ2 _ (popMin_mem hpop)
          set e0 : SchedEntry := ⟨schedStart g2 sched ra tid,
            schedStart g2 sched ra tid + effortOf g2 tid, idxOfMin ra⟩ with he0
          have hJ1n : ∀ x ∈ dKeys (dPut sched tid e0), x ∉ uns.erase tid := by
            intro x hx
            rcases (mem_dKeys_dPut sched tid e0 x).mp hx with h1 | h2
            · intro hmem
              exact hJ1 x h1 (Finset.mem_of_mem_erase hmem)
            · rw [h2]
              exact Finset.not_mem_erase tid uns
          have hJ1n' : ∀ x ∈ keyList g2, x ∉ uns.erase tid →
              x ∈ dKeys (dPut sched tid e0) := by
            intro x hxkey hx
            by_cases hxt : x = tid
            · exact (mem_dKeys_dPut sched tid e0 x).mpr (Or.inr hxt)
            · have hxuns : x ∉ uns := by
                intro hh
                exact hx (Finset.mem_erase.mpr ⟨hxt, hh⟩)
              exact (mem_dKeys_dPut _ _ _ x).mpr (Or.inl (hJ1' x hxkey hxuns))
          have hJ2n : ∀ p ∈ rest ++ (schedPushes g2 (uns.erase tid) tid).map
              (fun dep2 => (-effPrioOf g2 dep2, dep2)),
              ∀ dp ∈ depsOf g2 p.2, dp ∉ uns.erase tid := by
            intro p hp dp hdp
            rcases List.mem_append.mp hp with h1 | h2
            · intro hh
              exact hJ2 p (popMin_rest_sub hpop p h1) dp hdp (Finset.mem_of_mem_erase hh)
            · obtain ⟨dep2, hdep2, hpd⟩ := List.mem_map.mp h2
              have hfil := List.mem_filter.mp hdep2
              have hb := hfil.2
              rw [Bool.and_eq_true, decide_eq_true_eq, decide_eq_true_eq] at hb
              have hp2 : p.2 = dep2 := by rw [← hpd]
              rw [hp2] at hdp
              exact hb.2 dp hdp
          have hJ34n : ∀ t e, dGet (dPut sched tid e0) t = some e →
              e.end_time = e.start_time + effortOf g2 t ∧
              ∀ dep ∈ depsOf g2 t, ∃ ed, dGet (dPut sched tid e0) dep = some ed ∧
                ed.end_time ≤ e.start_time := by
            intro t e hget
            by_cases htt : t = tid
            · subst htt
              rw [dGet_dPut_self] at hget
              have he : e = e0 := (Option.some.inj hget).symm
              subst he
              refine ⟨by rw [he0], ?_⟩
              intro dep hdep
              have hdepkey : dep ∈ keyList g2 := by
                rw [depsOf_eq_revOf hg2] at hdep
                exact keyList_mem_of_revOf hg2 hdep
              have hdepsched : dep ∈ dKeys sched := hJ1' dep hdepkey (hdeps_tid dep hdep)
              obtain ⟨ed, hed⟩ := dGet_some_of_mem hdepsched
              have hdep_ne : dep ≠ t := fun hh => htidnot (hh ▸ hdepsched)
              refine ⟨ed, ?_, ?_⟩
              · rw [dGet_dPut_ne _ _ _ _ (Ne.symm hdep_ne)]
                exact hed
              · exact (schedStart_fold sched (setToList (depsOf g2 t))
                  (ra.getD (idxOfMin ra) 0)).2 dep (mem_setToList.mpr hdep) ed hed
            · rw [dGet_dPut_ne _ _ _ _ (Ne.symm htt)] at hget
              have hold := hJ34 t e hget
              refine ⟨hold.1, ?_⟩
              intro dep hdep
              obtain ⟨ed, hed1, hed2⟩ := hold.2 dep hdep
              have hdepne : dep ≠ tid := by
                intro hh
                rw [hh] at hed1
                have : (dGet sched tid).isSome = true := by rw [hed1]; rfl
                exact htidnot ((dGet_isSome sched tid).mp this)
              refine ⟨ed, ?_, hed2⟩
              rw [dGet_dPut_ne _ _ _ _ (Ne.symm hdepne)]
              exact hed1
          exact ih _ _ _ _ hJ1n hJ1n' hJ2n hJ34n

/-- Claim C8: in the schedule returned by generate_schedule, every
scheduled task's end_time is its start_time plus its estimated effort
in hours, and its start_time is at or after the end_time of each of
its dependencies — all of which are themselves in the schedule (so in
particular the start is the dependency-feasible time the source
computes as the later of resource availability and the dependencies'
latest finish). -/
theorem schedule_times (g : TaskGraph) (resources : Nat) (hg : WellFormed g)
    (t : String) (e : SchedEntry)
    (hsched : dGet (generate_schedule g resources).1 t = some e) :
    e.end_time = e.start_time + effortOf g t ∧
    ∀ dep ∈ depsOf g t, ∃ ed,
      dGet (generate_schedule g resources).1 dep = some ed ∧
      ed.end_time ≤ e.start_time := by
  have hg2 : WellFormed (calculate_effective_priorities g defaultWeights).2 :=
    effpr_WF defaultWeights hg
  have hJ1 : ∀ x ∈ dKeys ([] : Dict SchedEntry),
      x ∉ (keyList (calculate_effective_priorities g defaultWeights).2).toFinset := by
    intro x hx
    simp [dKeys] at hx
  have hJ1' : ∀ x ∈ keyList (calculate_effective_priorities g defaultWeights).2,
      x ∉ (keyList (calculate_effective_priorities g defaultWeights).2).toFinset →
      x ∈ dKeys ([] : Dict SchedEntry) := by
    intro x hx hnot
    exact absurd (List.mem_toFinset.mpr hx) hnot
  have hJ2 : ∀ p ∈ initReady (calculate_effective_priorities g defaultWeights).2,
      ∀ dp ∈ depsOf (calculate_effective_priorities g defaultWeights).2 p.2,
      dp ∉ (keyList (calculate_effective_priorities g defaultWeights).2).toFinset := by
    intro p hp dp hdp
    obtain ⟨tk, ht, hpt⟩ := List.mem_map.mp hp
    have hfil := List.mem_filter.mp ht
    obtain ⟨key, hkeymem, hkeyrev⟩ := mem_get_root_tasks.mp hfil.1
    have hid : tk.id = key := (hg2.2.2.2.2.2.2 _ hkeymem).1
    have hp2 : p.2 = key := by
      rw [← hpt]
      exact hid
    rw [hp2, depsOf_eq_revOf hg2, hkeyrev] at hdp
    exact absurd hdp (Finset.not_mem_empty _)
  have hJ34 : ∀ t2 e2, dGet ([] : Dict SchedEntry) t2 = some e2 →
      e2.end_time = e2.start_time +
        effortOf (calculate_effective_priorities g defaultWeights).2 t2 ∧
      ∀ dep ∈ depsOf (calculate_effective_priorities g defaultWeights).2 t2,
        ∃ ed, dGet ([] : Dict SchedEntry) dep = some ed ∧
          ed.end_time ≤ e2.start_time := by
    intro t2 e2 h
    cases h
  have hmain := schedLoop_times_inv (calculate_effective_priorities g defaultWeights).2 hg2
    (schedFuel (calculate_effective_priorities g defaultWeights).2)
    (keyList (calculate_effective_priorities g defaultWeights).2).toFinset
    (List.replicate resources (0 : ℚ)) []
    (initReady (calculate_effective_priorities g defaultWeights).2)
    hJ1 hJ1' hJ2 hJ34 t e hsched
  rw [effpr_effortOf, effpr_depsOf] at hmain
  exact hmain

/-- Claim C8 witness input evaluation. -/
theorem schedule_times_witness :
    WellFormed gC1 ∧
    dGet (generate_schedule gC1 1).1 "b" = some ⟨1, 2, 0⟩ ∧
    ((⟨1, 2, 0⟩ : SchedEntry).end_time =
        (⟨1, 2, 0⟩ : SchedEntry).start_time + effortOf gC1 "b" ∧
      ∀ dep ∈ depsOf gC1 "b", ∃ ed,
        dGet (generate_schedule gC1 1).1 dep = some ed ∧
        ed.end_time ≤ (⟨1, 2, 0⟩ : SchedEntry).start_time) :=
  ⟨by decide, by decide,
    schedule_times gC1 1 (by decide) "b" ⟨1, 2, 0⟩ (by decide)⟩

end Autodev

